import Mathlib

/-!
# Terminal chess: the rules engine of `src/chess.cpp`

A shallow embedding of the board, the per-piece movement rules, attack and
check detection and `Board::move`, followed by theorems about them.

Modelling conventions.

* `int` coordinates are `Int`.  Every subtraction and addition of the source is
  applied to coordinates that lie in `[-1, 8]` whenever the squares involved
  are valid, so 32-bit overflow never matters for the statements below.
* `Piece cells_[8][8]` is a function `Fin 8 → Fin 8 → Piece`.  Reading or
  writing the grid at a `Position` that is not valid is undefined behaviour in
  the source; here it is the fault `Fault.outOfBounds`.
* The `for`/`while` loops of `pathClearStraight` and `pathClearDiagonal` are
  recursive functions with a fuel counter, one unit per evaluation of the loop
  condition; running out of fuel is the fault `Fault.outOfFuel`.
* A member function that mutates the board returns the new board.
* Statements about which cells are accessed and which path calls are made use
  an instrumented copy of the engine (the functions whose names end in `T`),
  which returns the record of those events next to the same result.
-/

namespace Chess

/-! ## Data model -/

/-- The enumeration `Color` of the source. -/
inductive Color where
  | WHITE
  | BLACK
  | NONE
  deriving DecidableEq

/-- The enumeration `PieceType` of the source. -/
inductive PieceType where
  | KING
  | QUEEN
  | ROOK
  | BISHOP
  | KNIGHT
  | PAWN
  | NONE
  deriving DecidableEq

/-- The struct `Position`: two `int` coordinates. -/
structure Position where
  row : Int
  col : Int
  deriving DecidableEq

/-- The method `Position::isValid`. -/
def Position.isValid (p : Position) : Bool :=
  decide (p.row ≥ 0) && decide (p.row < 8) && decide (p.col ≥ 0) && decide (p.col < 8)

/-- The struct `Piece`: a colour and a kind. -/
structure Piece where
  color : Color
  type : PieceType
  deriving DecidableEq

/-- The default-constructed `Piece()`, that is `Piece(Color::NONE, PieceType::NONE)`. -/
def Piece.empty : Piece := ⟨Color.NONE, PieceType.NONE⟩

/-- What goes wrong when the source would leave defined behaviour. -/
inductive Fault where
  | outOfBounds
  | outOfFuel
  deriving DecidableEq

deriving instance DecidableEq for Except

/-- The class `Board`: its only data member is the grid `cells_`. -/
structure Board where
  cells_ : Fin 8 → Fin 8 → Piece

/-- The array index denoted by an `int` coordinate that is known to lie in `[0,7]`. -/
def idx (i : Int) : Fin 8 := Fin.ofNat i.toNat

/-- The square `Position(r, c)` built from two loop counters. -/
def Position.ofFin (r c : Fin 8) : Position := ⟨(r.val : Int), (c.val : Int)⟩

/-- The cell `cells_[p.row][p.col]` for a position already known to be valid. -/
def Board.cell (b : Board) (p : Position) : Piece := b.cells_ (idx p.row) (idx p.col)

/-- The accessor `Board::at`; an index outside the grid is a fault. -/
def Board.at (b : Board) (p : Position) : Except Fault Piece :=
  if p.isValid then .ok (b.cell p) else .error Fault.outOfBounds

/-- The assignment `cells_[r][c] = x` with indices inside the grid. -/
def Board.put (b : Board) (r c : Fin 8) (x : Piece) : Board :=
  ⟨fun r' c' => if r' = r ∧ c' = c then x else b.cells_ r' c'⟩

/-- The assignment `cells_[p.row][p.col] = x`; an index outside the grid is a fault. -/
def Board.set (b : Board) (p : Position) (x : Piece) : Except Fault Board :=
  if p.isValid then .ok (b.put (idx p.row) (idx p.col) x) else .error Fault.outOfBounds

/-- The method `Board::isEmpty`. -/
def Board.isEmpty (b : Board) (p : Position) : Except Fault Bool := do
  let x ← b.at p
  pure (decide (x.type = PieceType.NONE))

/-- The method `Board::sameColor`. -/
def Board.sameColor (b : Board) (p : Position) (c : Color) : Except Fault Bool := do
  let x ← b.at p
  pure (decide (x.type ≠ PieceType.NONE) && decide (x.color = c))

/-- The method `Board::differentColorOrEmpty`. -/
def Board.differentColorOrEmpty (b : Board) (p : Position) (c : Color) : Except Fault Bool := do
  let x ← b.at p
  pure (decide (x.type = PieceType.NONE) || decide (x.color ≠ c))

/-! ## Initial position -/

/-- The loop counters `0, 1, ..., 7`. -/
def indices : List (Fin 8) := [0, 1, 2, 3, 4, 5, 6, 7]

/-- The grid after the clearing loop of `setupInitial`: every cell is `Piece()`. -/
def Board.cleared : Board := ⟨fun _ _ => Piece.empty⟩

/-- A loop `for (int c = 0; c < 8; ++c) cells_[r][c] = x` of `setupInitial`. -/
def Board.fillRow (b : Board) (r : Fin 8) (x : Piece) : Board :=
  indices.foldl (fun acc c => acc.put r c x) b

/-- The method `Board::setupInitial`, run by the constructor `Board()`: the
clearing loop followed by the assignments in the order of the source. -/
def Board.setupInitial : Board :=
  let b := Board.cleared
  let b := b.put 0 0 ⟨Color.BLACK, PieceType.ROOK⟩
  let b := b.put 0 1 ⟨Color.BLACK, PieceType.KNIGHT⟩
  let b := b.put 0 2 ⟨Color.BLACK, PieceType.BISHOP⟩
  let b := b.put 0 3 ⟨Color.BLACK, PieceType.QUEEN⟩
  let b := b.put 0 4 ⟨Color.BLACK, PieceType.KING⟩
  let b := b.put 0 5 ⟨Color.BLACK, PieceType.BISHOP⟩
  let b := b.put 0 6 ⟨Color.BLACK, PieceType.KNIGHT⟩
  let b := b.put 0 7 ⟨Color.BLACK, PieceType.ROOK⟩
  let b := b.fillRow 1 ⟨Color.BLACK, PieceType.PAWN⟩
  let b := b.fillRow 6 ⟨Color.WHITE, PieceType.PAWN⟩
  let b := b.put 7 0 ⟨Color.WHITE, PieceType.ROOK⟩
  let b := b.put 7 1 ⟨Color.WHITE, PieceType.KNIGHT⟩
  let b := b.put 7 2 ⟨Color.WHITE, PieceType.BISHOP⟩
  let b := b.put 7 3 ⟨Color.WHITE, PieceType.QUEEN⟩
  let b := b.put 7 4 ⟨Color.WHITE, PieceType.KING⟩
  let b := b.put 7 5 ⟨Color.WHITE, PieceType.BISHOP⟩
  let b := b.put 7 6 ⟨Color.WHITE, PieceType.KNIGHT⟩
  let b := b.put 7 7 ⟨Color.WHITE, PieceType.ROOK⟩
  b

/-! ## Path clearance -/

/-- The number of loop-condition evaluations granted to each path loop. -/
def loopFuel : Nat := 8

/-- The first `for` loop of `pathClearStraight`: `c` runs along row `row`
towards `toCol`. -/
def pathClearStraight.colLoop (b : Board) (row toCol step : Int) :
    Nat → Int → Except Fault Bool
  | 0, _ => .error Fault.outOfFuel
  | fuel + 1, c =>
    if c = toCol then pure true
    else do
      let e ← b.isEmpty ⟨row, c⟩
      if !e then pure false
      else pathClearStraight.colLoop b row toCol step fuel (c + step)

/-- The second `for` loop of `pathClearStraight`: `r` runs along column `col`
towards `toRow`. -/
def pathClearStraight.rowLoop (b : Board) (col toRow step : Int) :
    Nat → Int → Except Fault Bool
  | 0, _ => .error Fault.outOfFuel
  | fuel + 1, r =>
    if r = toRow then pure true
    else do
      let e ← b.isEmpty ⟨r, col⟩
      if !e then pure false
      else pathClearStraight.rowLoop b col toRow step fuel (r + step)

/-- The method `Board::pathClearStraight`. -/
def Board.pathClearStraight (b : Board) (frm dst : Position) : Except Fault Bool :=
  if frm.row = dst.row then
    let step : Int := if dst.col > frm.col then 1 else -1
    pathClearStraight.colLoop b frm.row dst.col step loopFuel (frm.col + step)
  else if frm.col = dst.col then
    let step : Int := if dst.row > frm.row then 1 else -1
    pathClearStraight.rowLoop b frm.col dst.row step loopFuel (frm.row + step)
  else pure false

/-- The `while` loop of `pathClearDiagonal`. -/
def pathClearDiagonal.loop (b : Board) (dst : Position) (stepR stepC : Int) :
    Nat → Int → Int → Except Fault Bool
  | 0, _, _ => .error Fault.outOfFuel
  | fuel + 1, r, c =>
    if r ≠ dst.row ∧ c ≠ dst.col then do
      let e ← b.isEmpty ⟨r, c⟩
      if !e then pure false
      else pathClearDiagonal.loop b dst stepR stepC fuel (r + stepR) (c + stepC)
    else pure true

/-- The method `Board::pathClearDiagonal`. -/
def Board.pathClearDiagonal (b : Board) (frm dst : Position) : Except Fault Bool :=
  let dr := dst.row - frm.row
  let dc := dst.col - frm.col
  if dr.natAbs ≠ dc.natAbs then pure false
  else
    let stepR : Int := if dr > 0 then 1 else -1
    let stepC : Int := if dc > 0 then 1 else -1
    pathClearDiagonal.loop b dst stepR stepC loopFuel (frm.row + stepR) (frm.col + stepC)

/-! ## Piece geometry -/

/-- The `PAWN` case of `validPieceMove`, for the pawn `p` standing on `frm`. -/
def validPieceMove.pawn (b : Board) (p : Piece) (frm dst : Position) (dr dc : Int) :
    Except Fault Bool := do
  let dir : Int := if p.color = Color.WHITE then -1 else 1
  let single ← if dc = 0 ∧ dr = dir then b.isEmpty dst else pure false
  if single then pure true
  else
    let startRow : Int := if p.color = Color.WHITE then 6 else 1
    let double ←
      if dc = 0 ∧ dr = 2 * dir ∧ frm.row = startRow then do
        let mid : Position := ⟨frm.row + dir, frm.col⟩
        let e ← b.isEmpty mid
        if e then b.isEmpty dst else pure false
      else pure false
    if double then pure true
    else
      let capture ←
        if dc.natAbs = 1 ∧ dr = dir then do
          let e ← b.isEmpty dst
          if !e then do
            let q ← b.at dst
            pure (decide (q.color ≠ p.color))
          else pure false
        else pure false
      if capture then pure true else pure false

/-- The method `Board::validPieceMove`. -/
def Board.validPieceMove (b : Board) (frm dst : Position) : Except Fault Bool := do
  let p ← b.at frm
  let dr := dst.row - frm.row
  let dc := dst.col - frm.col
  match p.type with
  | PieceType.KING => pure (decide (dr.natAbs ≤ 1) && decide (dc.natAbs ≤ 1))
  | PieceType.QUEEN =>
    if dr = 0 ∨ dc = 0 then b.pathClearStraight frm dst
    else if dr.natAbs = dc.natAbs then b.pathClearDiagonal frm dst
    else pure false
  | PieceType.ROOK =>
    if dr = 0 ∨ dc = 0 then b.pathClearStraight frm dst
    else pure false
  | PieceType.BISHOP =>
    if dr.natAbs = dc.natAbs then b.pathClearDiagonal frm dst
    else pure false
  | PieceType.KNIGHT => pure (decide (dr.natAbs * dc.natAbs = 2))
  | PieceType.PAWN => validPieceMove.pawn b p frm dst dr dc
  | PieceType.NONE => pure false

/-! ## Attack and check detection -/

/-- The pairs `(r, c)` in the order the nested `for` loops visit them. -/
def allSquares : List (Fin 8 × Fin 8) :=
  indices.flatMap fun r => indices.map fun c => (r, c)

/-- The body of the nested loops of `squareAttacked`, run over the squares
still to visit. -/
def squareAttacked.scan (b : Board) (sq : Position) (byC : Color) :
    List (Fin 8 × Fin 8) → Except Fault Bool
  | [] => pure false
  | (r, c) :: rest =>
    let frm := Position.ofFin r c
    let p := b.cells_ r c
    if p.type = PieceType.NONE ∨ p.color ≠ byC then squareAttacked.scan b sq byC rest
    else if p.type = PieceType.PAWN then
      let dir : Int := if byC = Color.WHITE then -1 else 1
      if sq.row = (r.val : Int) + dir ∧ (sq.col - (c.val : Int)).natAbs = 1 then pure true
      else squareAttacked.scan b sq byC rest
    else do
      let v ← b.validPieceMove frm sq
      let hit ← if v then b.differentColorOrEmpty sq byC else pure false
      if hit then pure true
      else squareAttacked.scan b sq byC rest

/-- The method `Board::squareAttacked`. -/
def Board.squareAttacked (b : Board) (sq : Position) (byC : Color) : Except Fault Bool :=
  squareAttacked.scan b sq byC allSquares

/-- The search loop of `inCheck`: the first square, in row-major order, that
holds a king of colour `c`. -/
def inCheck.findKing (b : Board) (c : Color) : Option (Fin 8 × Fin 8) :=
  allSquares.find? fun s =>
    decide ((b.cells_ s.1 s.2).type = PieceType.KING) && decide ((b.cells_ s.1 s.2).color = c)

/-- The method `Board::inCheck`. -/
def Board.inCheck (b : Board) (c : Color) : Except Fault Bool :=
  match inCheck.findKing b c with
  | none => pure false
  | some (r, co) =>
    let opp : Color := if c = Color.WHITE then Color.BLACK else Color.WHITE
    b.squareAttacked (Position.ofFin r co) opp

/-! ## The top-level move -/

/-- The two assignments that relocate the piece on `frm` to `to` and clear `frm`. -/
def Board.relocate (b : Board) (frm dst : Position) : Except Fault Board := do
  let x ← b.at frm
  let b1 ← b.set dst x
  b1.set frm Piece.empty

/-- The method `Board::move`: the verdict together with the board after the call. -/
def Board.move (b : Board) (frm dst : Position) (turn : Color) : Except Fault (Bool × Board) :=
  if !frm.isValid || !dst.isValid then pure (false, b)
  else do
    let e ← b.isEmpty frm
    if e then pure (false, b)
    else do
      let mover ← b.at frm
      if mover.color ≠ turn then pure (false, b)
      else do
        let d ← b.differentColorOrEmpty dst turn
        if !d then pure (false, b)
        else do
          let v ← b.validPieceMove frm dst
          if !v then pure (false, b)
          else do
            let tmp ← b.relocate frm dst
            let chk ← tmp.inCheck turn
            if chk then pure (false, b)
            else do
              let b2 ← b.relocate frm dst
              pure (true, b2)

/-! ## Predicates and positions used in the statements -/

/-- Every square strictly between `frm` and `dst`, walking from `frm` in unit
steps along the line that joins them, is empty. -/
def Board.clearBetween (b : Board) (frm dst : Position) : Prop :=
  ∀ k : Nat, 0 < k → k < max (dst.row - frm.row).natAbs (dst.col - frm.col).natAbs →
    (b.cell ⟨frm.row + (dst.row - frm.row).sign * (k : Int),
             frm.col + (dst.col - frm.col).sign * (k : Int)⟩).type = PieceType.NONE

/-- The pawn rule of `validPieceMove`, as a proposition about the pawn `p` on `frm`. -/
def pawnRule (b : Board) (p : Piece) (frm dst : Position) : Prop :=
  let dr := dst.row - frm.row
  let dc := dst.col - frm.col
  let dir : Int := if p.color = Color.WHITE then -1 else 1
  let startRow : Int := if p.color = Color.WHITE then 6 else 1
  (dc = 0 ∧ dr = dir ∧ (b.cell dst).type = PieceType.NONE) ∨
  (dc = 0 ∧ dr = 2 * dir ∧ frm.row = startRow ∧
    (b.cell ⟨frm.row + dir, frm.col⟩).type = PieceType.NONE ∧
    (b.cell dst).type = PieceType.NONE) ∨
  (dc.natAbs = 1 ∧ dr = dir ∧ (b.cell dst).type ≠ PieceType.NONE ∧
    (b.cell dst).color ≠ p.color)

/-- The piece on the square `s` is one that `squareAttacked` counts as attacking
`sq` for the side `byC`: a pawn of `byC` one row behind `sq` (in its direction
of travel) and one column aside, or another piece of `byC` whose
`validPieceMove` to `sq` holds. -/
def attacksFrom (b : Board) (sq : Position) (byC : Color) (s : Fin 8 × Fin 8) : Prop :=
  (b.cells_ s.1 s.2).type ≠ PieceType.NONE ∧ (b.cells_ s.1 s.2).color = byC ∧
  (((b.cells_ s.1 s.2).type = PieceType.PAWN ∧
      sq.row = (s.1.val : Int) + (if byC = Color.WHITE then -1 else 1) ∧
      (sq.col - (s.2.val : Int)).natAbs = 1) ∨
    ((b.cells_ s.1 s.2).type ≠ PieceType.PAWN ∧
      b.validPieceMove (Position.ofFin s.1 s.2) sq = .ok true))

/-- The conditions under which `move` accepts: the six tests of its body. -/
def accepts (b : Board) (frm dst : Position) (turn : Color) : Prop :=
  frm.isValid = true ∧ dst.isValid = true ∧
  (b.cell frm).type ≠ PieceType.NONE ∧ (b.cell frm).color = turn ∧
  ((b.cell dst).type = PieceType.NONE ∨ (b.cell dst).color ≠ turn) ∧
  b.validPieceMove frm dst = .ok true ∧
  ∃ tmp, b.relocate frm dst = .ok tmp ∧ tmp.inCheck turn = .ok false

/-- The position of the scenario of the self-check guard: White king e1, White
rook e2, Black rook e8, every other square empty. -/
def pinnedRook : Board :=
  ((Board.cleared.put 7 4 ⟨Color.WHITE, PieceType.KING⟩).put 6 4
    ⟨Color.WHITE, PieceType.ROOK⟩).put 0 4 ⟨Color.BLACK, PieceType.ROOK⟩

/-- The position used to exercise the king-adjacency rule: White king e1, Black
king e3, every other square empty. -/
def facingKings : Board :=
  (Board.cleared.put 7 4 ⟨Color.WHITE, PieceType.KING⟩).put 5 4 ⟨Color.BLACK, PieceType.KING⟩

/-- The square `(r, co)` holds the first king of colour `c` in row-major order:
it holds a king of colour `c`, and no square before it does. -/
def Board.firstKing (b : Board) (c : Color) (r co : Fin 8) : Prop :=
  ((b.cells_ r co).type = PieceType.KING ∧ (b.cells_ r co).color = c) ∧
  ∀ r' co' : Fin 8, (r' < r ∨ (r' = r ∧ co' < co)) →
    ¬ ((b.cells_ r' co').type = PieceType.KING ∧ (b.cells_ r' co').color = c)

/-- Some piece of `byC` can geometrically reach `sq`: a pawn of `byC` stands on
`(sq.row - dir, sq.col - 1)` or `(sq.row - dir, sq.col + 1)`, where `dir` is -1
for White and +1 otherwise, or a piece of `byC` that is not a pawn stands on a
square `p` with `validPieceMove(p, sq)` true. -/
def Board.reachedBy (b : Board) (sq : Position) (byC : Color) : Prop :=
  ∃ p : Position, p.isValid = true ∧
    (b.cell p).type ≠ PieceType.NONE ∧ (b.cell p).color = byC ∧
    (((b.cell p).type = PieceType.PAWN ∧
        p.row = sq.row - (if byC = Color.WHITE then -1 else 1) ∧
        (p.col = sq.col - 1 ∨ p.col = sq.col + 1)) ∨
      ((b.cell p).type ≠ PieceType.PAWN ∧ b.validPieceMove p sq = .ok true))

/-- A pawn of `byC` stands on `(sq.row - dir, sq.col - 1)` or
`(sq.row - dir, sq.col + 1)`, where `dir` is -1 for White and +1 otherwise. -/
def Board.pawnReaches (b : Board) (sq : Position) (byC : Color) : Prop :=
  ∃ p : Position, p.isValid = true ∧
    (b.cell p).type = PieceType.PAWN ∧ (b.cell p).color = byC ∧
    p.row = sq.row - (if byC = Color.WHITE then -1 else 1) ∧
    (p.col = sq.col - 1 ∨ p.col = sq.col + 1)

/-- The position used for the far-rank pawn: a single White pawn on d8. -/
def farRankPawn : Board := Board.cleared.put 0 3 ⟨Color.WHITE, PieceType.PAWN⟩

/-! ## Counting pieces, and the loop of `main` -/

/-- The number of cells of the grid whose piece satisfies `P`. -/
def Board.count (b : Board) (P : Piece → Bool) : Nat :=
  allSquares.countP fun s => P (b.cells_ s.1 s.2)

/-- One pass through the body of the `while` loop of `main`, for a line that
parsed into the squares `frm` and `dst`: an invalid square is reported and the
state kept; otherwise `board.move` is called, and the turn passes to the other
side when it returns `true`. -/
def main.step (board : Board) (turn : Color) (frm dst : Position) :
    Except Fault (Board × Color) :=
  if !frm.isValid || !dst.isValid then pure (board, turn)
  else do
    let r ← board.move frm dst turn
    if r.1 then pure (r.2, if turn = Color.WHITE then Color.BLACK else Color.WHITE)
    else pure (r.2, turn)

/-- The `while` loop of `main`, run over the squares entered so far. -/
def main.loop : Board → Color → List (Position × Position) → Except Fault (Board × Color)
  | board, turn, [] => pure (board, turn)
  | board, turn, (frm, dst) :: rest => do
    let s ← main.step board turn frm dst
    main.loop s.1 s.2 rest

/-- The state of `main` after the given inputs: it starts from `Board board;`
and `Color turn = Color::WHITE;`. -/
def main.run (inputs : List (Position × Position)) : Except Fault (Board × Color) :=
  main.loop Board.setupInitial Color.WHITE inputs

/-- The invariant of the game states: the turn is White or Black, the board
holds exactly one White king and exactly one Black king, and the side that is
not to move is not in check. -/
def kingsSafe (b : Board) (turn : Color) : Prop :=
  (turn = Color.WHITE ∨ turn = Color.BLACK) ∧
  b.count (fun x => decide (x = ⟨Color.WHITE, PieceType.KING⟩)) = 1 ∧
  b.count (fun x => decide (x = ⟨Color.BLACK, PieceType.KING⟩)) = 1 ∧
  b.inCheck (if turn = Color.WHITE then Color.BLACK else Color.WHITE) = .ok false

/-! ## The instrumented engine

A second copy of the engine that computes the same results and, in addition,
records every indexed access of the grid and every call of a path function.
Erasing the record gives back the functions above (`moveT_snd` and the lemmas
before it). -/

/-- What the instrumented functions record: an access `cells_[p.row][p.col]`
of the grid, or a call of `pathClearStraight` (`diagonal = false`) or
`pathClearDiagonal` (`diagonal = true`) on the board `b` with its endpoints. -/
inductive Event where
  | cell (p : Position)
  | path (b : Board) (diagonal : Bool) (frm dst : Position)

/-- An instrumented computation: the events recorded so far, in order, and the
outcome.  The record is kept when the computation faults. -/
def Traced (α : Type) : Type := List Event × Except Fault α

/-- Sequencing of instrumented computations: the records are concatenated, and
nothing runs after a fault. -/
instance : Monad Traced where
  pure a := ([], .ok a)
  bind t f :=
    match t.2 with
    | .error e => (t.1, .error e)
    | .ok a => (t.1 ++ (f a).1, (f a).2)

/-- Record one event. -/
def Traced.log (e : Event) : Traced Unit := ([e], .ok ())

/-- The accessor `Board::at`, recording the access. -/
def Board.atT (b : Board) (p : Position) : Traced Piece := ([Event.cell p], b.at p)

/-- The assignment `cells_[p.row][p.col] = x`, recording the access. -/
def Board.setT (b : Board) (p : Position) (x : Piece) : Traced Board :=
  ([Event.cell p], b.set p x)

/-- The read `cells_[r][c]` with loop counters, recording the access. -/
def Board.readT (b : Board) (r c : Fin 8) : Traced Piece :=
  ([Event.cell (Position.ofFin r c)], .ok (b.cells_ r c))

/-- The method `Board::isEmpty`, instrumented. -/
def Board.isEmptyT (b : Board) (p : Position) : Traced Bool := do
  let x ← b.atT p
  pure (decide (x.type = PieceType.NONE))

/-- The method `Board::differentColorOrEmpty`, instrumented. -/
def Board.differentColorOrEmptyT (b : Board) (p : Position) (c : Color) : Traced Bool := do
  let x ← b.atT p
  pure (decide (x.type = PieceType.NONE) || decide (x.color ≠ c))

/-- The first loop of `pathClearStraight`, instrumented. -/
def pathClearStraight.colLoopT (b : Board) (row toCol step : Int) :
    Nat → Int → Traced Bool
  | 0, _ => ([], .error Fault.outOfFuel)
  | fuel + 1, c =>
    if c = toCol then pure true
    else do
      let e ← b.isEmptyT ⟨row, c⟩
      if !e then pure false
      else pathClearStraight.colLoopT b row toCol step fuel (c + step)

/-- The second loop of `pathClearStraight`, instrumented. -/
def pathClearStraight.rowLoopT (b : Board) (col toRow step : Int) :
    Nat → Int → Traced Bool
  | 0, _ => ([], .error Fault.outOfFuel)
  | fuel + 1, r =>
    if r = toRow then pure true
    else do
      let e ← b.isEmptyT ⟨r, col⟩
      if !e then pure false
      else pathClearStraight.rowLoopT b col toRow step fuel (r + step)

/-- The method `Board::pathClearStraight`, instrumented. -/
def Board.pathClearStraightT (b : Board) (frm dst : Position) : Traced Bool :=
  if frm.row = dst.row then
    let step : Int := if dst.col > frm.col then 1 else -1
    pathClearStraight.colLoopT b frm.row dst.col step loopFuel (frm.col + step)
  else if frm.col = dst.col then
    let step : Int := if dst.row > frm.row then 1 else -1
    pathClearStraight.rowLoopT b frm.col dst.row step loopFuel (frm.row + step)
  else pure false

/-- The loop of `pathClearDiagonal`, instrumented. -/
def pathClearDiagonal.loopT (b : Board) (dst : Position) (stepR stepC : Int) :
    Nat → Int → Int → Traced Bool
  | 0, _, _ => ([], .error Fault.outOfFuel)
  | fuel + 1, r, c =>
    if r ≠ dst.row ∧ c ≠ dst.col then do
      let e ← b.isEmptyT ⟨r, c⟩
      if !e then pure false
      else pathClearDiagonal.loopT b dst stepR stepC fuel (r + stepR) (c + stepC)
    else pure true

/-- The method `Board::pathClearDiagonal`, instrumented. -/
def Board.pathClearDiagonalT (b : Board) (frm dst : Position) : Traced Bool :=
  let dr := dst.row - frm.row
  let dc := dst.col - frm.col
  if dr.natAbs ≠ dc.natAbs then pure false
  else
    let stepR : Int := if dr > 0 then 1 else -1
    let stepC : Int := if dc > 0 then 1 else -1
    pathClearDiagonal.loopT b dst stepR stepC loopFuel (frm.row + stepR) (frm.col + stepC)

/-- The `PAWN` case of `validPieceMove`, instrumented. -/
def validPieceMove.pawnT (b : Board) (p : Piece) (frm dst : Position) (dr dc : Int) :
    Traced Bool := do
  let dir : Int := if p.color = Color.WHITE then -1 else 1
  let single ← if dc = 0 ∧ dr = dir then b.isEmptyT dst else pure false
  if single then pure true
  else
    let startRow : Int := if p.color = Color.WHITE then 6 else 1
    let double ←
      if dc = 0 ∧ dr = 2 * dir ∧ frm.row = startRow then do
        let mid : Position := ⟨frm.row + dir, frm.col⟩
        let e ← b.isEmptyT mid
        if e then b.isEmptyT dst else pure false
      else pure false
    if double then pure true
    else
      let capture ←
        if dc.natAbs = 1 ∧ dr = dir then do
          let e ← b.isEmptyT dst
          if !e then do
            let q ← b.atT dst
            pure (decide (q.color ≠ p.color))
          else pure false
        else pure false
      if capture then pure true else pure false

/-- The method `Board::validPieceMove`, instrumented: each call of a path
function is recorded before it runs. -/
def Board.validPieceMoveT (b : Board) (frm dst : Position) : Traced Bool := do
  let p ← b.atT frm
  let dr := dst.row - frm.row
  let dc := dst.col - frm.col
  match p.type with
  | PieceType.KING => pure (decide (dr.natAbs ≤ 1) && decide (dc.natAbs ≤ 1))
  | PieceType.QUEEN =>
    if dr = 0 ∨ dc = 0 then do
      Traced.log (Event.path b false frm dst)
      b.pathClearStraightT frm dst
    else if dr.natAbs = dc.natAbs then do
      Traced.log (Event.path b true frm dst)
      b.pathClearDiagonalT frm dst
    else pure false
  | PieceType.ROOK =>
    if dr = 0 ∨ dc = 0 then do
      Traced.log (Event.path b false frm dst)
      b.pathClearStraightT frm dst
    else pure false
  | PieceType.BISHOP =>
    if dr.natAbs = dc.natAbs then do
      Traced.log (Event.path b true frm dst)
      b.pathClearDiagonalT frm dst
    else pure false
  | PieceType.KNIGHT => pure (decide (dr.natAbs * dc.natAbs = 2))
  | PieceType.PAWN => validPieceMove.pawnT b p frm dst dr dc
  | PieceType.NONE => pure false

/-- The body of the nested loops of `squareAttacked`, instrumented. -/
def squareAttacked.scanT (b : Board) (sq : Position) (byC : Color) :
    List (Fin 8 × Fin 8) → Traced Bool
  | [] => pure false
  | (r, c) :: rest => do
    let frm := Position.ofFin r c
    let p ← b.readT r c
    if p.type = PieceType.NONE ∨ p.color ≠ byC then squareAttacked.scanT b sq byC rest
    else if p.type = PieceType.PAWN then
      let dir : Int := if byC = Color.WHITE then -1 else 1
      if sq.row = (r.val : Int) + dir ∧ (sq.col - (c.val : Int)).natAbs = 1 then pure true
      else squareAttacked.scanT b sq byC rest
    else do
      let v ← b.validPieceMoveT frm sq
      let hit ← if v then b.differentColorOrEmptyT sq byC else pure false
      if hit then pure true
      else squareAttacked.scanT b sq byC rest

/-- The method `Board::squareAttacked`, instrumented. -/
def Board.squareAttackedT (b : Board) (sq : Position) (byC : Color) : Traced Bool :=
  squareAttacked.scanT b sq byC allSquares

/-- The search loop of `inCheck`, instrumented: cells are read in row-major
order until a king of colour `c` is found. -/
def inCheck.findKingT (b : Board) (c : Color) :
    List (Fin 8 × Fin 8) → Traced (Option (Fin 8 × Fin 8))
  | [] => pure none
  | (r, co) :: rest => do
    let p ← b.readT r co
    if p.type = PieceType.KING ∧ p.color = c then pure (some (r, co))
    else inCheck.findKingT b c rest

/-- The method `Board::inCheck`, instrumented. -/
def Board.inCheckT (b : Board) (c : Color) : Traced Bool := do
  let k ← inCheck.findKingT b c allSquares
  match k with
  | none => pure false
  | some (r, co) =>
    let opp : Color := if c = Color.WHITE then Color.BLACK else Color.WHITE
    b.squareAttackedT (Position.ofFin r co) opp

/-- The two assignments of a relocation, instrumented. -/
def Board.relocateT (b : Board) (frm dst : Position) : Traced Board := do
  let x ← b.atT frm
  let b1 ← b.setT dst x
  b1.setT frm Piece.empty

/-- The method `Board::move`, instrumented. -/
def Board.moveT (b : Board) (frm dst : Position) (turn : Color) : Traced (Bool × Board) :=
  if !frm.isValid || !dst.isValid then pure (false, b)
  else do
    let e ← b.isEmptyT frm
    if e then pure (false, b)
    else do
      let mover ← b.atT frm
      if mover.color ≠ turn then pure (false, b)
      else do
        let d ← b.differentColorOrEmptyT dst turn
        if !d then pure (false, b)
        else do
          let v ← b.validPieceMoveT frm dst
          if !v then pure (false, b)
          else do
            let tmp ← b.relocateT frm dst
            let chk ← tmp.inCheckT turn
            if chk then pure (false, b)
            else do
              let b2 ← b.relocateT frm dst
              pure (true, b2)

/-- An event is well formed: a recorded access lies inside the grid; a recorded
path call has two valid, distinct endpoints on a common row or column (for
`pathClearStraight`) or on an exact diagonal (for `pathClearDiagonal`). -/
def Event.wellFormed : Event → Prop
  | Event.cell p => p.isValid = true
  | Event.path _ diagonal frm dst =>
    frm.isValid = true ∧ dst.isValid = true ∧ frm ≠ dst ∧
    (if diagonal then (dst.row - frm.row).natAbs = (dst.col - frm.col).natAbs
     else (frm.row = dst.row ∨ frm.col = dst.col))

/-- Every event recorded by a computation that returns a result satisfies `Q`. -/
def Traced.Good {α : Type} (Q : Event → Prop) (t : Traced α) : Prop :=
  (∃ a, t.2 = .ok a) → ∀ e ∈ t.1, Q e

/-! ## Basic facts about the fault monad, positions and cells -/

section Basics

variable {α β : Type}

@[simp] theorem ok_bind (a : α) (f : α → Except Fault β) : (Except.ok a >>= f) = f a := rfl

@[simp] theorem error_bind (e : Fault) (f : α → Except Fault β) :
    ((Except.error e : Except Fault α) >>= f) = Except.error e := rfl

@[simp] theorem pure_eq_ok (a : α) : (pure a : Except Fault α) = Except.ok a := rfl

theorem isValid_iff (p : Position) :
    p.isValid = true ↔ 0 ≤ p.row ∧ p.row < 8 ∧ 0 ≤ p.col ∧ p.col < 8 := by
  simp [Position.isValid, and_assoc]

theorem idx_val {i : Int} (h0 : 0 ≤ i) (h8 : i < 8) : ((idx i).val : Int) = i := by
  unfold idx Fin.ofNat
  simp only []
  omega

@[simp] theorem idx_natCast (r : Fin 8) : idx (r.val : Int) = r := by
  apply Fin.ext
  unfold idx Fin.ofNat
  simp only [Int.toNat_ofNat]
  omega

theorem idx_inj {i j : Int} (hi0 : 0 ≤ i) (hi8 : i < 8) (hj0 : 0 ≤ j) (hj8 : j < 8)
    (h : idx i = idx j) : i = j := by
  rw [← idx_val hi0 hi8, ← idx_val hj0 hj8, h]

@[simp] theorem ofFin_isValid (r c : Fin 8) : (Position.ofFin r c).isValid = true := by
  rw [isValid_iff]
  simp only [Position.ofFin]
  omega

@[simp] theorem cell_ofFin (b : Board) (r c : Fin 8) :
    b.cell (Position.ofFin r c) = b.cells_ r c := by
  simp [Board.cell, Position.ofFin]

theorem ofFin_idx {p : Position} (h : p.isValid = true) :
    Position.ofFin (idx p.row) (idx p.col) = p := by
  rw [isValid_iff] at h
  obtain ⟨h1, h2, h3, h4⟩ := h
  cases p
  simp only [Position.ofFin, Position.mk.injEq]
  exact ⟨idx_val h1 h2, idx_val h3 h4⟩

theorem at_valid (b : Board) {p : Position} (h : p.isValid = true) :
    b.at p = .ok (b.cell p) := by
  simp [Board.at, h]

theorem at_invalid (b : Board) {p : Position} (h : p.isValid = false) :
    b.at p = .error Fault.outOfBounds := by
  simp [Board.at, h]

theorem isEmpty_valid (b : Board) {p : Position} (h : p.isValid = true) :
    b.isEmpty p = .ok (decide ((b.cell p).type = PieceType.NONE)) := by
  simp [Board.isEmpty, at_valid b h]

theorem differentColorOrEmpty_valid (b : Board) {p : Position} (c : Color)
    (h : p.isValid = true) :
    b.differentColorOrEmpty p c
      = .ok (decide ((b.cell p).type = PieceType.NONE) || decide ((b.cell p).color ≠ c)) := by
  simp [Board.differentColorOrEmpty, at_valid b h]

end Basics

/-! ## The path loops -/

section Loops

theorem step_mul_succ (s : Int) (m : Nat) (hs : s = 1 ∨ s = -1) : s * ((m + 1 : Nat) : Int) ≠ 0 := by
  rcases hs with rfl | rfl <;> push_cast <;> omega

/-- The column loop of `pathClearStraight`, started `m` steps before its target
with every square on the way inside the grid, stops with the verdict "all `m`
squares are empty". -/
theorem colLoop_spec (b : Board) (row toCol step : Int) (hs : step = 1 ∨ step = -1)
    (hr0 : 0 ≤ row) (hr8 : row < 8) :
    ∀ (m fuel : Nat) (c : Int), m < fuel → toCol = c + step * (m : Int) →
      (∀ j : Nat, j < m → 0 ≤ c + step * (j : Int) ∧ c + step * (j : Int) < 8) →
      ∃ v, pathClearStraight.colLoop b row toCol step fuel c = .ok v ∧
        (v = true ↔ ∀ j : Nat, j < m →
          (b.cell ⟨row, c + step * (j : Int)⟩).type = PieceType.NONE) := by
  intro m
  induction m with
  | zero =>
    intro fuel c hf ht _
    obtain ⟨f, rfl⟩ : ∃ f, fuel = f + 1 := ⟨fuel - 1, by omega⟩
    have hc : c = toCol := by simp at ht; exact ht.symm
    refine ⟨true, ?_, by simp⟩
    simp [pathClearStraight.colLoop, hc]
  | succ m ih =>
    intro fuel c hf ht hv
    obtain ⟨f, rfl⟩ : ∃ f, fuel = f + 1 := ⟨fuel - 1, by omega⟩
    have hne : c ≠ toCol := by
      intro h
      have := step_mul_succ step m hs
      omega
    have hv0 := hv 0 (by omega)
    simp only [Nat.cast_zero, mul_zero, add_zero] at hv0
    have hvalid : (Position.mk row c).isValid = true := by
      rw [isValid_iff]; exact ⟨hr0, hr8, hv0.1, hv0.2⟩
    have hshift : ∀ j : Nat, c + step + step * (j : Int) = c + step * ((j + 1 : Nat) : Int) := by
      intro j; push_cast; ring
    obtain ⟨v, hv1, hv2⟩ := ih f (c + step) (by omega) (by rw [ht]; push_cast; ring)
      (fun j hj => by rw [hshift]; exact hv (j + 1) (by omega))
    by_cases he : (b.cell ⟨row, c⟩).type = PieceType.NONE
    · refine ⟨v, ?_, ?_⟩
      · simp [pathClearStraight.colLoop, hne, isEmpty_valid b hvalid, he, hv1]
      · rw [hv2]
        constructor
        · intro h j hj
          cases j with
          | zero => simpa using he
          | succ j => rw [← hshift]; exact h j (by omega)
        · intro h j hj
          rw [hshift]; exact h (j + 1) (by omega)
    · refine ⟨false, ?_, ?_⟩
      · simp [pathClearStraight.colLoop, hne, isEmpty_valid b hvalid, he]
      · simp only [Bool.false_eq_true, false_iff, not_forall]
        exact ⟨0, by omega, by simpa using he⟩

/-- The row loop of `pathClearStraight`, started `m` steps before its target
with every square on the way inside the grid, stops with the verdict "all `m`
squares are empty". -/
theorem rowLoop_spec (b : Board) (col toRow step : Int) (hs : step = 1 ∨ step = -1)
    (hc0 : 0 ≤ col) (hc8 : col < 8) :
    ∀ (m fuel : Nat) (r : Int), m < fuel → toRow = r + step * (m : Int) →
      (∀ j : Nat, j < m → 0 ≤ r + step * (j : Int) ∧ r + step * (j : Int) < 8) →
      ∃ v, pathClearStraight.rowLoop b col toRow step fuel r = .ok v ∧
        (v = true ↔ ∀ j : Nat, j < m →
          (b.cell ⟨r + step * (j : Int), col⟩).type = PieceType.NONE) := by
  intro m
  induction m with
  | zero =>
    intro fuel r hf ht _
    obtain ⟨f, rfl⟩ : ∃ f, fuel = f + 1 := ⟨fuel - 1, by omega⟩
    have hc : r = toRow := by simp at ht; exact ht.symm
    refine ⟨true, ?_, by simp⟩
    simp [pathClearStraight.rowLoop, hc]
  | succ m ih =>
    intro fuel r hf ht hv
    obtain ⟨f, rfl⟩ : ∃ f, fuel = f + 1 := ⟨fuel - 1, by omega⟩
    have hne : r ≠ toRow := by
      intro h
      have := step_mul_succ step m hs
      omega
    have hv0 := hv 0 (by omega)
    simp only [Nat.cast_zero, mul_zero, add_zero] at hv0
    have hvalid : (Position.mk r col).isValid = true := by
      rw [isValid_iff]; exact ⟨hv0.1, hv0.2, hc0, hc8⟩
    have hshift : ∀ j : Nat, r + step + step * (j : Int) = r + step * ((j + 1 : Nat) : Int) := by
      intro j; push_cast; ring
    obtain ⟨v, hv1, hv2⟩ := ih f (r + step) (by omega) (by rw [ht]; push_cast; ring)
      (fun j hj => by rw [hshift]; exact hv (j + 1) (by omega))
    by_cases he : (b.cell ⟨r, col⟩).type = PieceType.NONE
    · refine ⟨v, ?_, ?_⟩
      · simp [pathClearStraight.rowLoop, hne, isEmpty_valid b hvalid, he, hv1]
      · rw [hv2]
        constructor
        · intro h j hj
          cases j with
          | zero => simpa using he
          | succ j => rw [← hshift]; exact h j (by omega)
        · intro h j hj
          rw [hshift]; exact h (j + 1) (by omega)
    · refine ⟨false, ?_, ?_⟩
      · simp [pathClearStraight.rowLoop, hne, isEmpty_valid b hvalid, he]
      · simp only [Bool.false_eq_true, false_iff, not_forall]
        exact ⟨0, by omega, by simpa using he⟩

/-- The loop of `pathClearDiagonal`, started `m` diagonal steps before its
target with every square on the way inside the grid, stops with the verdict
"all `m` squares are empty". -/
theorem diagLoop_spec (b : Board) (dst : Position) (sr sc : Int)
    (hsr : sr = 1 ∨ sr = -1) (hsc : sc = 1 ∨ sc = -1) :
    ∀ (m fuel : Nat) (r c : Int), m < fuel →
      dst.row = r + sr * (m : Int) → dst.col = c + sc * (m : Int) →
      (∀ j : Nat, j < m → (0 ≤ r + sr * (j : Int) ∧ r + sr * (j : Int) < 8) ∧
        (0 ≤ c + sc * (j : Int) ∧ c + sc * (j : Int) < 8)) →
      ∃ v, pathClearDiagonal.loop b dst sr sc fuel r c = .ok v ∧
        (v = true ↔ ∀ j : Nat, j < m →
          (b.cell ⟨r + sr * (j : Int), c + sc * (j : Int)⟩).type = PieceType.NONE) := by
  intro m
  induction m with
  | zero =>
    intro fuel r c hf htr htc _
    obtain ⟨f, rfl⟩ : ∃ f, fuel = f + 1 := ⟨fuel - 1, by omega⟩
    have hr : r = dst.row := by simp at htr; exact htr.symm
    refine ⟨true, ?_, by simp⟩
    simp [pathClearDiagonal.loop, hr]
  | succ m ih =>
    intro fuel r c hf htr htc hv
    obtain ⟨f, rfl⟩ : ∃ f, fuel = f + 1 := ⟨fuel - 1, by omega⟩
    have hner : r ≠ dst.row := by
      intro h
      have := step_mul_succ sr m hsr
      omega
    have hnec : c ≠ dst.col := by
      intro h
      have := step_mul_succ sc m hsc
      omega
    have hv0 := hv 0 (by omega)
    simp only [Nat.cast_zero, mul_zero, add_zero] at hv0
    have hvalid : (Position.mk r c).isValid = true := by
      rw [isValid_iff]; exact ⟨hv0.1.1, hv0.1.2, hv0.2.1, hv0.2.2⟩
    have hshift : ∀ (x s : Int) (j : Nat), x + s + s * (j : Int) = x + s * ((j + 1 : Nat) : Int) := by
      intro x s j; push_cast; ring
    obtain ⟨v, hv1, hv2⟩ := ih f (r + sr) (c + sc) (by omega) (by rw [htr]; push_cast; ring)
      (by rw [htc]; push_cast; ring)
      (fun j hj => by rw [hshift, hshift]; exact hv (j + 1) (by omega))
    by_cases he : (b.cell ⟨r, c⟩).type = PieceType.NONE
    · refine ⟨v, ?_, ?_⟩
      · simp [pathClearDiagonal.loop, hner, hnec, isEmpty_valid b hvalid, he, hv1]
      · rw [hv2]
        constructor
        · intro h j hj
          cases j with
          | zero => simpa using he
          | succ j => rw [← hshift, ← hshift]; exact h j (by omega)
        · intro h j hj
          rw [hshift, hshift]; exact h (j + 1) (by omega)
    · refine ⟨false, ?_, ?_⟩
      · simp [pathClearDiagonal.loop, hner, hnec, isEmpty_valid b hvalid, he]
      · simp only [Bool.false_eq_true, false_iff, not_forall]
        exact ⟨0, by omega, by simpa using he⟩

end Loops

section Paths

theorem cell_type_congr (b : Board) {r r' c c' : Int} (hr : r = r') (hc : c = c') :
    (b.cell ⟨r, c⟩).type = (b.cell ⟨r', c'⟩).type := by rw [hr, hc]

theorem position_ne {p q : Position} (h : p ≠ q) : p.row ≠ q.row ∨ p.col ≠ q.col := by
  by_contra hcon
  push_neg at hcon
  apply h
  cases p; cases q
  simp only [Position.mk.injEq]
  exact hcon

theorem pathClearStraight_spec (b : Board) (frm dst : Position)
    (hf : frm.isValid = true) (hd : dst.isValid = true) (hne : frm ≠ dst)
    (hs : dst.row - frm.row = 0 ∨ dst.col - frm.col = 0) :
    ∃ v, b.pathClearStraight frm dst = .ok v ∧ (v = true ↔ b.clearBetween frm dst) := by
  rw [isValid_iff] at hf hd
  obtain ⟨hf1, hf2, hf3, hf4⟩ := hf
  obtain ⟨hd1, hd2, hd3, hd4⟩ := hd
  have hne' := position_ne hne
  by_cases hrow : frm.row = dst.row
  · have hdr : dst.row - frm.row = 0 := by omega
    rcases lt_trichotomy frm.col dst.col with hlt | heq | hgt
    · obtain ⟨v, h1, h2⟩ := colLoop_spec b frm.row dst.col 1 (Or.inl rfl) hf1 hf2
        (dst.col - frm.col - 1).toNat 8 (frm.col + 1) (by omega) (by omega)
        (by intro j hj; omega)
      have hsc : (dst.col - frm.col).sign = 1 := Int.sign_eq_one_of_pos (by omega)
      refine ⟨v, ?_, ?_⟩
      · simpa [Board.pathClearStraight, hrow, hlt, loopFuel] using h1
      · rw [h2]
        unfold Board.clearBetween
        rw [hdr, hsc]
        constructor
        · intro h k hk0 hkn
          rw [← h (k - 1) (by omega)]
          exact cell_type_congr b (by simp) (by omega)
        · intro h j hj
          rw [← h (j + 1) (by omega) (by omega)]
          exact cell_type_congr b (by simp) (by push_cast; omega)
    · omega
    · obtain ⟨v, h1, h2⟩ := colLoop_spec b frm.row dst.col (-1) (Or.inr rfl) hf1 hf2
        (frm.col - dst.col - 1).toNat 8 (frm.col + -1) (by omega) (by omega)
        (by intro j hj; omega)
      have hsc : (dst.col - frm.col).sign = -1 := Int.sign_eq_neg_one_of_neg (by omega)
      have hnlt : ¬ (frm.col < dst.col) := by omega
      refine ⟨v, ?_, ?_⟩
      · simpa [Board.pathClearStraight, hrow, hnlt, loopFuel] using h1
      · rw [h2]
        unfold Board.clearBetween
        rw [hdr, hsc]
        constructor
        · intro h k hk0 hkn
          rw [← h (k - 1) (by omega)]
          exact cell_type_congr b (by simp) (by omega)
        · intro h j hj
          rw [← h (j + 1) (by omega) (by omega)]
          exact cell_type_congr b (by simp) (by push_cast; omega)
  · have hcol : frm.col = dst.col := by omega
    have hdc : dst.col - frm.col = 0 := by omega
    rcases lt_trichotomy frm.row dst.row with hlt | heq | hgt
    · obtain ⟨v, h1, h2⟩ := rowLoop_spec b frm.col dst.row 1 (Or.inl rfl) hf3 hf4
        (dst.row - frm.row - 1).toNat 8 (frm.row + 1) (by omega) (by omega)
        (by intro j hj; omega)
      have hsr : (dst.row - frm.row).sign = 1 := Int.sign_eq_one_of_pos (by omega)
      refine ⟨v, ?_, ?_⟩
      · simpa [Board.pathClearStraight, hrow, hcol, hlt, loopFuel] using h1
      · rw [h2]
        unfold Board.clearBetween
        rw [hdc, hsr]
        constructor
        · intro h k hk0 hkn
          rw [← h (k - 1) (by omega)]
          exact cell_type_congr b (by omega) (by simp)
        · intro h j hj
          rw [← h (j + 1) (by omega) (by omega)]
          exact cell_type_congr b (by push_cast; omega) (by simp)
    · omega
    · obtain ⟨v, h1, h2⟩ := rowLoop_spec b frm.col dst.row (-1) (Or.inr rfl) hf3 hf4
        (frm.row - dst.row - 1).toNat 8 (frm.row + -1) (by omega) (by omega)
        (by intro j hj; omega)
      have hsr : (dst.row - frm.row).sign = -1 := Int.sign_eq_neg_one_of_neg (by omega)
      have hnlt : ¬ (frm.row < dst.row) := by omega
      refine ⟨v, ?_, ?_⟩
      · simpa [Board.pathClearStraight, hrow, hcol, hnlt, loopFuel] using h1
      · rw [h2]
        unfold Board.clearBetween
        rw [hdc, hsr]
        constructor
        · intro h k hk0 hkn
          rw [← h (k - 1) (by omega)]
          exact cell_type_congr b (by omega) (by simp)
        · intro h j hj
          rw [← h (j + 1) (by omega) (by omega)]
          exact cell_type_congr b (by push_cast; omega) (by simp)

theorem pathClearDiagonal_spec (b : Board) (frm dst : Position)
    (hf : frm.isValid = true) (hd : dst.isValid = true) (hne : frm ≠ dst)
    (habs : (dst.row - frm.row).natAbs = (dst.col - frm.col).natAbs) :
    ∃ v, b.pathClearDiagonal frm dst = .ok v ∧ (v = true ↔ b.clearBetween frm dst) := by
  rw [isValid_iff] at hf hd
  obtain ⟨hf1, hf2, hf3, hf4⟩ := hf
  obtain ⟨hd1, hd2, hd3, hd4⟩ := hd
  have hne' := position_ne hne
  have hcases : (0 < dst.row - frm.row → 0 < dst.col - frm.col → 
      ∃ v, b.pathClearDiagonal frm dst = .ok v ∧ (v = true ↔ b.clearBetween frm dst)) ∧
      (0 < dst.row - frm.row → dst.col - frm.col < 0 → 
      ∃ v, b.pathClearDiagonal frm dst = .ok v ∧ (v = true ↔ b.clearBetween frm dst)) ∧
      (dst.row - frm.row < 0 → 0 < dst.col - frm.col → 
      ∃ v, b.pathClearDiagonal frm dst = .ok v ∧ (v = true ↔ b.clearBetween frm dst)) ∧
      (dst.row - frm.row < 0 → dst.col - frm.col < 0 → 
      ∃ v, b.pathClearDiagonal frm dst = .ok v ∧ (v = true ↔ b.clearBetween frm dst)) := by
    refine ⟨?_, ?_, ?_, ?_⟩
    · intro hr hc
      obtain ⟨v, h1, h2⟩ := diagLoop_spec b dst 1 1 (Or.inl rfl) (Or.inl rfl)
        ((dst.row - frm.row).natAbs - 1) 8 (frm.row + 1) (frm.col + 1) (by omega) (by omega)
        (by omega) (by intro j hj; omega)
      have hsr : (dst.row - frm.row).sign = 1 := Int.sign_eq_one_of_pos hr
      have hsc : (dst.col - frm.col).sign = 1 := Int.sign_eq_one_of_pos hc
      refine ⟨v, ?_, ?_⟩
      · simp only [Board.pathClearDiagonal, habs, ne_eq, not_true_eq_false, if_false, loopFuel]
        simpa [hr, hc] using h1
      · rw [h2]
        unfold Board.clearBetween
        rw [hsr, hsc]
        constructor
        · intro h k hk0 hkn
          rw [← h (k - 1) (by omega)]
          exact cell_type_congr b (by omega) (by omega)
        · intro h j hj
          rw [← h (j + 1) (by omega) (by omega)]
          exact cell_type_congr b (by push_cast; omega) (by push_cast; omega)
    · intro hr hc
      obtain ⟨v, h1, h2⟩ := diagLoop_spec b dst 1 (-1) (Or.inl rfl) (Or.inr rfl)
        ((dst.row - frm.row).natAbs - 1) 8 (frm.row + 1) (frm.col + -1) (by omega) (by omega)
        (by omega) (by intro j hj; omega)
      have hsr : (dst.row - frm.row).sign = 1 := Int.sign_eq_one_of_pos hr
      have hsc : (dst.col - frm.col).sign = -1 := Int.sign_eq_neg_one_of_neg hc
      refine ⟨v, ?_, ?_⟩
      · simp only [Board.pathClearDiagonal, habs, ne_eq, not_true_eq_false, if_false, loopFuel]
        simpa [hr, (show ¬ (0 < dst.col - frm.col) by omega)] using h1
      · rw [h2]
        unfold Board.clearBetween
        rw [hsr, hsc]
        constructor
        · intro h k hk0 hkn
          rw [← h (k - 1) (by omega)]
          exact cell_type_congr b (by omega) (by omega)
        · intro h j hj
          rw [← h (j + 1) (by omega) (by omega)]
          exact cell_type_congr b (by push_cast; omega) (by push_cast; omega)
    · intro hr hc
      obtain ⟨v, h1, h2⟩ := diagLoop_spec b dst (-1) 1 (Or.inr rfl) (Or.inl rfl)
        ((dst.row - frm.row).natAbs - 1) 8 (frm.row + -1) (frm.col + 1) (by omega) (by omega)
        (by omega) (by intro j hj; omega)
      have hsr : (dst.row - frm.row).sign = -1 := Int.sign_eq_neg_one_of_neg hr
      have hsc : (dst.col - frm.col).sign = 1 := Int.sign_eq_one_of_pos hc
      refine ⟨v, ?_, ?_⟩
      · simp only [Board.pathClearDiagonal, habs, ne_eq, not_true_eq_false, if_false, loopFuel]
        simpa [(show ¬ (0 < dst.row - frm.row) by omega), hc] using h1
      · rw [h2]
        unfold Board.clearBetween
        rw [hsr, hsc]
        constructor
        · intro h k hk0 hkn
          rw [← h (k - 1) (by omega)]
          exact cell_type_congr b (by omega) (by omega)
        · intro h j hj
          rw [← h (j + 1) (by omega) (by omega)]
          exact cell_type_congr b (by push_cast; omega) (by push_cast; omega)
    · intro hr hc
      obtain ⟨v, h1, h2⟩ := diagLoop_spec b dst (-1) (-1) (Or.inr rfl) (Or.inr rfl)
        ((dst.row - frm.row).natAbs - 1) 8 (frm.row + -1) (frm.col + -1) (by omega) (by omega)
        (by omega) (by intro j hj; omega)
      have hsr : (dst.row - frm.row).sign = -1 := Int.sign_eq_neg_one_of_neg hr
      have hsc : (dst.col - frm.col).sign = -1 := Int.sign_eq_neg_one_of_neg hc
      refine ⟨v, ?_, ?_⟩
      · simp only [Board.pathClearDiagonal, habs, ne_eq, not_true_eq_false, if_false, loopFuel]
        simpa [(show ¬ (0 < dst.row - frm.row) by omega), (show ¬ (0 < dst.col - frm.col) by omega)] using h1
      · rw [h2]
        unfold Board.clearBetween
        rw [hsr, hsc]
        constructor
        · intro h k hk0 hkn
          rw [← h (k - 1) (by omega)]
          exact cell_type_congr b (by omega) (by omega)
        · intro h j hj
          rw [← h (j + 1) (by omega) (by omega)]
          exact cell_type_congr b (by push_cast; omega) (by push_cast; omega)

  obtain ⟨c1, c2, c3, c4⟩ := hcases
  rcases lt_trichotomy (dst.row - frm.row) 0 with hr | hr | hr
  · rcases lt_trichotomy (dst.col - frm.col) 0 with hc | hc | hc
    · exact c4 hr hc
    · omega
    · exact c3 hr hc
  · omega
  · rcases lt_trichotomy (dst.col - frm.col) 0 with hc | hc | hc
    · exact c2 hr hc
    · omega
    · exact c1 hr hc

end Paths

section Geometry

theorem isEmpty_of_empty (b : Board) {p : Position} (h : p.isValid = true)
    (he : (b.cell p).type = PieceType.NONE) : b.isEmpty p = .ok true := by
  simp [isEmpty_valid b h, he]

theorem isEmpty_of_nonempty (b : Board) {p : Position} (h : p.isValid = true)
    (he : (b.cell p).type ≠ PieceType.NONE) : b.isEmpty p = .ok false := by
  simp [isEmpty_valid b h, he]

theorem pawn_spec (b : Board) (p : Piece) (frm dst : Position)
    (hf : frm.isValid = true) (hd : dst.isValid = true) :
    ∃ v, validPieceMove.pawn b p frm dst (dst.row - frm.row) (dst.col - frm.col) = .ok v ∧
      (v = true ↔ pawnRule b p frm dst) := by
  have hf' := (isValid_iff frm).1 hf
  have hd' := (isValid_iff dst).1 hd
  obtain ⟨hf1, hf2, hf3, hf4⟩ := hf'
  obtain ⟨hd1, hd2, hd3, hd4⟩ := hd'
  unfold validPieceMove.pawn pawnRule
  simp only []
  have hdir : (if p.color = Color.WHITE then (-1 : Int) else 1) = -1 ∧
        (if p.color = Color.WHITE then (6 : Int) else 1) = 6 ∨
      (if p.color = Color.WHITE then (-1 : Int) else 1) = 1 ∧
        (if p.color = Color.WHITE then (6 : Int) else 1) = 1 := by
    by_cases hw : p.color = Color.WHITE
    · left; simp [hw]
    · right; simp [hw]
  generalize (if p.color = Color.WHITE then (-1 : Int) else 1) = dir at hdir ⊢
  generalize (if p.color = Color.WHITE then (6 : Int) else 1) = startRow at hdir ⊢
  by_cases h1 : dst.col - frm.col = 0 ∧ dst.row - frm.row = dir
  · have h2 : ¬ (dst.col - frm.col = 0 ∧ dst.row - frm.row = 2 * dir ∧ frm.row = startRow) := by
      omega
    have h3 : ¬ ((dst.col - frm.col).natAbs = 1 ∧ dst.row - frm.row = dir) := by omega
    by_cases e2 : (b.cell dst).type = PieceType.NONE
    · refine ⟨true, ?_, ?_⟩
      · simp only [if_pos h1, isEmpty_of_empty b hd e2, ok_bind, if_true, pure_eq_ok]
      · simp only [true_iff]
        exact Or.inl ⟨h1.1, h1.2, e2⟩
    · refine ⟨false, ?_, ?_⟩
      · simp only [if_pos h1, if_neg h2, if_neg h3, isEmpty_of_nonempty b hd e2, ok_bind,
          pure_eq_ok, Bool.false_eq_true, if_false]
      · simp only [Bool.false_eq_true, false_iff]
        tauto
  · by_cases h2 : dst.col - frm.col = 0 ∧ dst.row - frm.row = 2 * dir ∧ frm.row = startRow
    · have h3 : ¬ ((dst.col - frm.col).natAbs = 1 ∧ dst.row - frm.row = dir) := by omega
      have hmid : (Position.mk (frm.row + dir) frm.col).isValid = true := by
        rw [isValid_iff]; simp only; omega
      by_cases e1 : (b.cell ⟨frm.row + dir, frm.col⟩).type = PieceType.NONE
      · by_cases e2 : (b.cell dst).type = PieceType.NONE
        · refine ⟨true, ?_, ?_⟩
          · simp only [if_neg h1, if_pos h2, isEmpty_of_empty b hd e2,
              isEmpty_of_empty b hmid e1, ok_bind, pure_eq_ok, Bool.false_eq_true, if_false,
              if_true]
          · simp only [true_iff]
            exact Or.inr (Or.inl ⟨h2.1, h2.2.1, h2.2.2, e1, e2⟩)
        · refine ⟨false, ?_, ?_⟩
          · simp only [if_neg h1, if_pos h2, if_neg h3, isEmpty_of_nonempty b hd e2,
              isEmpty_of_empty b hmid e1, ok_bind, pure_eq_ok, Bool.false_eq_true, if_false,
              if_true]
          · simp only [Bool.false_eq_true, false_iff]
            tauto
      · refine ⟨false, ?_, ?_⟩
        · simp only [if_neg h1, if_pos h2, if_neg h3,
            isEmpty_of_nonempty b hmid e1, ok_bind, pure_eq_ok, Bool.false_eq_true, if_false,
            if_true]
        · simp only [Bool.false_eq_true, false_iff]
          tauto
    · by_cases h3 : (dst.col - frm.col).natAbs = 1 ∧ dst.row - frm.row = dir
      · by_cases e2 : (b.cell dst).type = PieceType.NONE
        · refine ⟨false, ?_, ?_⟩
          · simp only [if_neg h1, if_neg h2, if_pos h3, isEmpty_of_empty b hd e2, ok_bind,
              pure_eq_ok, Bool.false_eq_true, if_false, if_true, Bool.not_true]
          · simp only [Bool.false_eq_true, false_iff]
            tauto
        · by_cases e3 : (b.cell dst).color = p.color
          · refine ⟨false, ?_, ?_⟩
            · simp [if_neg h1, if_neg h2, if_pos h3, isEmpty_of_nonempty b hd e2, at_valid b hd,
                e3]
            · simp only [Bool.false_eq_true, false_iff]
              tauto
          · refine ⟨true, ?_, ?_⟩
            · simp [if_neg h1, if_neg h2, if_pos h3, isEmpty_of_nonempty b hd e2, at_valid b hd,
                e3]
            · simp only [true_iff]
              exact Or.inr (Or.inr ⟨h3.1, h3.2, e2, e3⟩)
      · refine ⟨false, ?_, ?_⟩
        · simp only [if_neg h1, if_neg h2, if_neg h3, ok_bind, pure_eq_ok,
            Bool.false_eq_true, if_false]
        · simp only [Bool.false_eq_true, false_iff]
          tauto

end Geometry

section PieceMoves

theorem validPieceMove_king (b : Board) (frm dst : Position) (hf : frm.isValid = true)
    (ht : (b.cell frm).type = PieceType.KING) :
    b.validPieceMove frm dst
      = .ok (decide ((dst.row - frm.row).natAbs ≤ 1) && decide ((dst.col - frm.col).natAbs ≤ 1)) := by
  simp only [Board.validPieceMove, at_valid b hf, ok_bind, ht, pure_eq_ok]

theorem validPieceMove_knight (b : Board) (frm dst : Position) (hf : frm.isValid = true)
    (ht : (b.cell frm).type = PieceType.KNIGHT) :
    b.validPieceMove frm dst
      = .ok (decide ((dst.row - frm.row).natAbs * (dst.col - frm.col).natAbs = 2)) := by
  simp only [Board.validPieceMove, at_valid b hf, ok_bind, ht, pure_eq_ok]

theorem validPieceMove_none (b : Board) (frm dst : Position) (hf : frm.isValid = true)
    (ht : (b.cell frm).type = PieceType.NONE) :
    b.validPieceMove frm dst = .ok false := by
  simp only [Board.validPieceMove, at_valid b hf, ok_bind, ht, pure_eq_ok]

theorem validPieceMove_pawn (b : Board) (frm dst : Position) (hf : frm.isValid = true)
    (ht : (b.cell frm).type = PieceType.PAWN) :
    b.validPieceMove frm dst
      = validPieceMove.pawn b (b.cell frm) frm dst (dst.row - frm.row) (dst.col - frm.col) := by
  simp only [Board.validPieceMove, at_valid b hf, ok_bind, ht]

theorem validPieceMove_rook (b : Board) (frm dst : Position) (hf : frm.isValid = true)
    (hd : dst.isValid = true) (hne : frm ≠ dst) (ht : (b.cell frm).type = PieceType.ROOK) :
    ∃ v, b.validPieceMove frm dst = .ok v ∧
      (v = true ↔ (dst.row - frm.row = 0 ∨ dst.col - frm.col = 0) ∧ b.clearBetween frm dst) := by
  simp only [Board.validPieceMove, at_valid b hf, ok_bind, ht]
  by_cases hs : dst.row - frm.row = 0 ∨ dst.col - frm.col = 0
  · obtain ⟨v, h1, h2⟩ := pathClearStraight_spec b frm dst hf hd hne hs
    refine ⟨v, ?_, ?_⟩
    · rw [if_pos hs]; exact h1
    · rw [h2]; tauto
  · refine ⟨false, ?_, ?_⟩
    · rw [if_neg hs]; rfl
    · simp only [Bool.false_eq_true, false_iff]; tauto

theorem validPieceMove_bishop (b : Board) (frm dst : Position) (hf : frm.isValid = true)
    (hd : dst.isValid = true) (hne : frm ≠ dst) (ht : (b.cell frm).type = PieceType.BISHOP) :
    ∃ v, b.validPieceMove frm dst = .ok v ∧
      (v = true ↔ (dst.row - frm.row).natAbs = (dst.col - frm.col).natAbs ∧
        b.clearBetween frm dst) := by
  simp only [Board.validPieceMove, at_valid b hf, ok_bind, ht]
  by_cases hs : (dst.row - frm.row).natAbs = (dst.col - frm.col).natAbs
  · obtain ⟨v, h1, h2⟩ := pathClearDiagonal_spec b frm dst hf hd hne hs
    refine ⟨v, ?_, ?_⟩
    · rw [if_pos hs]; exact h1
    · rw [h2]; tauto
  · refine ⟨false, ?_, ?_⟩
    · rw [if_neg hs]; rfl
    · simp only [Bool.false_eq_true, false_iff]; tauto

theorem validPieceMove_queen (b : Board) (frm dst : Position) (hf : frm.isValid = true)
    (hd : dst.isValid = true) (hne : frm ≠ dst) (ht : (b.cell frm).type = PieceType.QUEEN) :
    ∃ v, b.validPieceMove frm dst = .ok v ∧
      (v = true ↔ ((dst.row - frm.row = 0 ∨ dst.col - frm.col = 0) ∨
          (dst.row - frm.row).natAbs = (dst.col - frm.col).natAbs) ∧
        b.clearBetween frm dst) := by
  simp only [Board.validPieceMove, at_valid b hf, ok_bind, ht]
  by_cases hs : dst.row - frm.row = 0 ∨ dst.col - frm.col = 0
  · obtain ⟨v, h1, h2⟩ := pathClearStraight_spec b frm dst hf hd hne hs
    refine ⟨v, ?_, ?_⟩
    · rw [if_pos hs]; exact h1
    · rw [h2]; tauto
  · by_cases hs2 : (dst.row - frm.row).natAbs = (dst.col - frm.col).natAbs
    · obtain ⟨v, h1, h2⟩ := pathClearDiagonal_spec b frm dst hf hd hne hs2
      refine ⟨v, ?_, ?_⟩
      · rw [if_neg hs, if_pos hs2]; exact h1
      · rw [h2]; tauto
    · refine ⟨false, ?_, ?_⟩
      · rw [if_neg hs, if_neg hs2]; rfl
      · simp only [Bool.false_eq_true, false_iff]; tauto

/-- Between two distinct valid squares `validPieceMove` always returns a verdict. -/
theorem validPieceMove_total (b : Board) (frm dst : Position) (hf : frm.isValid = true)
    (hd : dst.isValid = true) (hne : frm ≠ dst) :
    ∃ v, b.validPieceMove frm dst = .ok v := by
  cases ht : (b.cell frm).type
  · exact ⟨_, validPieceMove_king b frm dst hf ht⟩
  · obtain ⟨v, h, _⟩ := validPieceMove_queen b frm dst hf hd hne ht; exact ⟨v, h⟩
  · obtain ⟨v, h, _⟩ := validPieceMove_rook b frm dst hf hd hne ht; exact ⟨v, h⟩
  · obtain ⟨v, h, _⟩ := validPieceMove_bishop b frm dst hf hd hne ht; exact ⟨v, h⟩
  · exact ⟨_, validPieceMove_knight b frm dst hf ht⟩
  · obtain ⟨v, h, _⟩ := pawn_spec b (b.cell frm) frm dst hf hd
    exact ⟨v, by rw [validPieceMove_pawn b frm dst hf ht]; exact h⟩
  · exact ⟨_, validPieceMove_none b frm dst hf ht⟩

end PieceMoves

section Attack

theorem ofFin_ne_of_color (b : Board) (sq : Position) (byC : Color) (r c : Fin 8)
    (hsq : (b.cell sq).color ≠ byC) (hc : (b.cells_ r c).color = byC) :
    Position.ofFin r c ≠ sq := by
  intro h
  apply hsq
  rw [← h, cell_ofFin]
  exact hc

/-- On a valid square that does not hold a piece of colour `byC`, the scan of
`squareAttacked` returns a verdict, and the verdict is `true` exactly when one
of the scanned squares attacks. -/
theorem scan_spec (b : Board) (sq : Position) (byC : Color) (hv : sq.isValid = true)
    (hsq : (b.cell sq).color ≠ byC) :
    ∀ l : List (Fin 8 × Fin 8), ∃ v, squareAttacked.scan b sq byC l = .ok v ∧
      (v = true ↔ ∃ s ∈ l, attacksFrom b sq byC s) := by
  have hdiff : b.differentColorOrEmpty sq byC = .ok true := by
    simp [differentColorOrEmpty_valid b byC hv, hsq]
  intro l
  induction l with
  | nil => exact ⟨false, rfl, by simp⟩
  | cons s rest ih =>
    obtain ⟨r, c⟩ := s
    obtain ⟨v, ih1, ih2⟩ := ih
    have hrest : (∃ s ∈ (r, c) :: rest, attacksFrom b sq byC s) ↔
        attacksFrom b sq byC (r, c) ∨ ∃ s ∈ rest, attacksFrom b sq byC s := by
      simp only [List.mem_cons, exists_eq_or_imp]
    rw [hrest]
    unfold squareAttacked.scan
    simp only []
    by_cases h1 : (b.cells_ r c).type = PieceType.NONE ∨ (b.cells_ r c).color ≠ byC
    · refine ⟨v, ?_, ?_⟩
      · rw [if_pos h1]; exact ih1
      · rw [ih2]
        have : ¬ attacksFrom b sq byC (r, c) := by
          unfold attacksFrom; simp only []; tauto
        tauto
    · rw [if_neg h1]
      have hty : (b.cells_ r c).type ≠ PieceType.NONE := by tauto
      have hco : (b.cells_ r c).color = byC := by
        by_contra hcon; exact h1 (Or.inr hcon)
      by_cases h2 : (b.cells_ r c).type = PieceType.PAWN
      · rw [if_pos h2]
        by_cases h3 : sq.row = (r.val : Int) + (if byC = Color.WHITE then -1 else 1) ∧
            (sq.col - (c.val : Int)).natAbs = 1
        · refine ⟨true, ?_, ?_⟩
          · rw [if_pos h3]; rfl
          · simp only [true_iff]
            exact Or.inl ⟨hty, hco, Or.inl ⟨h2, h3.1, h3.2⟩⟩
        · refine ⟨v, ?_, ?_⟩
          · rw [if_neg h3]; exact ih1
          · rw [ih2]
            have : ¬ attacksFrom b sq byC (r, c) := by
              unfold attacksFrom; simp only []; tauto
            tauto
      · rw [if_neg h2]
        obtain ⟨w, hw⟩ := validPieceMove_total b (Position.ofFin r c) sq (ofFin_isValid r c) hv
          (ofFin_ne_of_color b sq byC r c hsq hco)
        cases w with
        | true =>
          refine ⟨true, ?_, ?_⟩
          · simp only [hw, ok_bind, if_true, hdiff, pure_eq_ok]
          · simp only [true_iff]
            exact Or.inl ⟨hty, hco, Or.inr ⟨h2, hw⟩⟩
        | false =>
          refine ⟨v, ?_, ?_⟩
          · simp only [hw, ok_bind, Bool.false_eq_true, if_false, pure_eq_ok]
            exact ih1
          · rw [ih2]
            have : ¬ attacksFrom b sq byC (r, c) := by
              unfold attacksFrom; simp only [hw]
              intro hcon
              rcases hcon with ⟨_, _, h | h⟩
              · exact h2 h.1
              · exact absurd h.2 (by simp)
            tauto

theorem mem_allSquares (s : Fin 8 × Fin 8) : s ∈ allSquares := by
  revert s
  decide

theorem squareAttacked_spec (b : Board) (sq : Position) (byC : Color) (hv : sq.isValid = true)
    (hsq : (b.cell sq).color ≠ byC) :
    ∃ v, b.squareAttacked sq byC = .ok v ∧ (v = true ↔ ∃ s, attacksFrom b sq byC s) := by
  obtain ⟨v, h1, h2⟩ := scan_spec b sq byC hv hsq allSquares
  refine ⟨v, h1, ?_⟩
  rw [h2]
  constructor
  · rintro ⟨s, _, hs⟩; exact ⟨s, hs⟩
  · rintro ⟨s, hs⟩; exact ⟨s, mem_allSquares s, hs⟩

theorem opp_ne (c : Color) : (if c = Color.WHITE then Color.BLACK else Color.WHITE) ≠ c := by
  cases c <;> simp

theorem findKing_some (b : Board) (c : Color) (r co : Fin 8)
    (h : inCheck.findKing b c = some (r, co)) :
    (b.cells_ r co).type = PieceType.KING ∧ (b.cells_ r co).color = c := by
  have := List.find?_some h
  simpa using this

theorem findKing_none (b : Board) (c : Color) (h : inCheck.findKing b c = none) (r co : Fin 8) :
    ¬ ((b.cells_ r co).type = PieceType.KING ∧ (b.cells_ r co).color = c) := by
  have := List.find?_eq_none.1 h (r, co) (mem_allSquares _)
  simpa using this

/-- The method `inCheck` returns a verdict on every board. -/
theorem inCheck_total (b : Board) (c : Color) : ∃ v, b.inCheck c = .ok v := by
  unfold Board.inCheck
  cases h : inCheck.findKing b c with
  | none => exact ⟨false, rfl⟩
  | some s =>
    obtain ⟨r, co⟩ := s
    have hk := findKing_some b c r co h
    obtain ⟨v, hv, _⟩ := squareAttacked_spec b (Position.ofFin r co)
      (if c = Color.WHITE then Color.BLACK else Color.WHITE) (ofFin_isValid r co)
      (by rw [cell_ofFin, hk.2]; exact fun h => opp_ne c h.symm)
    exact ⟨v, hv⟩

end Attack

section Move

theorem relocate_valid (b : Board) (frm dst : Position) (hf : frm.isValid = true)
    (hd : dst.isValid = true) :
    b.relocate frm dst = .ok ((b.put (idx dst.row) (idx dst.col) (b.cell frm)).put
      (idx frm.row) (idx frm.col) Piece.empty) := by
  simp [Board.relocate, at_valid b hf, Board.set, hf, hd]

theorem ne_of_owned (b : Board) (frm dst : Position) (turn : Color)
    (h1 : (b.cell frm).type ≠ PieceType.NONE) (h2 : (b.cell frm).color = turn)
    (h3 : (b.cell dst).type = PieceType.NONE ∨ (b.cell dst).color ≠ turn) : frm ≠ dst := by
  intro h
  subst h
  tauto

/-- The two outcomes of `move`: either it rejects and hands back the board it
was given, or all six tests pass and it hands back the relocated board. -/
theorem move_cases (b : Board) (frm dst : Position) (turn : Color) :
    (b.move frm dst turn = .ok (false, b) ∧ ¬ accepts b frm dst turn) ∨
    (∃ tmp, b.relocate frm dst = .ok tmp ∧ b.move frm dst turn = .ok (true, tmp) ∧
      accepts b frm dst turn) := by
  unfold accepts Board.move
  by_cases hf : frm.isValid = true
  swap
  · left
    simp [hf]
  by_cases hd : dst.isValid = true
  swap
  · left
    simp [hd]
  simp only [hf, hd, Bool.not_true, Bool.or_self, Bool.false_eq_true, if_false,
    isEmpty_valid b hf, at_valid b hf, differentColorOrEmpty_valid b turn hd, ok_bind,
    pure_eq_ok, true_and]
  by_cases h1 : (b.cell frm).type = PieceType.NONE
  · left
    simp [h1]
  by_cases h2 : (b.cell frm).color = turn
  swap
  · left
    simp [h1, h2]
  by_cases h3 : (b.cell dst).type = PieceType.NONE ∨ (b.cell dst).color ≠ turn
  swap
  · left
    push_neg at h3
    simp [h1, h2, h3.1, h3.2]
  have hdec : (decide ((b.cell dst).type = PieceType.NONE) || decide ((b.cell dst).color ≠ turn))
      = true := by simpa using h3
  have hne : frm ≠ dst := ne_of_owned b frm dst turn h1 h2 h3
  obtain ⟨v, hv⟩ := validPieceMove_total b frm dst hf hd hne
  simp only [h1, h2, hdec, hv, decide_False, Bool.false_eq_true, if_false, ne_eq,
    not_true_eq_false, not_false_eq_true, Bool.not_true, true_and, relocate_valid b frm dst hf hd,
    ok_bind]
  cases v with
  | false => left; simp
  | true =>
    obtain ⟨w, hw⟩ := inCheck_total ((b.put (idx dst.row) (idx dst.col) (b.cell frm)).put
      (idx frm.row) (idx frm.col) Piece.empty) turn
    cases w with
    | true => left; simp [hw, h3]
    | false => right; simp [hw, h3]

end Move

section MoveEffect

theorem idx_pair_eq_iff {p q : Position} (hp : p.isValid = true) (hq : q.isValid = true) :
    (idx p.row = idx q.row ∧ idx p.col = idx q.col) ↔ p = q := by
  constructor
  · rintro ⟨h1, h2⟩
    rw [← ofFin_idx hp, ← ofFin_idx hq, h1, h2]
  · rintro rfl
    exact ⟨rfl, rfl⟩

theorem cell_put (b : Board) (r c : Fin 8) (x : Piece) (p : Position) :
    (b.put r c x).cell p = if idx p.row = r ∧ idx p.col = c then x else b.cell p := rfl

/-- The cells of the board after the two assignments of a relocation. -/
theorem relocated_cell (b : Board) (frm dst p : Position) (hf : frm.isValid = true)
    (hd : dst.isValid = true) (hp : p.isValid = true) :
    ((b.put (idx dst.row) (idx dst.col) (b.cell frm)).put (idx frm.row) (idx frm.col)
        Piece.empty).cell p
      = if p = frm then Piece.empty else if p = dst then b.cell frm else b.cell p := by
  rw [cell_put, cell_put]
  simp only [idx_pair_eq_iff hp hf, idx_pair_eq_iff hp hd]

end MoveEffect

section Sliding

theorem sign_cases (x : Int) :
    (x < 0 ∧ x.sign = -1) ∨ (x = 0 ∧ x.sign = 0) ∨ (0 < x ∧ x.sign = 1) := by
  rcases lt_trichotomy x 0 with h | h | h
  · exact Or.inl ⟨h, Int.sign_eq_neg_one_of_neg h⟩
  · exact Or.inr (Or.inl ⟨h, by rw [h]; rfl⟩)
  · exact Or.inr (Or.inr ⟨h, Int.sign_eq_one_of_pos h⟩)

/-- Overwriting the cell at `dst` does not change whether the squares strictly
between `frm` and `dst` are empty, when the two lie on a common line. -/
theorem clearBetween_put_dst (b : Board) (frm dst : Position) (x : Piece)
    (hf : frm.isValid = true) (hd : dst.isValid = true)
    (hshape : (dst.row - frm.row = 0 ∨ dst.col - frm.col = 0) ∨
      (dst.row - frm.row).natAbs = (dst.col - frm.col).natAbs) :
    (b.put (idx dst.row) (idx dst.col) x).clearBetween frm dst ↔ b.clearBetween frm dst := by
  rw [isValid_iff] at hf hd
  obtain ⟨hf1, hf2, hf3, hf4⟩ := hf
  obtain ⟨hd1, hd2, hd3, hd4⟩ := hd
  unfold Board.clearBetween
  apply forall_congr'
  intro k
  apply imp_congr_right
  intro hk0
  apply imp_congr_right
  intro hkn
  rw [cell_put]
  have hno : ¬ (idx (frm.row + (dst.row - frm.row).sign * (k : Int)) = idx dst.row ∧
      idx (frm.col + (dst.col - frm.col).sign * (k : Int)) = idx dst.col) := by
    rintro ⟨h1, h2⟩
    rcases sign_cases (dst.row - frm.row) with ⟨hr, hsr⟩ | ⟨hr, hsr⟩ | ⟨hr, hsr⟩ <;>
      rcases sign_cases (dst.col - frm.col) with ⟨hc, hsc⟩ | ⟨hc, hsc⟩ | ⟨hc, hsc⟩ <;>
      rw [hsr] at h1 <;> rw [hsc] at h2 <;>
      first
      | omega
      | (have e1 := idx_inj (by omega) (by omega) hd1 hd2 h1
         have e2 := idx_inj (by omega) (by omega) hd3 hd4 h2
         omega)
  simp only [Position.mk] at hno ⊢
  rw [if_neg hno]

theorem cell_put_of_ne (b : Board) (q p : Position) (x : Piece) (hq : q.isValid = true)
    (hp : p.isValid = true) (hne : p ≠ q) :
    (b.put (idx q.row) (idx q.col) x).cell p = b.cell p := by
  rw [cell_put, if_neg]
  rw [idx_pair_eq_iff hp hq]
  exact hne

theorem verdict_eq_of_iff {x y : Except Fault Bool} {v w : Bool} (hx : x = .ok v) (hy : y = .ok w)
    (h : v = true ↔ w = true) : x = y := by
  rw [hx, hy]
  congr 1
  cases v <;> cases w <;> simp_all

end Sliding

/-! ## The claims -/

/-- C1. Rejection is atomic: for arbitrary integer coordinates `move` returns a
verdict, and when the verdict is `false` the board after the call equals the
board before it in each of its 64 cells. -/
theorem move_rejection_atomic (b : Board) (frm dst : Position) (turn : Color) :
    (∃ v b', b.move frm dst turn = .ok (v, b')) ∧
    ∀ b', b.move frm dst turn = .ok (false, b') → ∀ r c, b'.cells_ r c = b.cells_ r c := by
  rcases move_cases b frm dst turn with ⟨h, _⟩ | ⟨tmp, _, h, _⟩
  · refine ⟨⟨false, b, h⟩, ?_⟩
    intro b' hb' r c
    rw [h] at hb'
    simp only [Except.ok.injEq, Prod.mk.injEq, true_and] at hb'
    rw [hb']
  · refine ⟨⟨true, tmp, h⟩, ?_⟩
    intro b' hb'
    rw [h] at hb'
    simp at hb'

/-- C1 at concrete inputs: on the initial board the move from a7 to the
off-board square (9, -3) is rejected and leaves every cell as it was. -/
theorem move_rejection_atomic_witness :
    Board.setupInitial.move ⟨1, 0⟩ ⟨9, -3⟩ Color.WHITE = .ok (false, Board.setupInitial) ∧
    ∀ r c, Board.setupInitial.cells_ r c = Board.setupInitial.cells_ r c :=
  ⟨rfl, (move_rejection_atomic Board.setupInitial ⟨1, 0⟩ ⟨9, -3⟩ Color.WHITE).2
    Board.setupInitial rfl⟩

section Relocated

/-- A board is determined by its cells at the valid positions. -/
theorem board_eq_of_cells (b1 b2 : Board)
    (h : ∀ p : Position, p.isValid = true → b1.cell p = b2.cell p) : b1 = b2 := by
  cases b1 with
  | mk c1 =>
    cases b2 with
    | mk c2 =>
      congr
      funext r c
      have := h (Position.ofFin r c) (ofFin_isValid r c)
      rw [cell_ofFin, cell_ofFin] at this
      exact this

/-- The board that `relocate` returns is the only board whose cells are those
of `b` with the piece of `frm` on `dst` and `Piece()` on `frm`. -/
theorem relocated_unique (b tmp : Board) (frm dst : Position)
    (hf : frm.isValid = true) (hd : dst.isValid = true) :
    b.relocate frm dst = .ok tmp ↔
      ∀ p : Position, p.isValid = true →
        tmp.cell p = if p = frm then Piece.empty else if p = dst then b.cell frm else b.cell p := by
  rw [relocate_valid b frm dst hf hd]
  constructor
  · intro h p hp
    simp only [Except.ok.injEq] at h
    rw [← h]
    exact relocated_cell b frm dst p hf hd hp
  · intro h
    congr 1
    apply board_eq_of_cells
    intro p hp
    rw [h p hp, relocated_cell b frm dst p hf hd hp]

end Relocated

/-- C2. Verdict characterisation: `move` returns `true` exactly when both
squares are valid, `frm` is non-empty, its piece has colour `turn`, `dst` is
empty or holds a piece of another colour, `validPieceMove` holds, and
`inCheck turn` is `false` on the board `tmp` whose cell at `frm` is `Piece()`,
whose cell at `dst` is the old cell of `frm`, and whose other cells are those
of `b`; otherwise it returns `false`.  On the initial board a7 to a6 with White
to move is rejected. -/
theorem move_verdict_iff (b : Board) (frm dst : Position) (turn : Color) :
    ((∃ b', b.move frm dst turn = .ok (true, b')) ↔
      (frm.isValid = true ∧ dst.isValid = true ∧
        (b.cell frm).type ≠ PieceType.NONE ∧ (b.cell frm).color = turn ∧
        ((b.cell dst).type = PieceType.NONE ∨ (b.cell dst).color ≠ turn) ∧
        b.validPieceMove frm dst = .ok true ∧
        ∃ tmp : Board,
          (∀ p : Position, p.isValid = true →
            tmp.cell p = if p = frm then Piece.empty
              else if p = dst then b.cell frm else b.cell p) ∧
          tmp.inCheck turn = .ok false)) ∧
    ((∃ b', b.move frm dst turn = .ok (false, b')) ↔
      ¬ (frm.isValid = true ∧ dst.isValid = true ∧
        (b.cell frm).type ≠ PieceType.NONE ∧ (b.cell frm).color = turn ∧
        ((b.cell dst).type = PieceType.NONE ∨ (b.cell dst).color ≠ turn) ∧
        b.validPieceMove frm dst = .ok true ∧
        ∃ tmp : Board,
          (∀ p : Position, p.isValid = true →
            tmp.cell p = if p = frm then Piece.empty
              else if p = dst then b.cell frm else b.cell p) ∧
          tmp.inCheck turn = .ok false)) ∧
    Board.setupInitial.move ⟨1, 0⟩ ⟨2, 0⟩ Color.WHITE = .ok (false, Board.setupInitial) := by
  have hc := move_cases b frm dst turn
  unfold accepts at hc
  have hcond : (frm.isValid = true ∧ dst.isValid = true ∧
        (b.cell frm).type ≠ PieceType.NONE ∧ (b.cell frm).color = turn ∧
        ((b.cell dst).type = PieceType.NONE ∨ (b.cell dst).color ≠ turn) ∧
        b.validPieceMove frm dst = .ok true ∧
        ∃ tmp : Board,
          (∀ p : Position, p.isValid = true →
            tmp.cell p = if p = frm then Piece.empty
              else if p = dst then b.cell frm else b.cell p) ∧
          tmp.inCheck turn = .ok false) ↔
      (frm.isValid = true ∧ dst.isValid = true ∧
        (b.cell frm).type ≠ PieceType.NONE ∧ (b.cell frm).color = turn ∧
        ((b.cell dst).type = PieceType.NONE ∨ (b.cell dst).color ≠ turn) ∧
        b.validPieceMove frm dst = .ok true ∧
        ∃ tmp, b.relocate frm dst = .ok tmp ∧ tmp.inCheck turn = .ok false) := by
    constructor
    · rintro ⟨hf, hd, h1, h2, h3, h4, tmp, hcells, hchk⟩
      exact ⟨hf, hd, h1, h2, h3, h4, tmp, (relocated_unique b tmp frm dst hf hd).2 hcells, hchk⟩
    · rintro ⟨hf, hd, h1, h2, h3, h4, tmp, hrel, hchk⟩
      exact ⟨hf, hd, h1, h2, h3, h4, tmp, (relocated_unique b tmp frm dst hf hd).1 hrel, hchk⟩
  rw [hcond]
  refine ⟨?_, ?_, rfl⟩
  · rcases hc with ⟨h, hn⟩ | ⟨tmp, _, h, ha⟩
    · constructor
      · rintro ⟨b', hb'⟩
        rw [h] at hb'
        simp at hb'
      · intro ha
        exact absurd ha hn
    · exact ⟨fun _ => ha, fun _ => ⟨tmp, h⟩⟩
  · rcases hc with ⟨h, hn⟩ | ⟨tmp, _, h, ha⟩
    · exact ⟨fun _ => hn, fun _ => ⟨b, h⟩⟩
    · constructor
      · rintro ⟨b', hb'⟩
        rw [h] at hb'
        simp at hb'
      · intro hn
        exact absurd ha hn

/-- C2 at a concrete input: the pinned rook of the self-check scenario passes
the first five tests, and on the board with the rook relocated to a2 White is
in check, so `move` does not return `true`. -/
theorem move_verdict_iff_witness :
    ¬ ∃ b', pinnedRook.move ⟨6, 4⟩ ⟨6, 0⟩ Color.WHITE = .ok (true, b') := by
  intro h
  obtain ⟨_, _, _, _, _, _, tmp, hcells, hchk⟩ :=
    (move_verdict_iff pinnedRook ⟨6, 4⟩ ⟨6, 0⟩ Color.WHITE).1.1 h
  have htmp := (relocated_unique pinnedRook tmp ⟨6, 4⟩ ⟨6, 0⟩ rfl rfl).2 hcells
  rw [relocate_valid pinnedRook ⟨6, 4⟩ ⟨6, 0⟩ rfl rfl] at htmp
  simp only [Except.ok.injEq] at htmp
  rw [← htmp] at hchk
  exact absurd hchk (by decide)

/-- C3. Effect of an accepted move: when `move` returns `true` the two squares
are valid and distinct, the cell at `dst` is the old cell at `frm`, the cell at
`frm` is `Piece()`, every other cell is unchanged, and the board has changed. -/
theorem move_accept_effect (b b' : Board) (frm dst : Position) (turn : Color)
    (h : b.move frm dst turn = .ok (true, b')) :
    frm.isValid = true ∧ dst.isValid = true ∧ frm ≠ dst ∧
    b'.cell dst = b.cell frm ∧ b'.cell frm = Piece.empty ∧
    (∀ p : Position, p.isValid = true → p ≠ frm → p ≠ dst → b'.cell p = b.cell p) ∧
    b' ≠ b := by
  rcases move_cases b frm dst turn with ⟨h', _⟩ | ⟨tmp, hrel, h', ha⟩
  · rw [h'] at h
    simp at h
  · rw [h'] at h
    simp only [Except.ok.injEq, Prod.mk.injEq, true_and] at h
    subst h
    obtain ⟨hf, hd, h1, h2, h3, _, _⟩ := ha
    have hne : frm ≠ dst := ne_of_owned b frm dst turn h1 h2 h3
    rw [relocate_valid b frm dst hf hd] at hrel
    simp only [Except.ok.injEq] at hrel
    subst hrel
    have hfrm := relocated_cell b frm dst frm hf hd hf
    rw [if_pos rfl] at hfrm
    refine ⟨hf, hd, hne, ?_, hfrm, ?_, ?_⟩
    · rw [relocated_cell b frm dst dst hf hd hd, if_neg (Ne.symm hne), if_pos rfl]
    · intro p hp hpf hpd
      rw [relocated_cell b frm dst p hf hd hp, if_neg hpf, if_neg hpd]
    · intro hcon
      rw [hcon] at hfrm
      apply h1
      rw [hfrm]
      rfl

/-- C3 at a concrete input: e2 to e4 on the initial board. -/
theorem move_accept_effect_witness :
    ∃ b', Board.setupInitial.move ⟨6, 4⟩ ⟨4, 4⟩ Color.WHITE = .ok (true, b') ∧
      b'.cell ⟨4, 4⟩ = Board.setupInitial.cell ⟨6, 4⟩ ∧ b'.cell ⟨6, 4⟩ = Piece.empty ∧
      b' ≠ Board.setupInitial := by
  refine ⟨_, rfl, ?_⟩
  have h := move_accept_effect Board.setupInitial _ ⟨6, 4⟩ ⟨4, 4⟩ Color.WHITE rfl
  exact ⟨h.2.2.2.1, h.2.2.2.2.1, h.2.2.2.2.2.2⟩

/-- C4. Self-check guard: after an accepted move `inCheck turn` is `false` on
the resulting board; a move that passes the ownership, destination and geometry
tests but whose relocation leaves the mover in check is rejected.  With White
king e1, White rook e2 and Black rook e8, `validPieceMove` accepts e2 to a2 and
`move` rejects it. -/
theorem move_self_check_guard :
    (∀ (b b' : Board) (frm dst : Position) (turn : Color),
      b.move frm dst turn = .ok (true, b') → b'.inCheck turn = .ok false) ∧
    (∀ (b tmp : Board) (frm dst : Position) (turn : Color),
      frm.isValid = true → dst.isValid = true →
      (b.cell frm).type ≠ PieceType.NONE → (b.cell frm).color = turn →
      ((b.cell dst).type = PieceType.NONE ∨ (b.cell dst).color ≠ turn) →
      b.validPieceMove frm dst = .ok true →
      b.relocate frm dst = .ok tmp → tmp.inCheck turn = .ok true →
      b.move frm dst turn = .ok (false, b)) ∧
    (pinnedRook.validPieceMove ⟨6, 4⟩ ⟨6, 0⟩ = .ok true ∧
      pinnedRook.move ⟨6, 4⟩ ⟨6, 0⟩ Color.WHITE = .ok (false, pinnedRook)) := by
  refine ⟨?_, ?_, rfl, rfl⟩
  · intro b b' frm dst turn h
    rcases move_cases b frm dst turn with ⟨h', _⟩ | ⟨tmp, hrel, h', ha⟩
    · rw [h'] at h
      simp at h
    · rw [h'] at h
      simp only [Except.ok.injEq, Prod.mk.injEq, true_and] at h
      subst h
      obtain ⟨_, _, _, _, _, _, tmp', hrel', hchk⟩ := ha
      rw [hrel] at hrel'
      simp only [Except.ok.injEq] at hrel'
      rw [hrel']
      exact hchk
  · intro b tmp frm dst turn hf hd h1 h2 h3 h4 hrel hchk
    rcases move_cases b frm dst turn with ⟨h', _⟩ | ⟨tmp', hrel', h', ha⟩
    · exact h'
    · obtain ⟨_, _, _, _, _, _, tmp2, hrel2, hchk2⟩ := ha
      rw [hrel] at hrel2
      simp only [Except.ok.injEq] at hrel2
      rw [← hrel2, hchk] at hchk2
      simp at hchk2

/-- C4 at concrete inputs: after e2 to e4 on the initial board White is not in
check, and the pinned rook of the scenario may not leave the e-file. -/
theorem move_self_check_guard_witness :
    (∃ b', Board.setupInitial.move ⟨6, 4⟩ ⟨4, 4⟩ Color.WHITE = .ok (true, b') ∧
      b'.inCheck Color.WHITE = .ok false) ∧
    pinnedRook.move ⟨6, 4⟩ ⟨6, 0⟩ Color.WHITE = .ok (false, pinnedRook) :=
  ⟨⟨_, rfl, move_self_check_guard.1 Board.setupInitial _ ⟨6, 4⟩ ⟨4, 4⟩ Color.WHITE rfl⟩,
   move_self_check_guard.2.1 pinnedRook _ ⟨6, 4⟩ ⟨6, 0⟩ Color.WHITE rfl rfl (by decide) rfl
     (by decide) rfl rfl rfl⟩

/-- C5. Pawn double-step: for a pawn on a valid square `frm` and a valid square
`dst` two rows ahead in the same column, `validPieceMove` returns a verdict,
which is `true` exactly when `frm.row` is the starting row (6 for White, 1
otherwise) and both the intermediate square and `dst` are empty; from any other
row it is `false`.  On the initial board `move` accepts e2 to e4 for White. -/
theorem pawn_double_step :
    (∀ (b : Board) (frm dst : Position),
      frm.isValid = true → dst.isValid = true → (b.cell frm).type = PieceType.PAWN →
      dst.col = frm.col →
      dst.row - frm.row = 2 * (if (b.cell frm).color = Color.WHITE then -1 else 1) →
      (∃ v, b.validPieceMove frm dst = .ok v) ∧
      (b.validPieceMove frm dst = .ok true ↔
        frm.row = (if (b.cell frm).color = Color.WHITE then 6 else 1) ∧
        (b.cell ⟨frm.row + (if (b.cell frm).color = Color.WHITE then -1 else 1),
          frm.col⟩).type = PieceType.NONE ∧
        (b.cell dst).type = PieceType.NONE) ∧
      (frm.row ≠ (if (b.cell frm).color = Color.WHITE then 6 else 1) →
        b.validPieceMove frm dst = .ok false)) ∧
    (∃ b', Board.setupInitial.move ⟨6, 4⟩ ⟨4, 4⟩ Color.WHITE = .ok (true, b')) := by
  refine ⟨?_, ⟨_, rfl⟩⟩
  intro b frm dst hf hd hp hc hr
  obtain ⟨v, hv, hiff⟩ := pawn_spec b (b.cell frm) frm dst hf hd
  rw [← validPieceMove_pawn b frm dst hf hp] at hv
  unfold pawnRule at hiff
  simp only [] at hiff
  have hdir : (if (b.cell frm).color = Color.WHITE then (-1 : Int) else 1) = -1 ∨
      (if (b.cell frm).color = Color.WHITE then (-1 : Int) else 1) = 1 := by
    by_cases hw : (b.cell frm).color = Color.WHITE
    · left; simp [hw]
    · right; simp [hw]
  generalize (if (b.cell frm).color = Color.WHITE then (-1 : Int) else 1) = dir at hr hiff hdir ⊢
  generalize (if (b.cell frm).color = Color.WHITE then (6 : Int) else 1) = startRow at hiff ⊢
  have hdc : dst.col - frm.col = 0 := by omega
  have key : v = true ↔ frm.row = startRow ∧
      (b.cell ⟨frm.row + dir, frm.col⟩).type = PieceType.NONE ∧
      (b.cell dst).type = PieceType.NONE := by
    rw [hiff]
    constructor
    · rintro (⟨_, h, _⟩ | ⟨_, _, h1, h2, h3⟩ | ⟨h, _⟩)
      · omega
      · exact ⟨h1, h2, h3⟩
      · omega
    · rintro ⟨h1, h2, h3⟩
      exact Or.inr (Or.inl ⟨hdc, hr, h1, h2, h3⟩)
  refine ⟨⟨v, hv⟩, ?_, ?_⟩
  · rw [hv, ← key]
    simp
  · intro hrow
    rw [hv]
    cases v with
    | false => rfl
    | true => exact absurd (key.1 rfl).1 hrow

/-- C5 at a concrete input: the e-pawn of the initial board, e2 to e4. -/
theorem pawn_double_step_witness :
    Board.setupInitial.validPieceMove ⟨6, 4⟩ ⟨4, 4⟩ = .ok true ↔
      (6 : Int) = (if (Board.setupInitial.cell ⟨6, 4⟩).color = Color.WHITE then 6 else 1) ∧
      (Board.setupInitial.cell ⟨6 + (if (Board.setupInitial.cell ⟨6, 4⟩).color = Color.WHITE
        then -1 else 1), 4⟩).type = PieceType.NONE ∧
      (Board.setupInitial.cell ⟨4, 4⟩).type = PieceType.NONE :=
  (pawn_double_step.1 Board.setupInitial ⟨6, 4⟩ ⟨4, 4⟩ rfl rfl rfl rfl (by decide)).2.1

/-- C6. Sliding pieces: between two distinct valid squares, with a rook, bishop
or queen on `frm`, `validPieceMove` returns a verdict, which is `true` exactly
when the displacement has the piece's shape (rook: same row or column; bishop:
`|drow| = |dcol|`; queen: either) and every square strictly between the two is
empty; overwriting the cell at `dst` never changes the verdict.  After e2e4 and
e7e5 from the initial board, `move` accepts d1 to h5 and rejects d1 to d8. -/
theorem sliding_piece_moves :
    (∀ (b : Board) (frm dst : Position),
      frm.isValid = true → dst.isValid = true → frm ≠ dst →
      ((b.cell frm).type = PieceType.ROOK →
        (∃ v, b.validPieceMove frm dst = .ok v) ∧
        (b.validPieceMove frm dst = .ok true ↔
          (dst.row = frm.row ∨ dst.col = frm.col) ∧ b.clearBetween frm dst)) ∧
      ((b.cell frm).type = PieceType.BISHOP →
        (∃ v, b.validPieceMove frm dst = .ok v) ∧
        (b.validPieceMove frm dst = .ok true ↔
          (dst.row - frm.row).natAbs = (dst.col - frm.col).natAbs ∧ b.clearBetween frm dst)) ∧
      ((b.cell frm).type = PieceType.QUEEN →
        (∃ v, b.validPieceMove frm dst = .ok v) ∧
        (b.validPieceMove frm dst = .ok true ↔
          ((dst.row = frm.row ∨ dst.col = frm.col) ∨
            (dst.row - frm.row).natAbs = (dst.col - frm.col).natAbs) ∧
          b.clearBetween frm dst)) ∧
      ((b.cell frm).type = PieceType.ROOK ∨ (b.cell frm).type = PieceType.BISHOP ∨
          (b.cell frm).type = PieceType.QUEEN →
        ∀ x : Piece, (b.put (idx dst.row) (idx dst.col) x).validPieceMove frm dst
          = b.validPieceMove frm dst)) ∧
    (∃ b1 b2 b3, Board.setupInitial.move ⟨6, 4⟩ ⟨4, 4⟩ Color.WHITE = .ok (true, b1) ∧
      b1.move ⟨1, 4⟩ ⟨3, 4⟩ Color.BLACK = .ok (true, b2) ∧
      b2.move ⟨7, 3⟩ ⟨3, 7⟩ Color.WHITE = .ok (true, b3) ∧
      b2.move ⟨7, 3⟩ ⟨0, 3⟩ Color.WHITE = .ok (false, b2)) := by
  refine ⟨?_, ⟨_, _, _, rfl, rfl, rfl, rfl⟩⟩
  intro b frm dst hf hd hne
  have hstr : (dst.row - frm.row = 0 ∨ dst.col - frm.col = 0) ↔
      (dst.row = frm.row ∨ dst.col = frm.col) := by omega
  refine ⟨?_, ?_, ?_, ?_⟩
  · intro ht
    obtain ⟨v, hv, hiff⟩ := validPieceMove_rook b frm dst hf hd hne ht
    refine ⟨⟨v, hv⟩, ?_⟩
    rw [hv, ← hstr, ← hiff]
    simp
  · intro ht
    obtain ⟨v, hv, hiff⟩ := validPieceMove_bishop b frm dst hf hd hne ht
    refine ⟨⟨v, hv⟩, ?_⟩
    rw [hv, ← hiff]
    simp
  · intro ht
    obtain ⟨v, hv, hiff⟩ := validPieceMove_queen b frm dst hf hd hne ht
    refine ⟨⟨v, hv⟩, ?_⟩
    rw [hv, ← hstr, ← hiff]
    simp
  · intro ht x
    have hcell : ((b.put (idx dst.row) (idx dst.col) x).cell frm) = b.cell frm :=
      cell_put_of_ne b dst frm x hd hf hne
    rcases ht with ht | ht | ht
    · obtain ⟨v, hv, hiff⟩ := validPieceMove_rook b frm dst hf hd hne ht
      obtain ⟨w, hw, hiff2⟩ := validPieceMove_rook (b.put (idx dst.row) (idx dst.col) x) frm dst
        hf hd hne (by rw [hcell]; exact ht)
      apply verdict_eq_of_iff hw hv
      rw [hiff, hiff2]
      constructor
      · rintro ⟨h1, h2⟩
        exact ⟨h1, (clearBetween_put_dst b frm dst x hf hd (Or.inl h1)).1 h2⟩
      · rintro ⟨h1, h2⟩
        exact ⟨h1, (clearBetween_put_dst b frm dst x hf hd (Or.inl h1)).2 h2⟩
    · obtain ⟨v, hv, hiff⟩ := validPieceMove_bishop b frm dst hf hd hne ht
      obtain ⟨w, hw, hiff2⟩ := validPieceMove_bishop (b.put (idx dst.row) (idx dst.col) x) frm
        dst hf hd hne (by rw [hcell]; exact ht)
      apply verdict_eq_of_iff hw hv
      rw [hiff, hiff2]
      constructor
      · rintro ⟨h1, h2⟩
        exact ⟨h1, (clearBetween_put_dst b frm dst x hf hd (Or.inr h1)).1 h2⟩
      · rintro ⟨h1, h2⟩
        exact ⟨h1, (clearBetween_put_dst b frm dst x hf hd (Or.inr h1)).2 h2⟩
    · obtain ⟨v, hv, hiff⟩ := validPieceMove_queen b frm dst hf hd hne ht
      obtain ⟨w, hw, hiff2⟩ := validPieceMove_queen (b.put (idx dst.row) (idx dst.col) x) frm
        dst hf hd hne (by rw [hcell]; exact ht)
      apply verdict_eq_of_iff hw hv
      rw [hiff, hiff2]
      constructor
      · rintro ⟨h1, h2⟩
        exact ⟨h1, (clearBetween_put_dst b frm dst x hf hd h1).1 h2⟩
      · rintro ⟨h1, h2⟩
        exact ⟨h1, (clearBetween_put_dst b frm dst x hf hd h1).2 h2⟩

/-- C6 at a concrete input: on the initial board the rook on a1 cannot reach a3,
because a2 is occupied. -/
theorem sliding_piece_moves_witness :
    ¬ (Board.setupInitial.validPieceMove ⟨7, 0⟩ ⟨5, 0⟩ = .ok true) ∧
    ¬ Board.setupInitial.clearBetween ⟨7, 0⟩ ⟨5, 0⟩ := by
  have h := ((sliding_piece_moves.1 Board.setupInitial ⟨7, 0⟩ ⟨5, 0⟩ rfl rfl (by decide)).1
    rfl).2
  have hv : ¬ (Board.setupInitial.validPieceMove ⟨7, 0⟩ ⟨5, 0⟩ = .ok true) := by decide
  exact ⟨hv, fun hcb => hv (h.2 ⟨Or.inr rfl, hcb⟩)⟩

/-- C7. Knight moves: for a knight on a valid square `frm` and a valid square
`dst`, `validPieceMove` returns `true` exactly when `|drow| * |dcol| = 2` and
`false` otherwise; any other board with a knight on `frm` gives the same
answer, whatever else it holds. -/
theorem knight_moves (b b2 : Board) (frm dst : Position)
    (hf : frm.isValid = true) (_hd : dst.isValid = true)
    (hk : (b.cell frm).type = PieceType.KNIGHT) (hk2 : (b2.cell frm).type = PieceType.KNIGHT) :
    (∃ v, b.validPieceMove frm dst = .ok v) ∧
    (b.validPieceMove frm dst = .ok true ↔
      (dst.row - frm.row).natAbs * (dst.col - frm.col).natAbs = 2) ∧
    b2.validPieceMove frm dst = b.validPieceMove frm dst := by
  rw [validPieceMove_knight b frm dst hf hk, validPieceMove_knight b2 frm dst hf hk2]
  refine ⟨⟨_, rfl⟩, ?_, rfl⟩
  simp

/-- C7 at concrete inputs: the knight on b1 jumps to c3 over the pawns of the
initial board, as it does on a board holding nothing but a knight on b1. -/
theorem knight_moves_witness :
    Board.setupInitial.validPieceMove ⟨7, 1⟩ ⟨5, 2⟩ = .ok true ∧
    (Board.cleared.put 7 1 ⟨Color.BLACK, PieceType.KNIGHT⟩).validPieceMove ⟨7, 1⟩ ⟨5, 2⟩
      = Board.setupInitial.validPieceMove ⟨7, 1⟩ ⟨5, 2⟩ :=
  have h := knight_moves Board.setupInitial
    (Board.cleared.put 7 1 ⟨Color.BLACK, PieceType.KNIGHT⟩) ⟨7, 1⟩ ⟨5, 2⟩ rfl rfl rfl rfl
  ⟨h.2.1.2 (by decide), h.2.2⟩

/-- C8. Pawn single step and capture: for a pawn on a valid square `frm` and a
valid square `dst` that is not a straight two-row advance, `validPieceMove`
returns a verdict, which is `true` exactly when `drow = dir` and either
`dcol = 0` with `dst` empty, or `|dcol| = 1` with `dst` non-empty and of a
colour other than the pawn's.  On the initial board `move` rejects e2 to e5. -/
theorem pawn_step_and_capture :
    (∀ (b : Board) (frm dst : Position),
      frm.isValid = true → dst.isValid = true → (b.cell frm).type = PieceType.PAWN →
      ¬ (dst.col - frm.col = 0 ∧
        dst.row - frm.row = 2 * (if (b.cell frm).color = Color.WHITE then -1 else 1)) →
      (∃ v, b.validPieceMove frm dst = .ok v) ∧
      (b.validPieceMove frm dst = .ok true ↔
        dst.row - frm.row = (if (b.cell frm).color = Color.WHITE then -1 else 1) ∧
        ((dst.col - frm.col = 0 ∧ (b.cell dst).type = PieceType.NONE) ∨
         ((dst.col - frm.col).natAbs = 1 ∧ (b.cell dst).type ≠ PieceType.NONE ∧
           (b.cell dst).color ≠ (b.cell frm).color)))) ∧
    Board.setupInitial.move ⟨6, 4⟩ ⟨3, 4⟩ Color.WHITE = .ok (false, Board.setupInitial) := by
  refine ⟨?_, rfl⟩
  intro b frm dst hf hd hp hnot
  obtain ⟨v, hv, hiff⟩ := pawn_spec b (b.cell frm) frm dst hf hd
  rw [← validPieceMove_pawn b frm dst hf hp] at hv
  unfold pawnRule at hiff
  simp only [] at hiff
  generalize (if (b.cell frm).color = Color.WHITE then (-1 : Int) else 1) = dir at hnot hiff ⊢
  generalize (if (b.cell frm).color = Color.WHITE then (6 : Int) else 1) = startRow at hiff ⊢
  refine ⟨⟨v, hv⟩, ?_⟩
  rw [hv]
  simp only [Except.ok.injEq]
  rw [hiff]
  constructor
  · rintro (⟨h1, h2, h3⟩ | ⟨h1, h2, _⟩ | ⟨h1, h2, h3, h4⟩)
    · exact ⟨h2, Or.inl ⟨h1, h3⟩⟩
    · exact absurd ⟨h1, h2⟩ hnot
    · exact ⟨h2, Or.inr ⟨h1, h3, h4⟩⟩
  · rintro ⟨h2, ⟨h1, h3⟩ | ⟨h1, h3, h4⟩⟩
    · exact Or.inl ⟨h1, h2, h3⟩
    · exact Or.inr (Or.inr ⟨h1, h2, h3, h4⟩)

/-- C8 at a concrete input: the e-pawn of the initial board may step to e3. -/
theorem pawn_step_and_capture_witness :
    Board.setupInitial.validPieceMove ⟨6, 4⟩ ⟨5, 4⟩ = .ok true :=
  ((pawn_step_and_capture.1 Board.setupInitial ⟨6, 4⟩ ⟨5, 4⟩ rfl rfl rfl (by decide)).2).2
    ⟨by decide, Or.inl ⟨by decide, by decide⟩⟩

/-- C9. Kings cannot approach each other: when `turn` (White or Black) has its
only king on `frm`, and a king of the opposing side stands on a square `k`
other than `dst` at Chebyshev distance 1 from the valid square `dst`, then
`move frm dst turn` returns `false` and leaves the board as it was. -/
theorem kings_cannot_approach (b : Board) (frm dst k : Position) (turn : Color)
    (_hturn : turn = Color.WHITE ∨ turn = Color.BLACK)
    (hf : frm.isValid = true)
    (hking : (b.cell frm).type = PieceType.KING ∧ (b.cell frm).color = turn)
    (huniq : ∀ p : Position, p.isValid = true → (b.cell p).type = PieceType.KING →
      (b.cell p).color = turn → p = frm)
    (hd : dst.isValid = true) (hk : k.isValid = true)
    (hopp : (b.cell k).type = PieceType.KING ∧
      (b.cell k).color = (if turn = Color.WHITE then Color.BLACK else Color.WHITE))
    (hkd : k ≠ dst)
    (hadj : max (k.row - dst.row).natAbs (k.col - dst.col).natAbs = 1) :
    b.move frm dst turn = .ok (false, b) := by
  rcases move_cases b frm dst turn with ⟨h, _⟩ | ⟨tmp, _, _, ha⟩
  · exact h
  · exfalso
    obtain ⟨_, _, h1, h2, h3, _, tmp', hrel', hchk⟩ := ha
    have hne : frm ≠ dst := ne_of_owned b frm dst turn h1 h2 h3
    rw [relocate_valid b frm dst hf hd] at hrel'
    simp only [Except.ok.injEq] at hrel'
    subst hrel'
    have hT := relocated_cell b frm dst
    have hkf : k ≠ frm := by
      intro hcon
      rw [hcon, hking.2] at hopp
      exact opp_ne turn hopp.2.symm
    have hTdst := hT dst hf hd hd
    rw [if_neg (Ne.symm hne), if_pos rfl] at hTdst
    have hTk := hT k hf hd hk
    rw [if_neg hkf, if_neg hkd] at hTk
    unfold Board.inCheck at hchk
    cases hfk : inCheck.findKing ((b.put (idx dst.row) (idx dst.col) (b.cell frm)).put
        (idx frm.row) (idx frm.col) Piece.empty) turn with
    | none =>
      have hnone := findKing_none _ _ hfk (idx dst.row) (idx dst.col)
      apply hnone
      have : ((b.put (idx dst.row) (idx dst.col) (b.cell frm)).put
          (idx frm.row) (idx frm.col) Piece.empty).cells_ (idx dst.row) (idx dst.col)
          = b.cell frm := hTdst
      rw [this]
      exact hking
    | some s =>
      obtain ⟨r, co⟩ := s
      rw [hfk] at hchk
      simp only [] at hchk
      have hsome := findKing_some _ _ r co hfk
      rw [← cell_ofFin] at hsome
      have hp : Position.ofFin r co = dst := by
        have hTp := hT (Position.ofFin r co) hf hd (ofFin_isValid r co)
        by_cases e1 : Position.ofFin r co = frm
        · rw [if_pos e1] at hTp
          rw [hTp] at hsome
          exact absurd hsome.1 (by simp [Piece.empty])
        · rw [if_neg e1] at hTp
          by_cases e2 : Position.ofFin r co = dst
          · exact e2
          · rw [if_neg e2] at hTp
            rw [hTp] at hsome
            exact absurd (huniq _ (ofFin_isValid r co) hsome.1 hsome.2) e1
      rw [hp] at hchk
      obtain ⟨v, hv, hiff⟩ := squareAttacked_spec
        ((b.put (idx dst.row) (idx dst.col) (b.cell frm)).put (idx frm.row) (idx frm.col)
          Piece.empty) dst (if turn = Color.WHITE then Color.BLACK else Color.WHITE) hd
        (by rw [hTdst, hking.2]; exact fun h => opp_ne turn h.symm)
      rw [hv] at hchk
      simp only [Except.ok.injEq] at hchk
      have hatt : v = true := by
        rw [hiff]
        refine ⟨(idx k.row, idx k.col), ?_⟩
        unfold attacksFrom
        simp only []
        rw [← cell_ofFin, ofFin_idx hk, hTk]
        refine ⟨by rw [hopp.1]; simp, hopp.2, Or.inr ⟨by rw [hopp.1]; simp, ?_⟩⟩
        rw [validPieceMove_king _ k dst hk (by rw [hTk]; exact hopp.1)]
        have e1 : (dst.row - k.row).natAbs ≤ 1 := by omega
        have e2 : (dst.col - k.col).natAbs ≤ 1 := by omega
        simp [e1, e2]
      rw [hatt] at hchk
      exact absurd hchk (by simp)

/-- C9 at a concrete input: with the White king on e1 and the Black king on e3,
White may not play its king to e2. -/
theorem kings_cannot_approach_witness :
    facingKings.move ⟨7, 4⟩ ⟨6, 4⟩ Color.WHITE = .ok (false, facingKings) :=
  kings_cannot_approach facingKings ⟨7, 4⟩ ⟨6, 4⟩ ⟨5, 4⟩ Color.WHITE (Or.inl rfl) rfl
    ⟨rfl, rfl⟩
    (by
      intro p hp h1 h2
      have hp' := ofFin_idx hp
      rw [← hp'] at h1 h2 ⊢
      generalize idx p.row = r at h1 h2 ⊢
      generalize idx p.col = c at h1 h2 ⊢
      revert h1 h2
      revert r c
      decide)
    rfl rfl ⟨rfl, rfl⟩ (by decide) (by decide)

/-- C10. Initial position: `Board()` has the Black back rank Rook, Knight,
Bishop, Queen, King, Bishop, Knight, Rook on row 0, the White pieces of the
same kinds on row 7, Black pawns on row 1, White pawns on row 6, and `Piece()`
on every square of rows 2 to 5. -/
theorem initial_position :
    Board.setupInitial.cells_ 0 0 = ⟨Color.BLACK, PieceType.ROOK⟩ ∧
    Board.setupInitial.cells_ 0 1 = ⟨Color.BLACK, PieceType.KNIGHT⟩ ∧
    Board.setupInitial.cells_ 0 2 = ⟨Color.BLACK, PieceType.BISHOP⟩ ∧
    Board.setupInitial.cells_ 0 3 = ⟨Color.BLACK, PieceType.QUEEN⟩ ∧
    Board.setupInitial.cells_ 0 4 = ⟨Color.BLACK, PieceType.KING⟩ ∧
    Board.setupInitial.cells_ 0 5 = ⟨Color.BLACK, PieceType.BISHOP⟩ ∧
    Board.setupInitial.cells_ 0 6 = ⟨Color.BLACK, PieceType.KNIGHT⟩ ∧
    Board.setupInitial.cells_ 0 7 = ⟨Color.BLACK, PieceType.ROOK⟩ ∧
    Board.setupInitial.cells_ 7 0 = ⟨Color.WHITE, PieceType.ROOK⟩ ∧
    Board.setupInitial.cells_ 7 1 = ⟨Color.WHITE, PieceType.KNIGHT⟩ ∧
    Board.setupInitial.cells_ 7 2 = ⟨Color.WHITE, PieceType.BISHOP⟩ ∧
    Board.setupInitial.cells_ 7 3 = ⟨Color.WHITE, PieceType.QUEEN⟩ ∧
    Board.setupInitial.cells_ 7 4 = ⟨Color.WHITE, PieceType.KING⟩ ∧
    Board.setupInitial.cells_ 7 5 = ⟨Color.WHITE, PieceType.BISHOP⟩ ∧
    Board.setupInitial.cells_ 7 6 = ⟨Color.WHITE, PieceType.KNIGHT⟩ ∧
    Board.setupInitial.cells_ 7 7 = ⟨Color.WHITE, PieceType.ROOK⟩ ∧
    (∀ c : Fin 8, Board.setupInitial.cells_ 1 c = ⟨Color.BLACK, PieceType.PAWN⟩) ∧
    (∀ c : Fin 8, Board.setupInitial.cells_ 6 c = ⟨Color.WHITE, PieceType.PAWN⟩) ∧
    (∀ c : Fin 8, Board.setupInitial.cells_ 2 c = Piece.empty ∧
      Board.setupInitial.cells_ 3 c = Piece.empty ∧
      Board.setupInitial.cells_ 4 c = Piece.empty ∧
      Board.setupInitial.cells_ 5 c = Piece.empty) := by
  decide

section RowMajor

theorem allSquares_sorted :
    allSquares.Pairwise (fun s t => s.1 < t.1 ∨ (s.1 = t.1 ∧ s.2 < t.2)) := by
  decide

theorem find_first {α : Type} (lt : α → α → Prop) (p : α → Bool) (a : α) (hp : p a = true)
    (hlt : ∀ x, lt x a → p x = false) :
    ∀ l : List α, l.Pairwise lt → a ∈ l → l.find? p = some a := by
  intro l
  induction l with
  | nil => intro _ h; simp at h
  | cons x xs ih =>
    intro hs hmem
    rw [List.pairwise_cons] at hs
    by_cases hx : x = a
    · subst hx
      simp [List.find?, hp]
    · have hmem' : a ∈ xs := by
        rcases List.mem_cons.1 hmem with h | h
        · exact absurd h.symm hx
        · exact h
      have hpx : p x = false := hlt x (hs.1 a hmem')
      simp only [List.find?, hpx]
      exact ih hs.2 hmem'

theorem find_before {α : Type} (lt : α → α → Prop) (p : α → Bool) (a : α)
    (hasym : ∀ x y, lt x y → ¬ lt y x) :
    ∀ l : List α, l.Pairwise lt → l.find? p = some a → ∀ x ∈ l, lt x a → p x = false := by
  intro l
  induction l with
  | nil => intro _ h; simp at h
  | cons y ys ih =>
    intro hs hfind x hx hlt
    rw [List.pairwise_cons] at hs
    cases hpy : p y with
    | true =>
      simp only [List.find?, hpy, Option.some.injEq] at hfind
      subst hfind
      rcases List.mem_cons.1 hx with h | h
      · subst h
        exact absurd hlt (hasym _ _ hlt)
      · exact absurd hlt (hasym _ _ (hs.1 x h))
    | false =>
      simp only [List.find?, hpy] at hfind
      rcases List.mem_cons.1 hx with h | h
      · rw [h]; exact hpy
      · exact ih hs.2 hfind x h hlt

end RowMajor

section AttackGeneral

theorem findKing_of_firstKing (b : Board) (c : Color) (r co : Fin 8)
    (h : b.firstKing c r co) : inCheck.findKing b c = some (r, co) := by
  unfold inCheck.findKing
  apply find_first (fun s t : Fin 8 × Fin 8 => s.1 < t.1 ∨ (s.1 = t.1 ∧ s.2 < t.2))
  · simpa using h.1
  · intro x hx
    have := h.2 x.1 x.2 hx
    simp only [Bool.and_eq_false_imp, decide_eq_true_eq, decide_eq_false_iff_not]
    tauto
  · exact allSquares_sorted
  · exact mem_allSquares _

theorem firstKing_of_findKing (b : Board) (c : Color) (r co : Fin 8)
    (h : inCheck.findKing b c = some (r, co)) : b.firstKing c r co := by
  refine ⟨findKing_some b c r co h, ?_⟩
  intro r' co' hlt
  have := find_before (fun s t : Fin 8 × Fin 8 => s.1 < t.1 ∨ (s.1 = t.1 ∧ s.2 < t.2))
    (fun s => decide ((b.cells_ s.1 s.2).type = PieceType.KING) &&
      decide ((b.cells_ s.1 s.2).color = c)) (r, co)
    (by
      intro x y h1 h2
      rcases h1 with h1 | ⟨h1, h1'⟩ <;> rcases h2 with h2 | ⟨h2, h2'⟩
      · exact lt_asymm h1 h2
      · rw [h2] at h1; exact lt_irrefl _ h1
      · rw [h1] at h2; exact lt_irrefl _ h2
      · exact lt_asymm h1' h2')
    allSquares allSquares_sorted h (r', co') (mem_allSquares _) hlt
  simpa using this

end AttackGeneral

section AttackGeneral2

/-- The scan of `squareAttacked` on a valid square that is empty or holds a
piece not of colour `byC`: it returns a verdict, `true` exactly when one of
the scanned squares attacks. -/
theorem scan_spec_free (b : Board) (sq : Position) (byC : Color) (hv : sq.isValid = true)
    (hfree : (b.cell sq).type = PieceType.NONE ∨ (b.cell sq).color ≠ byC) :
    ∀ l : List (Fin 8 × Fin 8), ∃ v, squareAttacked.scan b sq byC l = .ok v ∧
      (v = true ↔ ∃ s ∈ l, attacksFrom b sq byC s) := by
  have hdiff : b.differentColorOrEmpty sq byC = .ok true := by
    rw [differentColorOrEmpty_valid b byC hv]
    rcases hfree with h | h <;> simp [h]
  intro l
  induction l with
  | nil => exact ⟨false, rfl, by simp⟩
  | cons s rest ih =>
    obtain ⟨r, c⟩ := s
    obtain ⟨v, ih1, ih2⟩ := ih
    have hrest : (∃ s ∈ (r, c) :: rest, attacksFrom b sq byC s) ↔
        attacksFrom b sq byC (r, c) ∨ ∃ s ∈ rest, attacksFrom b sq byC s := by
      simp only [List.mem_cons, exists_eq_or_imp]
    rw [hrest]
    unfold squareAttacked.scan
    simp only []
    by_cases h1 : (b.cells_ r c).type = PieceType.NONE ∨ (b.cells_ r c).color ≠ byC
    · refine ⟨v, ?_, ?_⟩
      · rw [if_pos h1]; exact ih1
      · rw [ih2]
        have : ¬ attacksFrom b sq byC (r, c) := by
          unfold attacksFrom; simp only []; tauto
        exact (or_iff_right this).symm
    · rw [if_neg h1]
      have hty : (b.cells_ r c).type ≠ PieceType.NONE := by tauto
      have hco : (b.cells_ r c).color = byC := by
        by_contra hcon; exact h1 (Or.inr hcon)
      by_cases h2 : (b.cells_ r c).type = PieceType.PAWN
      · rw [if_pos h2]
        by_cases h3 : sq.row = (r.val : Int) + (if byC = Color.WHITE then -1 else 1) ∧
            (sq.col - (c.val : Int)).natAbs = 1
        · refine ⟨true, ?_, ?_⟩
          · rw [if_pos h3]; rfl
          · simp only [true_iff]
            exact Or.inl ⟨hty, hco, Or.inl ⟨h2, h3.1, h3.2⟩⟩
        · refine ⟨v, ?_, ?_⟩
          · rw [if_neg h3]; exact ih1
          · rw [ih2]
            have : ¬ attacksFrom b sq byC (r, c) := by
              unfold attacksFrom; simp only []; tauto
            exact (or_iff_right this).symm
      · rw [if_neg h2]
        have hne : Position.ofFin r c ≠ sq := by
          intro h
          rw [← h, cell_ofFin] at hfree
          tauto
        obtain ⟨w, hw⟩ := validPieceMove_total b (Position.ofFin r c) sq (ofFin_isValid r c) hv
          hne
        cases w with
        | true =>
          refine ⟨true, ?_, ?_⟩
          · simp only [hw, ok_bind, if_true, hdiff, pure_eq_ok]
          · simp only [true_iff]
            exact Or.inl ⟨hty, hco, Or.inr ⟨h2, hw⟩⟩
        | false =>
          refine ⟨v, ?_, ?_⟩
          · simp only [hw, ok_bind, Bool.false_eq_true, if_false, pure_eq_ok]
            exact ih1
          · rw [ih2]
            have : ¬ attacksFrom b sq byC (r, c) := by
              unfold attacksFrom; simp only [hw]
              intro hcon
              rcases hcon with ⟨_, _, h | h⟩
              · exact h2 h.1
              · exact absurd h.2 (by simp)
            exact (or_iff_right this).symm

/-- The scan of `squareAttacked` on a valid square that holds a piece of colour
`byC`: whenever it returns a verdict, the verdict is `true` exactly when one of
the scanned squares holds a pawn of `byC` in the attacking pattern. -/
theorem scan_spec_own (b : Board) (sq : Position) (byC : Color) (hv : sq.isValid = true)
    (hown : (b.cell sq).type ≠ PieceType.NONE ∧ (b.cell sq).color = byC) :
    ∀ (l : List (Fin 8 × Fin 8)) (v : Bool), squareAttacked.scan b sq byC l = .ok v →
      (v = true ↔ ∃ s ∈ l, (b.cells_ s.1 s.2).type = PieceType.PAWN ∧
        (b.cells_ s.1 s.2).color = byC ∧
        sq.row = (s.1.val : Int) + (if byC = Color.WHITE then -1 else 1) ∧
        (sq.col - (s.2.val : Int)).natAbs = 1) := by
  have hdiff : b.differentColorOrEmpty sq byC = .ok false := by
    rw [differentColorOrEmpty_valid b byC hv]
    simp [hown.1, hown.2]
  intro l
  induction l with
  | nil =>
    intro v h
    simp only [squareAttacked.scan, pure_eq_ok, Except.ok.injEq] at h
    simp [← h]
  | cons s rest ih =>
    obtain ⟨r, c⟩ := s
    intro v h
    simp only [List.mem_cons, exists_eq_or_imp]
    unfold squareAttacked.scan at h
    simp only [] at h
    by_cases h1 : (b.cells_ r c).type = PieceType.NONE ∨ (b.cells_ r c).color ≠ byC
    · rw [if_pos h1] at h
      rw [ih v h]
      have : ¬ ((b.cells_ r c).type = PieceType.PAWN ∧ (b.cells_ r c).color = byC ∧
          sq.row = (r.val : Int) + (if byC = Color.WHITE then -1 else 1) ∧
          (sq.col - (c.val : Int)).natAbs = 1) := by
        rintro ⟨h2, h3, _⟩
        rcases h1 with h1 | h1
        · rw [h2] at h1; exact absurd h1 (by decide)
        · exact h1 h3
      exact (or_iff_right this).symm
    · rw [if_neg h1] at h
      have hco : (b.cells_ r c).color = byC := by
        by_contra hcon; exact h1 (Or.inr hcon)
      by_cases h2 : (b.cells_ r c).type = PieceType.PAWN
      · rw [if_pos h2] at h
        by_cases h3 : sq.row = (r.val : Int) + (if byC = Color.WHITE then -1 else 1) ∧
            (sq.col - (c.val : Int)).natAbs = 1
        · rw [if_pos h3] at h
          simp only [pure_eq_ok, Except.ok.injEq] at h
          rw [← h]
          simp only [true_iff]
          exact Or.inl ⟨h2, hco, h3.1, h3.2⟩
        · rw [if_neg h3] at h
          rw [ih v h]
          refine (or_iff_right ?_).symm
          rintro ⟨_, _, h4, h5⟩
          exact h3 ⟨h4, h5⟩
      · rw [if_neg h2] at h
        cases hw : b.validPieceMove (Position.ofFin r c) sq with
        | error e =>
          rw [hw] at h
          simp only [error_bind] at h
          exact absurd h (by simp)
        | ok w =>
          rw [hw] at h
          have hrest : squareAttacked.scan b sq byC rest = .ok v := by
            cases w with
            | true =>
              simpa only [ok_bind, if_true, hdiff, Bool.false_eq_true, if_false, pure_eq_ok]
                using h
            | false =>
              simpa only [ok_bind, Bool.false_eq_true, if_false, pure_eq_ok] using h
          rw [ih v hrest]
          refine (or_iff_right ?_).symm
          rintro ⟨h4, _⟩
          exact h2 h4

theorem attacksFrom_iff_reachedBy (b : Board) (sq : Position) (byC : Color) :
    (∃ s, attacksFrom b sq byC s) ↔ b.reachedBy sq byC := by
  unfold Board.reachedBy attacksFrom
  constructor
  · rintro ⟨⟨r, c⟩, h1, h2, h3⟩
    dsimp only at h1 h2 h3
    refine ⟨Position.ofFin r c, ofFin_isValid r c, ?_⟩
    rw [cell_ofFin]
    refine ⟨h1, h2, ?_⟩
    rcases h3 with ⟨h3, h4, h5⟩ | h3
    · left
      simp only [Position.ofFin]
      refine ⟨h3, by omega, by omega⟩
    · right; exact h3
  · rintro ⟨p, hp, h1, h2, h3⟩
    have hp' := (isValid_iff p).1 hp
    refine ⟨(idx p.row, idx p.col), h1, h2, ?_⟩
    simp only []
    rw [ofFin_idx hp, idx_val hp'.1 hp'.2.1, idx_val hp'.2.2.1 hp'.2.2.2]
    rcases h3 with ⟨h3, h4, h5⟩ | h3
    · left; exact ⟨h3, by omega, by omega⟩
    · right; exact h3

end AttackGeneral2

/-- C14 as stated fails: a king on e1 has `validPieceMove(e1, e1)` true although
the Chebyshev distance from e1 to e1 is 0. -/
theorem king_geometry_counterexample :
    ¬ (facingKings.validPieceMove ⟨7, 4⟩ ⟨7, 4⟩ = .ok true ↔
      max ((7 : Int) - 7).natAbs ((4 : Int) - 4).natAbs = 1) := by
  decide

/-- C14, amended. King geometry: for a king on a valid square `frm` and a valid
square `dst`, `validPieceMove` returns a verdict, which is `true` exactly when
the Chebyshev distance between the two is at most 1 (0 included); for
`dst ≠ frm` that is exactly when the distance is 1. -/
theorem king_geometry (b : Board) (frm dst : Position)
    (hf : frm.isValid = true) (_hd : dst.isValid = true)
    (hk : (b.cell frm).type = PieceType.KING) :
    (∃ v, b.validPieceMove frm dst = .ok v) ∧
    (b.validPieceMove frm dst = .ok true ↔
      max (dst.row - frm.row).natAbs (dst.col - frm.col).natAbs ≤ 1) ∧
    (dst ≠ frm → (b.validPieceMove frm dst = .ok true ↔
      max (dst.row - frm.row).natAbs (dst.col - frm.col).natAbs = 1)) := by
  rw [validPieceMove_king b frm dst hf hk]
  refine ⟨⟨_, rfl⟩, ?_, ?_⟩
  · simp only [Except.ok.injEq, Bool.and_eq_true, decide_eq_true_eq]
    omega
  · intro hne
    have h := position_ne hne
    simp only [Except.ok.injEq, Bool.and_eq_true, decide_eq_true_eq]
    omega

/-- C14 (amended) at concrete inputs: the White king of the initial board
reaches d2 geometrically, at distance 1. -/
theorem king_geometry_witness :
    Board.setupInitial.validPieceMove ⟨7, 4⟩ ⟨6, 3⟩ = .ok true ↔
      max ((6 : Int) - 7).natAbs ((3 : Int) - 4).natAbs = 1 :=
  (king_geometry Board.setupInitial ⟨7, 4⟩ ⟨6, 3⟩ rfl rfl rfl).2.2 (by decide)

/-- C19. A null move is never accepted: `move s s turn` returns `false` on
every board, for every square `s` (valid or not) and every `turn`; so it does
for a king, although `validPieceMove` accepts its zero displacement. -/
theorem null_move_rejected (b : Board) (s : Position) (turn : Color) :
    b.move s s turn = .ok (false, b) ∧
    (facingKings.validPieceMove ⟨7, 4⟩ ⟨7, 4⟩ = .ok true ∧
      facingKings.move ⟨7, 4⟩ ⟨7, 4⟩ Color.WHITE = .ok (false, facingKings)) := by
  refine ⟨?_, rfl, rfl⟩
  rcases move_cases b s s turn with ⟨h, _⟩ | ⟨_, _, _, ha⟩
  · exact h
  · obtain ⟨_, _, h1, h2, h3, _⟩ := ha
    exact absurd rfl (ne_of_owned b s s turn h1 h2 h3)

/-- C20. A pawn on its far rank is stuck: with a White pawn on a square of row
0, or a Black pawn on a square of row 7, `move` from that square returns `false`
for every `dst` (valid or not) and every `turn`. -/
theorem far_rank_pawn_stuck (b : Board) (frm dst : Position) (turn : Color)
    (hf : frm.isValid = true)
    (hp : (b.cell frm = ⟨Color.WHITE, PieceType.PAWN⟩ ∧ frm.row = 0) ∨
      (b.cell frm = ⟨Color.BLACK, PieceType.PAWN⟩ ∧ frm.row = 7)) :
    b.move frm dst turn = .ok (false, b) := by
  rcases move_cases b frm dst turn with ⟨h, _⟩ | ⟨_, _, _, ha⟩
  · exact h
  · exfalso
    obtain ⟨_, hd, _, _, _, hv, _⟩ := ha
    have hty : (b.cell frm).type = PieceType.PAWN := by
      rcases hp with ⟨h, _⟩ | ⟨h, _⟩ <;> rw [h]
    obtain ⟨v, hv', hiff⟩ := pawn_spec b (b.cell frm) frm dst hf hd
    rw [← validPieceMove_pawn b frm dst hf hty, hv] at hv'
    simp only [Except.ok.injEq] at hv'
    have hrule := hiff.1 hv'.symm
    unfold pawnRule at hrule
    simp only [] at hrule
    have hd' := (isValid_iff dst).1 hd
    rcases hp with ⟨h, hrow⟩ | ⟨h, hrow⟩
    · rw [h] at hrule
      simp only [if_true] at hrule
      omega
    · rw [h] at hrule
      simp only [show ¬ (Color.BLACK = Color.WHITE) by decide, if_false] at hrule
      omega

/-- C20 at concrete inputs: the White pawn on d8 can neither step off the board
nor move sideways. -/
theorem far_rank_pawn_stuck_witness :
    farRankPawn.move ⟨0, 3⟩ ⟨-1, 3⟩ Color.WHITE = .ok (false, farRankPawn) ∧
    farRankPawn.move ⟨0, 3⟩ ⟨0, 4⟩ Color.WHITE = .ok (false, farRankPawn) :=
  ⟨far_rank_pawn_stuck farRankPawn ⟨0, 3⟩ ⟨-1, 3⟩ Color.WHITE rfl (Or.inl ⟨rfl, rfl⟩),
   far_rank_pawn_stuck farRankPawn ⟨0, 3⟩ ⟨0, 4⟩ Color.WHITE rfl (Or.inl ⟨rfl, rfl⟩)⟩

/-- C15 as stated fails: on the initial board `squareAttacked(d2, White)` is
`false`, although the White knight on b1 can geometrically reach d2; the square
holds a White pawn, and `differentColorOrEmpty(d2, White)` is `false`. -/
theorem attack_detection_counterexample :
    ¬ (Board.setupInitial.squareAttacked ⟨6, 3⟩ Color.WHITE = .ok true ↔
      Board.setupInitial.reachedBy ⟨6, 3⟩ Color.WHITE) := by
  intro h
  have hf : ¬ (Board.setupInitial.squareAttacked ⟨6, 3⟩ Color.WHITE = .ok true) := by decide
  apply hf
  rw [h]
  exact ⟨⟨7, 1⟩, rfl, by decide, rfl, Or.inr ⟨by decide, rfl⟩⟩

section OwnSquare

/-- The column loop walking left from column `c`, which never meets its target,
stops with `false` at a non-empty square `n` steps further on. -/
theorem colLoop_blocked (b : Board) (row toCol : Int) (hr0 : 0 ≤ row) (hr8 : row < 8) :
    ∀ (n fuel : Nat) (c : Int), n < fuel → 0 ≤ c - (n : Int) → c < 8 → c < toCol →
      (b.cell ⟨row, c - (n : Int)⟩).type ≠ PieceType.NONE →
      pathClearStraight.colLoop b row toCol (-1) fuel c = .ok false := by
  intro n
  induction n with
  | zero =>
    intro fuel c hf h0 h8 hlt hne
    obtain ⟨f, rfl⟩ : ∃ f, fuel = f + 1 := ⟨fuel - 1, by omega⟩
    have hvalid : (Position.mk row c).isValid = true := by
      rw [isValid_iff]; simp only; omega
    simp only [Nat.cast_zero, sub_zero] at hne
    unfold pathClearStraight.colLoop
    rw [if_neg (by omega), isEmpty_of_nonempty b hvalid hne]
    rfl
  | succ n ih =>
    intro fuel c hf h0 h8 hlt hne
    obtain ⟨f, rfl⟩ : ∃ f, fuel = f + 1 := ⟨fuel - 1, by omega⟩
    have hvalid : (Position.mk row c).isValid = true := by
      rw [isValid_iff]; simp only; push_cast at h0; omega
    unfold pathClearStraight.colLoop
    rw [if_neg (by omega)]
    by_cases he : (b.cell ⟨row, c⟩).type = PieceType.NONE
    · rw [isEmpty_of_empty b hvalid he]
      simp only [ok_bind, Bool.not_true, Bool.false_eq_true, if_false]
      apply ih f (c + -1) (by omega) (by push_cast at h0; omega) (by omega) (by omega)
      have : c + -1 - (n : Int) = c - ((n + 1 : Nat) : Int) := by push_cast; ring
      rw [this]
      exact hne
    · rw [isEmpty_of_nonempty b hvalid he]
      rfl

/-- The diagonal loop walking up and left, which never meets its target, stops
with `false` at a non-empty square `n` steps further on. -/
theorem diagLoop_blocked (b : Board) (dst : Position) :
    ∀ (n fuel : Nat) (r c : Int), n < fuel → 0 ≤ r - (n : Int) → 0 ≤ c - (n : Int) →
      r < 8 → c < 8 → r < dst.row → c < dst.col →
      (b.cell ⟨r - (n : Int), c - (n : Int)⟩).type ≠ PieceType.NONE →
      pathClearDiagonal.loop b dst (-1) (-1) fuel r c = .ok false := by
  intro n
  induction n with
  | zero =>
    intro fuel r c hf hr0 hc0 hr8 hc8 hltr hltc hne
    obtain ⟨f, rfl⟩ : ∃ f, fuel = f + 1 := ⟨fuel - 1, by omega⟩
    have hvalid : (Position.mk r c).isValid = true := by
      rw [isValid_iff]; simp only; omega
    simp only [Nat.cast_zero, sub_zero] at hne
    unfold pathClearDiagonal.loop
    rw [if_pos ⟨by omega, by omega⟩, isEmpty_of_nonempty b hvalid hne]
    rfl
  | succ n ih =>
    intro fuel r c hf hr0 hc0 hr8 hc8 hltr hltc hne
    obtain ⟨f, rfl⟩ : ∃ f, fuel = f + 1 := ⟨fuel - 1, by omega⟩
    have hvalid : (Position.mk r c).isValid = true := by
      rw [isValid_iff]; simp only; push_cast at hr0 hc0; omega
    unfold pathClearDiagonal.loop
    rw [if_pos ⟨by omega, by omega⟩]
    by_cases he : (b.cell ⟨r, c⟩).type = PieceType.NONE
    · rw [isEmpty_of_empty b hvalid he]
      simp only [ok_bind, Bool.not_true, Bool.false_eq_true, if_false]
      apply ih f (r + -1) (c + -1) (by omega) (by push_cast at hr0; omega)
        (by push_cast at hc0; omega) (by omega) (by omega) (by omega) (by omega)
      have e1 : r + -1 - (n : Int) = r - ((n + 1 : Nat) : Int) := by push_cast; ring
      have e2 : c + -1 - (n : Int) = c - ((n + 1 : Nat) : Int) := by push_cast; ring
      rw [e1, e2]
      exact hne
    · rw [isEmpty_of_nonempty b hvalid he]
      rfl

/-- The cases in which `validPieceMove(sq, sq)` returns a verdict: a pawn, a
knight or a king on `sq`; a rook or queen with a non-empty square to its left
in its row; a bishop with a non-empty square on its upper-left diagonal. -/
theorem validPieceMove_self (b : Board) (sq : Position) (hv : sq.isValid = true)
    (h : (b.cell sq).type = PieceType.PAWN ∨ (b.cell sq).type = PieceType.KNIGHT ∨
      (b.cell sq).type = PieceType.KING ∨
      (((b.cell sq).type = PieceType.ROOK ∨ (b.cell sq).type = PieceType.QUEEN) ∧
        ∃ j : Int, 0 ≤ j ∧ j < sq.col ∧ (b.cell ⟨sq.row, j⟩).type ≠ PieceType.NONE) ∨
      ((b.cell sq).type = PieceType.BISHOP ∧
        ∃ k : Int, 0 < k ∧ k ≤ sq.row ∧ k ≤ sq.col ∧
          (b.cell ⟨sq.row - k, sq.col - k⟩).type ≠ PieceType.NONE)) :
    ∃ w, b.validPieceMove sq sq = .ok w := by
  have hv' := (isValid_iff sq).1 hv
  obtain ⟨h1, h2, h3, h4⟩ := hv'
  rcases h with h | h | h | ⟨h, j, hj0, hj1, hj⟩ | ⟨h, k, hk0, hk1, hk2, hk⟩
  · obtain ⟨w, hw, _⟩ := pawn_spec b (b.cell sq) sq sq hv hv
    exact ⟨w, by rw [validPieceMove_pawn b sq sq hv h]; exact hw⟩
  · exact ⟨_, validPieceMove_knight b sq sq hv h⟩
  · exact ⟨_, validPieceMove_king b sq sq hv h⟩
  · have hloop : pathClearStraight.colLoop b sq.row sq.col (-1) loopFuel (sq.col + -1)
        = .ok false := by
      apply colLoop_blocked b sq.row sq.col h1 h2 (sq.col - 1 - j).toNat loopFuel (sq.col + -1)
        (by unfold loopFuel; omega) (by omega) (by omega) (by omega)
      have : sq.col + -1 - ((sq.col - 1 - j).toNat : Int) = j := by omega
      rw [this]
      exact hj
    have hpath : b.pathClearStraight sq sq = .ok false := by
      unfold Board.pathClearStraight
      simp only [if_true, gt_iff_lt, lt_self_iff_false, if_false]
      exact hloop
    refine ⟨false, ?_⟩
    unfold Board.validPieceMove
    rw [at_valid b hv]
    simp only [ok_bind, sub_self, true_or, if_true]
    rcases h with h | h <;> rw [h] <;> exact hpath
  · have hloop : pathClearDiagonal.loop b sq (-1) (-1) loopFuel (sq.row + -1) (sq.col + -1)
        = .ok false := by
      apply diagLoop_blocked b sq (k - 1).toNat loopFuel (sq.row + -1) (sq.col + -1)
        (by unfold loopFuel; omega) (by omega) (by omega) (by omega) (by omega) (by omega)
        (by omega)
      have e1 : sq.row + -1 - ((k - 1).toNat : Int) = sq.row - k := by omega
      have e2 : sq.col + -1 - ((k - 1).toNat : Int) = sq.col - k := by omega
      rw [e1, e2]
      exact hk
    have hpath : b.pathClearDiagonal sq sq = .ok false := by
      unfold Board.pathClearDiagonal
      simp only [sub_self, Int.natAbs_zero, ne_eq, not_true_eq_false, if_false, gt_iff_lt,
        lt_self_iff_false]
      exact hloop
    refine ⟨false, ?_⟩
    unfold Board.validPieceMove
    rw [at_valid b hv]
    simp only [ok_bind, h, sub_self, Int.natAbs_zero, if_true]
    exact hpath

/-- On a square that holds a piece of `byC`, the scan of `squareAttacked`
returns a verdict when `validPieceMove(sq, sq)` does, or when `sq` is not among
the squares scanned. -/
theorem scan_own_total (b : Board) (sq : Position) (byC : Color) (hv : sq.isValid = true)
    (hown : (b.cell sq).type ≠ PieceType.NONE ∧ (b.cell sq).color = byC) :
    ∀ l : List (Fin 8 × Fin 8),
      ((idx sq.row, idx sq.col) ∈ l → ∃ w, b.validPieceMove sq sq = .ok w) →
      ∃ v, squareAttacked.scan b sq byC l = .ok v := by
  have hdiff : b.differentColorOrEmpty sq byC = .ok false := by
    rw [differentColorOrEmpty_valid b byC hv]
    simp [hown.1, hown.2]
  intro l
  induction l with
  | nil => intro _; exact ⟨false, rfl⟩
  | cons s rest ih =>
    obtain ⟨r, c⟩ := s
    intro hself
    obtain ⟨v, hvr⟩ := ih (fun hmem => hself (List.mem_cons_of_mem _ hmem))
    unfold squareAttacked.scan
    simp only []
    by_cases h1 : (b.cells_ r c).type = PieceType.NONE ∨ (b.cells_ r c).color ≠ byC
    · rw [if_pos h1]; exact ⟨v, hvr⟩
    · rw [if_neg h1]
      by_cases h2 : (b.cells_ r c).type = PieceType.PAWN
      · rw [if_pos h2]
        by_cases h3 : sq.row = (r.val : Int) + (if byC = Color.WHITE then -1 else 1) ∧
            (sq.col - (c.val : Int)).natAbs = 1
        · rw [if_pos h3]; exact ⟨true, rfl⟩
        · rw [if_neg h3]; exact ⟨v, hvr⟩
      · rw [if_neg h2]
        have hw : ∃ w, b.validPieceMove (Position.ofFin r c) sq = .ok w := by
          by_cases hsq : Position.ofFin r c = sq
          · have hmem : (idx sq.row, idx sq.col) ∈ (r, c) :: rest := by
              rw [← hsq]
              simp [Position.ofFin]
            obtain ⟨w, hw⟩ := hself hmem
            exact ⟨w, by rw [hsq]; exact hw⟩
          · exact validPieceMove_total b _ sq (ofFin_isValid r c) hv hsq
        obtain ⟨w, hw⟩ := hw
        rw [hw]
        cases w with
        | true =>
          simp only [ok_bind, if_true, hdiff, Bool.false_eq_true, if_false, pure_eq_ok]
          exact ⟨v, hvr⟩
        | false =>
          simp only [ok_bind, Bool.false_eq_true, if_false, pure_eq_ok]
          exact ⟨v, hvr⟩

/-- The scan of a list followed by another: the second is scanned only when
the first returns `false`. -/
theorem scan_append (b : Board) (sq : Position) (byC : Color) (l2 : List (Fin 8 × Fin 8)) :
    ∀ l1 : List (Fin 8 × Fin 8), squareAttacked.scan b sq byC (l1 ++ l2)
      = (squareAttacked.scan b sq byC l1 >>= fun v =>
          if v then pure true else squareAttacked.scan b sq byC l2) := by
  intro l1
  induction l1 with
  | nil => simp [squareAttacked.scan]
  | cons s rest ih =>
    obtain ⟨r, c⟩ := s
    rw [List.cons_append, squareAttacked.scan, squareAttacked.scan]
    simp only []
    by_cases h1 : (b.cells_ r c).type = PieceType.NONE ∨ (b.cells_ r c).color ≠ byC
    · rw [if_pos h1, if_pos h1]; exact ih
    · rw [if_neg h1, if_neg h1]
      by_cases h2 : (b.cells_ r c).type = PieceType.PAWN
      · rw [if_pos h2, if_pos h2]
        by_cases h3 : sq.row = (r.val : Int) + (if byC = Color.WHITE then -1 else 1) ∧
            (sq.col - (c.val : Int)).natAbs = 1
        · rw [if_pos h3, if_pos h3]; rfl
        · rw [if_neg h3, if_neg h3]; exact ih
      · rw [if_neg h2, if_neg h2]
        cases hw : b.validPieceMove (Position.ofFin r c) sq with
        | error e => rfl
        | ok w =>
          simp only [ok_bind]
          cases w with
          | false =>
            simp only [Bool.false_eq_true, if_false, pure_eq_ok, ok_bind]
            exact ih
          | true =>
            simp only [if_true]
            cases hd : b.differentColorOrEmpty sq byC with
            | error e => rfl
            | ok d =>
              simp only [ok_bind]
              cases d with
              | false =>
                simp only [Bool.false_eq_true, if_false]
                exact ih
              | true => rfl

theorem allSquares_split (r : Fin 8) :
    allSquares = allSquares.filter (fun s => decide (s.1 < r))
      ++ allSquares.filter (fun s => !decide (s.1 < r)) := by
  revert r
  decide

end OwnSquare

/-- C15, amended. Attack detection on a valid square `sq`, for `byC` White or
Black.  When `sq` is empty or holds a piece whose colour is not `byC`,
`squareAttacked` returns a verdict, `true` exactly when some piece of `byC` can
geometrically reach `sq` (a pawn by its diagonal pattern, another piece by
`validPieceMove`).  When `sq` holds a piece of `byC`, any verdict it returns is
`true` exactly when a pawn of `byC` stands in the diagonal pattern, and it does
return a verdict when that piece is a pawn, a knight or a king, when it is a
rook or queen with a non-empty square to its left in its row, when it is a
bishop with a non-empty square on its upper-left diagonal, and when `byC` is
Black and a Black pawn stands in the diagonal pattern. -/
theorem attack_detection (b : Board) (sq : Position) (byC : Color)
    (_hby : byC = Color.WHITE ∨ byC = Color.BLACK) (hv : sq.isValid = true) :
    (((b.cell sq).type = PieceType.NONE ∨ (b.cell sq).color ≠ byC) →
      (∃ v, b.squareAttacked sq byC = .ok v) ∧
      (b.squareAttacked sq byC = .ok true ↔ b.reachedBy sq byC)) ∧
    (((b.cell sq).type ≠ PieceType.NONE ∧ (b.cell sq).color = byC) →
      ∀ v, b.squareAttacked sq byC = .ok v → (v = true ↔ b.pawnReaches sq byC)) ∧
    (((b.cell sq).type ≠ PieceType.NONE ∧ (b.cell sq).color = byC) →
      ((b.cell sq).type = PieceType.PAWN ∨ (b.cell sq).type = PieceType.KNIGHT ∨
        (b.cell sq).type = PieceType.KING ∨
        (((b.cell sq).type = PieceType.ROOK ∨ (b.cell sq).type = PieceType.QUEEN) ∧
          ∃ j : Int, 0 ≤ j ∧ j < sq.col ∧ (b.cell ⟨sq.row, j⟩).type ≠ PieceType.NONE) ∨
        ((b.cell sq).type = PieceType.BISHOP ∧
          ∃ k : Int, 0 < k ∧ k ≤ sq.row ∧ k ≤ sq.col ∧
            (b.cell ⟨sq.row - k, sq.col - k⟩).type ≠ PieceType.NONE) ∨
        (byC = Color.BLACK ∧ b.pawnReaches sq byC)) →
      (∃ v, b.squareAttacked sq byC = .ok v) ∧
      (b.squareAttacked sq byC = .ok true ↔ b.pawnReaches sq byC)) := by
  have part2 : ((b.cell sq).type ≠ PieceType.NONE ∧ (b.cell sq).color = byC) →
      ∀ v, b.squareAttacked sq byC = .ok v → (v = true ↔ b.pawnReaches sq byC) := by
    intro hown v h
    rw [scan_spec_own b sq byC hv hown allSquares v h]
    unfold Board.pawnReaches
    constructor
    · rintro ⟨⟨r, c⟩, _, h1, h2, h3, h4⟩
      dsimp only at h1 h2 h3 h4
      refine ⟨Position.ofFin r c, ofFin_isValid r c, ?_⟩
      rw [cell_ofFin]
      simp only [Position.ofFin]
      exact ⟨h1, h2, by omega, by omega⟩
    · rintro ⟨p, hp, h1, h2, h3, h4⟩
      have hp' := (isValid_iff p).1 hp
      refine ⟨(idx p.row, idx p.col), mem_allSquares _, h1, h2, ?_⟩
      simp only []
      rw [idx_val hp'.1 hp'.2.1, idx_val hp'.2.2.1 hp'.2.2.2]
      exact ⟨by omega, by omega⟩
  refine ⟨?_, part2, ?_⟩
  · intro hfree
    obtain ⟨v, h1, h2⟩ := scan_spec_free b sq byC hv hfree allSquares
    refine ⟨⟨v, h1⟩, ?_⟩
    unfold Board.squareAttacked
    rw [h1, ← attacksFrom_iff_reachedBy]
    simp only [Except.ok.injEq]
    rw [h2]
    constructor
    · rintro ⟨s, _, hs⟩; exact ⟨s, hs⟩
    · rintro ⟨s, hs⟩; exact ⟨s, mem_allSquares s, hs⟩
  · intro hown hcond
    have htot : ∃ v, b.squareAttacked sq byC = .ok v := by
      have hself : (b.cell sq).type = PieceType.PAWN ∨ (b.cell sq).type = PieceType.KNIGHT ∨
          (b.cell sq).type = PieceType.KING ∨
          (((b.cell sq).type = PieceType.ROOK ∨ (b.cell sq).type = PieceType.QUEEN) ∧
            ∃ j : Int, 0 ≤ j ∧ j < sq.col ∧ (b.cell ⟨sq.row, j⟩).type ≠ PieceType.NONE) ∨
          ((b.cell sq).type = PieceType.BISHOP ∧
            ∃ k : Int, 0 < k ∧ k ≤ sq.row ∧ k ≤ sq.col ∧
              (b.cell ⟨sq.row - k, sq.col - k⟩).type ≠ PieceType.NONE) →
          ∃ v, b.squareAttacked sq byC = .ok v := by
        intro h
        have hw := validPieceMove_self b sq hv h
        exact scan_own_total b sq byC hv hown allSquares (fun _ => hw)
      rcases hcond with h | h | h | h | h | ⟨hblack, p, hp, hp1, hp2, hp3, hp4⟩
      · exact hself (Or.inl h)
      · exact hself (Or.inr (Or.inl h))
      · exact hself (Or.inr (Or.inr (Or.inl h)))
      · exact hself (Or.inr (Or.inr (Or.inr (Or.inl h))))
      · exact hself (Or.inr (Or.inr (Or.inr (Or.inr h))))
      · -- a Black pawn in the pattern stands in the row above `sq`, which is
        -- scanned before the row of `sq`
        have hv' := (isValid_iff sq).1 hv
        have hp' := (isValid_iff p).1 hp
        rw [hblack] at hp3
        simp only [show ¬ (Color.BLACK = Color.WHITE) by decide, if_false] at hp3
        have hrow : idx p.row < idx sq.row := by
          rw [Fin.lt_def]
          have e1 := idx_val hp'.1 hp'.2.1
          have e2 := idx_val hv'.1 hv'.2.1
          omega
        have hnot : (idx sq.row, idx sq.col) ∉
            allSquares.filter (fun s => decide (s.1 < idx sq.row)) := by
          intro hmem
          have := (List.mem_filter.1 hmem).2
          simp at this
        obtain ⟨v1, hv1⟩ := scan_own_total b sq byC hv hown
          (allSquares.filter (fun s => decide (s.1 < idx sq.row)))
          (fun hmem => absurd hmem hnot)
        have htrue : v1 = true := by
          rw [scan_spec_own b sq byC hv hown _ v1 hv1]
          refine ⟨(idx p.row, idx p.col), ?_, hp1, hp2, ?_⟩
          · rw [List.mem_filter]
            exact ⟨mem_allSquares _, by simpa using hrow⟩
          · simp only []
            rw [idx_val hp'.1 hp'.2.1, idx_val hp'.2.2.1 hp'.2.2.2, hblack]
            simp only [show ¬ (Color.BLACK = Color.WHITE) by decide, if_false]
            exact ⟨by omega, by omega⟩
        refine ⟨true, ?_⟩
        unfold Board.squareAttacked
        rw [allSquares_split (idx sq.row), scan_append, hv1, htrue]
        rfl
    obtain ⟨v, hvv⟩ := htot
    refine ⟨⟨v, hvv⟩, ?_⟩
    rw [hvv, Except.ok.injEq]
    exact part2 hown v hvv

/-- C15 (amended) at concrete inputs: on the initial board the empty square d3
is attacked by White exactly when a White piece reaches it, and on d2, which
holds a White pawn, `squareAttacked(d2, White)` returns a verdict. -/
theorem attack_detection_witness :
    (Board.setupInitial.squareAttacked ⟨5, 3⟩ Color.WHITE = .ok true ↔
      Board.setupInitial.reachedBy ⟨5, 3⟩ Color.WHITE) ∧
    (∃ v, Board.setupInitial.squareAttacked ⟨6, 3⟩ Color.WHITE = .ok v) :=
  ⟨((attack_detection Board.setupInitial ⟨5, 3⟩ Color.WHITE (Or.inl rfl) rfl).1
      (Or.inl rfl)).2,
   ((attack_detection Board.setupInitial ⟨6, 3⟩ Color.WHITE (Or.inl rfl) rfl).2.2
      ⟨by decide, rfl⟩ (Or.inl rfl)).1⟩

/-- C16. Check detection, for `c` White or Black: `inCheck c` is `false` when
the board holds no king of colour `c`; otherwise the board has a first king of
colour `c` in row-major order, and `inCheck c` equals `squareAttacked` of that
king's square by the opposite side. -/
theorem check_detection (b : Board) (c : Color)
    (_hc : c = Color.WHITE ∨ c = Color.BLACK) :
    ((∀ r co : Fin 8, ¬ ((b.cells_ r co).type = PieceType.KING ∧ (b.cells_ r co).color = c)) →
      b.inCheck c = .ok false) ∧
    ((∃ r co : Fin 8, (b.cells_ r co).type = PieceType.KING ∧ (b.cells_ r co).color = c) →
      ∃ r co : Fin 8, b.firstKing c r co) ∧
    (∀ r co : Fin 8, b.firstKing c r co →
      b.inCheck c = b.squareAttacked (Position.ofFin r co)
        (if c = Color.WHITE then Color.BLACK else Color.WHITE)) := by
  refine ⟨?_, ?_, ?_⟩
  · intro hno
    unfold Board.inCheck
    cases h : inCheck.findKing b c with
    | none => rfl
    | some s => exact absurd (findKing_some b c s.1 s.2 h) (hno s.1 s.2)
  · rintro ⟨r, co, hk⟩
    cases h : inCheck.findKing b c with
    | none => exact absurd hk (findKing_none b c h r co)
    | some s => exact ⟨s.1, s.2, firstKing_of_findKing b c s.1 s.2 h⟩
  · intro r co hk
    unfold Board.inCheck
    rw [findKing_of_firstKing b c r co hk]

/-- C16 at a concrete input: on the initial board the first White king is on
e1, so `inCheck White` is `squareAttacked(e1, Black)`. -/
theorem check_detection_witness :
    Board.setupInitial.inCheck Color.WHITE
      = Board.setupInitial.squareAttacked (Position.ofFin 7 4) Color.BLACK :=
  (check_detection Board.setupInitial Color.WHITE (Or.inl rfl)).2.2 7 4
    ⟨⟨rfl, rfl⟩, by decide⟩

/-- C17. Check means that the king can be captured: for `c` White or Black
whose first king in row-major order stands on `(r, co)`, `inCheck c` returns a
verdict, `true` exactly when some valid square `p` holds a piece of the
opposite colour with `validPieceMove(p, king square)` true. -/
theorem check_iff_capturable (b : Board) (c : Color) (r co : Fin 8)
    (_hc : c = Color.WHITE ∨ c = Color.BLACK) (hk : b.firstKing c r co) :
    (∃ v, b.inCheck c = .ok v) ∧
    (b.inCheck c = .ok true ↔
      ∃ p : Position, p.isValid = true ∧ (b.cell p).type ≠ PieceType.NONE ∧
        (b.cell p).color = (if c = Color.WHITE then Color.BLACK else Color.WHITE) ∧
        b.validPieceMove p (Position.ofFin r co) = .ok true) := by
  refine ⟨inCheck_total b c, ?_⟩
  have hfind := findKing_of_firstKing b c r co hk
  have hkc : (b.cell (Position.ofFin r co)).color ≠
      (if c = Color.WHITE then Color.BLACK else Color.WHITE) := by
    rw [cell_ofFin, hk.1.2]; exact fun h => opp_ne c h.symm
  obtain ⟨v, hv, hiff⟩ := squareAttacked_spec b (Position.ofFin r co)
    (if c = Color.WHITE then Color.BLACK else Color.WHITE) (ofFin_isValid r co) hkc
  unfold Board.inCheck
  rw [hfind]
  simp only []
  rw [hv]
  simp only [Except.ok.injEq]
  rw [hiff]
  generalize hopp : (if c = Color.WHITE then Color.BLACK else Color.WHITE) = opp at hkc ⊢
  have hkty : (b.cell (Position.ofFin r co)).type ≠ PieceType.NONE := by
    rw [cell_ofFin, hk.1.1]; decide
  -- on a king's square the pawn pattern and the pawn capture rule coincide
  have hpawn : ∀ s : Fin 8 × Fin 8, (b.cells_ s.1 s.2).type = PieceType.PAWN →
      (b.cells_ s.1 s.2).color = opp →
      (b.validPieceMove (Position.ofFin s.1 s.2) (Position.ofFin r co) = .ok true ↔
        ((r.val : Int) = (s.1.val : Int) + (if opp = Color.WHITE then -1 else 1) ∧
          ((co.val : Int) - (s.2.val : Int)).natAbs = 1)) := by
    intro s hty hco
    have hty' : (b.cell (Position.ofFin s.1 s.2)).type = PieceType.PAWN := by
      rw [cell_ofFin]; exact hty
    obtain ⟨w, hw, hrule⟩ := pawn_spec b (b.cell (Position.ofFin s.1 s.2))
      (Position.ofFin s.1 s.2) (Position.ofFin r co) (ofFin_isValid _ _) (ofFin_isValid _ _)
    rw [validPieceMove_pawn b _ _ (ofFin_isValid _ _) hty', hw]
    simp only [Except.ok.injEq]
    rw [hrule]
    unfold pawnRule
    simp only []
    rw [cell_ofFin b s.1 s.2, hco]
    simp only [Position.ofFin] at hkty hkc ⊢
    constructor
    · rintro (⟨_, _, h⟩ | ⟨_, _, _, _, h⟩ | ⟨h1, h2, _, _⟩)
      · exact absurd h hkty
      · exact absurd h hkty
      · exact ⟨by omega, h1⟩
    · rintro ⟨h1, h2⟩
      exact Or.inr (Or.inr ⟨h2, by omega, hkty, hkc⟩)
  constructor
  · rintro ⟨s, h1, h2, h3⟩
    refine ⟨Position.ofFin s.1 s.2, ofFin_isValid _ _, ?_⟩
    rw [cell_ofFin]
    refine ⟨h1, h2, ?_⟩
    rcases h3 with ⟨h3, h4, h5⟩ | ⟨_, h3⟩
    · exact (hpawn s h3 h2).2 ⟨h4, h5⟩
    · exact h3
  · rintro ⟨p, hp, h1, h2, h3⟩
    refine ⟨(idx p.row, idx p.col), h1, h2, ?_⟩
    simp only []
    by_cases hty : (b.cell p).type = PieceType.PAWN
    · left
      have := (hpawn (idx p.row, idx p.col) hty h2).1 (by
        simp only []; rw [ofFin_idx hp]; exact h3)
      exact ⟨hty, this.1, this.2⟩
    · right
      rw [ofFin_idx hp]
      exact ⟨hty, h3⟩

/-- C17 at a concrete input: with the kings on e1 and e3, the first White king
is on e1, and White is in check exactly when a Black piece can capture on e1. -/
theorem check_iff_capturable_witness :
    facingKings.inCheck Color.WHITE = .ok true ↔
      ∃ p : Position, p.isValid = true ∧ (facingKings.cell p).type ≠ PieceType.NONE ∧
        (facingKings.cell p).color
          = (if Color.WHITE = Color.WHITE then Color.BLACK else Color.WHITE) ∧
        facingKings.validPieceMove p (Position.ofFin 7 4) = .ok true :=
  (check_iff_capturable facingKings Color.WHITE 7 4 (Or.inl rfl) ⟨⟨rfl, rfl⟩, by decide⟩).2

section Counting

theorem allSquares_nodup : allSquares.Nodup := by
  decide

theorem countP_put (b : Board) (r c : Fin 8) (x : Piece) (P : Piece → Bool) :
    ∀ l : List (Fin 8 × Fin 8), l.Nodup →
      l.countP (fun s => P ((b.put r c x).cells_ s.1 s.2))
          + (if (r, c) ∈ l ∧ P (b.cells_ r c) = true then 1 else 0)
        = l.countP (fun s => P (b.cells_ s.1 s.2))
          + (if (r, c) ∈ l ∧ P x = true then 1 else 0) := by
  intro l
  induction l with
  | nil => intro _; simp
  | cons s rest ih =>
    intro hnd
    rw [List.nodup_cons] at hnd
    have ih' := ih hnd.2
    rw [List.countP_cons, List.countP_cons]
    by_cases hs : s = (r, c)
    · subst hs
      have hnot : (r, c) ∉ rest := hnd.1
      have hcell : (b.put r c x).cells_ r c = x := by simp [Board.put]
      simp only [hnot, false_and, if_false, add_zero] at ih'
      simp only [List.mem_cons, true_or, true_and, hcell, ih']
      by_cases h1 : P x = true <;> by_cases h2 : P (b.cells_ r c) = true <;> simp [h1, h2]
    · have hcell : (b.put r c x).cells_ s.1 s.2 = b.cells_ s.1 s.2 := by
        have : ¬ (s.1 = r ∧ s.2 = c) := by
          rintro ⟨h1, h2⟩
          exact hs (Prod.ext h1 h2)
        simp [Board.put, this]
      have hmem : (r, c) ∈ s :: rest ↔ (r, c) ∈ rest := by
        rw [List.mem_cons]
        constructor
        · rintro (h | h)
          · exact absurd h.symm hs
          · exact h
        · exact Or.inr
      simp only [hmem, hcell]
      omega

/-- Overwriting one cell changes a count by what leaves and what arrives. -/
theorem count_put (b : Board) (r c : Fin 8) (x : Piece) (P : Piece → Bool) :
    (b.put r c x).count P + (if P (b.cells_ r c) = true then 1 else 0)
      = b.count P + (if P x = true then 1 else 0) := by
  have h := countP_put b r c x P allSquares allSquares_nodup
  simp only [mem_allSquares, true_and] at h
  exact h

/-- A relocation changes a count by the piece that was on `dst`. -/
theorem count_relocated (b : Board) (frm dst : Position) (P : Piece → Bool)
    (hf : frm.isValid = true) (hd : dst.isValid = true) (hne : frm ≠ dst)
    (hP : P Piece.empty = false) :
    ((b.put (idx dst.row) (idx dst.col) (b.cell frm)).put (idx frm.row) (idx frm.col)
        Piece.empty).count P + (if P (b.cell dst) = true then 1 else 0) = b.count P := by
  have h1 := count_put b (idx dst.row) (idx dst.col) (b.cell frm) P
  have h2 := count_put (b.put (idx dst.row) (idx dst.col) (b.cell frm)) (idx frm.row)
    (idx frm.col) Piece.empty P
  have hcell : (b.put (idx dst.row) (idx dst.col) (b.cell frm)).cells_ (idx frm.row)
      (idx frm.col) = b.cell frm := cell_put_of_ne b dst frm (b.cell frm) hd hf hne
  rw [hcell, hP] at h2
  simp only [Bool.false_eq_true, if_false, add_zero] at h2
  have hdst : b.cells_ (idx dst.row) (idx dst.col) = b.cell dst := rfl
  rw [hdst] at h1
  omega

end Counting

/-- C18. Piece conservation: when `move` returns `true`, the number of non-empty
cells of colour `turn` is unchanged; the number of non-empty cells of another
colour drops by exactly one when `dst` was occupied and is unchanged when `dst`
was empty; the number of non-empty cells does not grow. -/
theorem piece_conservation (b b' : Board) (frm dst : Position) (turn : Color)
    (h : b.move frm dst turn = .ok (true, b')) :
    b'.count (fun x => decide (x.type ≠ PieceType.NONE) && decide (x.color = turn))
      = b.count (fun x => decide (x.type ≠ PieceType.NONE) && decide (x.color = turn)) ∧
    ((b.cell dst).type ≠ PieceType.NONE →
      b'.count (fun x => decide (x.type ≠ PieceType.NONE) && decide (x.color ≠ turn)) + 1
        = b.count (fun x => decide (x.type ≠ PieceType.NONE) && decide (x.color ≠ turn))) ∧
    ((b.cell dst).type = PieceType.NONE →
      b'.count (fun x => decide (x.type ≠ PieceType.NONE) && decide (x.color ≠ turn))
        = b.count (fun x => decide (x.type ≠ PieceType.NONE) && decide (x.color ≠ turn))) ∧
    b'.count (fun x => decide (x.type ≠ PieceType.NONE))
      ≤ b.count (fun x => decide (x.type ≠ PieceType.NONE)) := by
  rcases move_cases b frm dst turn with ⟨h', _⟩ | ⟨tmp, hrel, h', ha⟩
  · rw [h'] at h
    simp at h
  · rw [h'] at h
    simp only [Except.ok.injEq, Prod.mk.injEq, true_and] at h
    subst h
    obtain ⟨hf, hd, h1, h2, h3, _, _⟩ := ha
    have hne : frm ≠ dst := ne_of_owned b frm dst turn h1 h2 h3
    rw [relocate_valid b frm dst hf hd] at hrel
    simp only [Except.ok.injEq] at hrel
    subst hrel
    have c1 := count_relocated b frm dst
      (fun x => decide (x.type ≠ PieceType.NONE) && decide (x.color = turn)) hf hd hne rfl
    have c2 := count_relocated b frm dst
      (fun x => decide (x.type ≠ PieceType.NONE) && decide (x.color ≠ turn)) hf hd hne rfl
    have c3 := count_relocated b frm dst
      (fun x => decide (x.type ≠ PieceType.NONE)) hf hd hne rfl
    have e1 : ¬ ((b.cell dst).type ≠ PieceType.NONE ∧ (b.cell dst).color = turn) := by
      rintro ⟨h4, h5⟩
      rcases h3 with h3 | h3
      · exact h4 h3
      · exact h3 h5
    simp only [Bool.and_eq_true, decide_eq_true_eq] at c1 c2 c3
    rw [if_neg e1, add_zero] at c1
    refine ⟨c1, ?_, ?_, ?_⟩
    · intro hocc
      have e2 : (b.cell dst).type ≠ PieceType.NONE ∧ (b.cell dst).color ≠ turn := by
        refine ⟨hocc, ?_⟩
        rcases h3 with h3 | h3
        · exact absurd h3 hocc
        · exact h3
      rw [if_pos e2] at c2
      exact c2
    · intro hemp
      have e2 : ¬ ((b.cell dst).type ≠ PieceType.NONE ∧ (b.cell dst).color ≠ turn) := by
        rintro ⟨h4, _⟩
        exact h4 hemp
      rw [if_neg e2, add_zero] at c2
      exact c2
    · omega

/-- C18 at a concrete input: after e2 to e4 on the initial board both sides
still have sixteen pieces. -/
theorem piece_conservation_witness :
    ∃ b', Board.setupInitial.move ⟨6, 4⟩ ⟨4, 4⟩ Color.WHITE = .ok (true, b') ∧
      b'.count (fun x => decide (x.type ≠ PieceType.NONE) && decide (x.color = Color.WHITE))
        = Board.setupInitial.count
            (fun x => decide (x.type ≠ PieceType.NONE) && decide (x.color = Color.WHITE)) ∧
      Board.setupInitial.count
        (fun x => decide (x.type ≠ PieceType.NONE) && decide (x.color = Color.WHITE)) = 16 :=
  ⟨_, rfl, (piece_conservation Board.setupInitial _ ⟨6, 4⟩ ⟨4, 4⟩ Color.WHITE rfl).1,
    by decide⟩

section Game

theorem count_pos (b : Board) (P : Piece → Bool) (r c : Fin 8) (h : P (b.cells_ r c) = true) :
    0 < b.count P := by
  unfold Board.count
  rw [List.countP_pos_iff]
  exact ⟨(r, c), mem_allSquares _, h⟩

/-- When exactly one cell satisfies `P`, two cells that satisfy it coincide. -/
theorem count_unique (b : Board) (P : Piece → Bool) (hP : P Piece.empty = false)
    (h1 : b.count P = 1) (r c r' c' : Fin 8)
    (hc : P (b.cells_ r c) = true) (hc' : P (b.cells_ r' c') = true) :
    (r', c') = (r, c) := by
  by_contra hne
  have hput := count_put b r c Piece.empty P
  rw [hc, hP, h1] at hput
  simp only [if_true, Bool.false_eq_true, if_false, add_zero] at hput
  have hcell : (b.put r c Piece.empty).cells_ r' c' = b.cells_ r' c' := by
    have : ¬ (r' = r ∧ c' = c) := by
      rintro ⟨e1, e2⟩
      exact hne (by rw [e1, e2])
    simp [Board.put, this]
  have := count_pos (b.put r c Piece.empty) P r' c' (by rw [hcell]; exact hc')
  omega

/-- A piece of `turn` whose `validPieceMove` to an occupied square `dst` holds
is an attacker of `dst` in the sense of `squareAttacked`. -/
theorem attacksFrom_of_valid (b : Board) (frm dst : Position) (turn : Color)
    (hf : frm.isValid = true) (hd : dst.isValid = true)
    (h1 : (b.cell frm).type ≠ PieceType.NONE) (h2 : (b.cell frm).color = turn)
    (hocc : (b.cell dst).type ≠ PieceType.NONE)
    (hv : b.validPieceMove frm dst = .ok true) :
    attacksFrom b dst turn (idx frm.row, idx frm.col) := by
  have hf' := (isValid_iff frm).1 hf
  unfold attacksFrom
  simp only []
  have hcell : b.cells_ (idx frm.row) (idx frm.col) = b.cell frm := rfl
  rw [hcell, ofFin_idx hf, idx_val hf'.1 hf'.2.1, idx_val hf'.2.2.1 hf'.2.2.2]
  refine ⟨h1, h2, ?_⟩
  by_cases hty : (b.cell frm).type = PieceType.PAWN
  · left
    obtain ⟨w, hw, hrule⟩ := pawn_spec b (b.cell frm) frm dst hf hd
    rw [← validPieceMove_pawn b frm dst hf hty, hv] at hw
    simp only [Except.ok.injEq] at hw
    have hr := hrule.1 hw.symm
    unfold pawnRule at hr
    simp only [] at hr
    rw [h2] at hr
    rcases hr with ⟨_, _, h⟩ | ⟨_, _, _, _, h⟩ | ⟨h3, h4, _, _⟩
    · exact absurd h hocc
    · exact absurd h hocc
    · exact ⟨hty, by omega, h3⟩
  · right
    exact ⟨hty, hv⟩

/-- An accepted move never lands on a king of the side that is not to move,
when that side has exactly one king and is not in check. -/
theorem dst_not_king (b : Board) (frm dst : Position) (turn : Color)
    (hinv : kingsSafe b turn) (hacc : accepts b frm dst turn) :
    b.cell dst ≠ ⟨Color.WHITE, PieceType.KING⟩ ∧ b.cell dst ≠ ⟨Color.BLACK, PieceType.KING⟩ := by
  obtain ⟨hf, hd, h1, h2, h3, hv, _⟩ := hacc
  obtain ⟨hturn, hw, hb, hchk⟩ := hinv
  -- the case of the side that is not to move
  have key : ∀ o : Color, o = (if turn = Color.WHITE then Color.BLACK else Color.WHITE) →
      b.count (fun x => decide (x = ⟨o, PieceType.KING⟩)) = 1 →
      b.cell dst ≠ ⟨o, PieceType.KING⟩ := by
    intro o ho hcount hcon
    have hot : o ≠ turn := by rw [ho]; exact opp_ne turn
    have hto : (if o = Color.WHITE then Color.BLACK else Color.WHITE) = turn := by
      rcases hturn with h | h <;> rw [ho, h] <;> decide
    rw [← ho] at hchk
    unfold Board.inCheck at hchk
    cases hfk : inCheck.findKing b o with
    | none =>
      apply findKing_none b o hfk (idx dst.row) (idx dst.col)
      have hcell : b.cells_ (idx dst.row) (idx dst.col) = b.cell dst := rfl
      rw [hcell, hcon]
      exact ⟨rfl, rfl⟩
    | some s =>
      obtain ⟨r, co⟩ := s
      rw [hfk] at hchk
      simp only [] at hchk
      have hsome := findKing_some b o r co hfk
      have hdstcell : b.cells_ (idx dst.row) (idx dst.col) = ⟨o, PieceType.KING⟩ := hcon
      have hrc : b.cells_ r co = ⟨o, PieceType.KING⟩ := by
        cases hx : b.cells_ r co with
        | mk col ty =>
          rw [hx] at hsome
          simp only at hsome
          rw [hsome.1, hsome.2]
      have huniq := count_unique b (fun x => decide (x = ⟨o, PieceType.KING⟩))
        (by simp [Piece.empty]) hcount (idx dst.row) (idx dst.col) r co
        (by simp [hdstcell]) (by simp [hrc])
      simp only [Prod.mk.injEq] at huniq
      have hpos : Position.ofFin r co = dst := by
        rw [huniq.1, huniq.2]; exact ofFin_idx hd
      rw [hpos, hto] at hchk
      obtain ⟨v, hv1, hv2⟩ := squareAttacked_spec b dst turn hd
        (by rw [hcon]; exact hot)
      rw [hv1] at hchk
      simp only [Except.ok.injEq] at hchk
      have : v = true := hv2.2 ⟨_, attacksFrom_of_valid b frm dst turn hf hd h1 h2
        (by rw [hcon]; simp) hv⟩
      rw [this] at hchk
      exact absurd hchk (by decide)
  -- the case of the side to move
  have own : b.cell dst ≠ ⟨turn, PieceType.KING⟩ := by
    intro hcon
    rw [hcon] at h3
    rcases h3 with h3 | h3
    · exact absurd h3 (by simp)
    · exact h3 rfl
  rcases hturn with ht | ht
  · subst ht
    exact ⟨own, key Color.BLACK (by decide) hb⟩
  · subst ht
    exact ⟨key Color.WHITE (by decide) hw, own⟩

/-- An accepted move keeps the invariant and passes the turn. -/
theorem kingsSafe_move (b b' : Board) (frm dst : Position) (turn : Color)
    (hinv : kingsSafe b turn) (h : b.move frm dst turn = .ok (true, b')) :
    kingsSafe b' (if turn = Color.WHITE then Color.BLACK else Color.WHITE) := by
  rcases move_cases b frm dst turn with ⟨h', _⟩ | ⟨tmp, hrel, h', ha⟩
  · rw [h'] at h
    simp at h
  · rw [h'] at h
    simp only [Except.ok.injEq, Prod.mk.injEq, true_and] at h
    subst h
    have hking := dst_not_king b frm dst turn hinv ha
    obtain ⟨hf, hd, h1, h2, h3, _, tmp', hrel', hchk⟩ := ha
    have hne : frm ≠ dst := ne_of_owned b frm dst turn h1 h2 h3
    rw [hrel] at hrel'
    simp only [Except.ok.injEq] at hrel'
    subst hrel'
    rw [relocate_valid b frm dst hf hd] at hrel
    simp only [Except.ok.injEq] at hrel
    subst hrel
    obtain ⟨hturn, hw, hb, _⟩ := hinv
    have cw := count_relocated b frm dst (fun x => decide (x = ⟨Color.WHITE, PieceType.KING⟩))
      hf hd hne (by simp [Piece.empty])
    have cb := count_relocated b frm dst (fun x => decide (x = ⟨Color.BLACK, PieceType.KING⟩))
      hf hd hne (by simp [Piece.empty])
    simp only [decide_eq_true_eq] at cw cb
    rw [if_neg hking.1, add_zero] at cw
    rw [if_neg hking.2, add_zero] at cb
    refine ⟨?_, cw.trans hw, cb.trans hb, ?_⟩
    · rcases hturn with h | h <;> rw [h] <;> decide
    · have : (if (if turn = Color.WHITE then Color.BLACK else Color.WHITE) = Color.WHITE
          then Color.BLACK else Color.WHITE) = turn := by
        rcases hturn with h | h <;> rw [h] <;> decide
      rw [this]
      exact hchk

theorem kingsSafe_step (b : Board) (turn : Color) (frm dst : Position)
    (hinv : kingsSafe b turn) :
    ∃ b' t', main.step b turn frm dst = .ok (b', t') ∧ kingsSafe b' t' := by
  unfold main.step
  by_cases hval : (!frm.isValid || !dst.isValid) = true
  · rw [if_pos hval]
    exact ⟨b, turn, rfl, hinv⟩
  · rw [if_neg hval]
    rcases move_cases b frm dst turn with ⟨h', _⟩ | ⟨tmp, _, h', _⟩
    · rw [h']
      exact ⟨b, turn, rfl, hinv⟩
    · rw [h']
      exact ⟨tmp, _, rfl, kingsSafe_move b tmp frm dst turn hinv h'⟩

theorem kingsSafe_loop (inputs : List (Position × Position)) :
    ∀ (b : Board) (turn : Color), kingsSafe b turn →
      ∃ b' t', main.loop b turn inputs = .ok (b', t') ∧ kingsSafe b' t' := by
  induction inputs with
  | nil => intro b turn hinv; exact ⟨b, turn, rfl, hinv⟩
  | cons x rest ih =>
    intro b turn hinv
    obtain ⟨frm, dst⟩ := x
    obtain ⟨b1, t1, hstep, hinv1⟩ := kingsSafe_step b turn frm dst hinv
    obtain ⟨b2, t2, hloop, hinv2⟩ := ih b1 t1 hinv1
    refine ⟨b2, t2, ?_, hinv2⟩
    unfold main.loop
    rw [hstep]
    exact hloop

theorem kingsSafe_initial : kingsSafe Board.setupInitial Color.WHITE := by
  refine ⟨Or.inl rfl, ?_, ?_, ?_⟩ <;> decide

end Game

/-- C11. A king is never captured in play: after any sequence of inputs `main`
is in a state (board, turn) with turn White or Black, in which the board holds
exactly one White king and exactly one Black king and `inCheck` is `false` for
the side that is not to move. -/
theorem king_never_captured (inputs : List (Position × Position)) :
    ∃ b turn, main.run inputs = .ok (b, turn) ∧
      (turn = Color.WHITE ∨ turn = Color.BLACK) ∧
      b.count (fun x => decide (x = ⟨Color.WHITE, PieceType.KING⟩)) = 1 ∧
      b.count (fun x => decide (x = ⟨Color.BLACK, PieceType.KING⟩)) = 1 ∧
      b.inCheck (if turn = Color.WHITE then Color.BLACK else Color.WHITE) = .ok false := by
  obtain ⟨b, t, h, hinv⟩ := kingsSafe_loop inputs Board.setupInitial Color.WHITE
    kingsSafe_initial
  exact ⟨b, t, h, hinv⟩

section Tracing

variable {α β : Type}

theorem Traced.bind_def (t : Traced α) (f : α → Traced β) :
    (t >>= f) = (match t.2 with
      | .error e => (t.1, .error e)
      | .ok a => (t.1 ++ (f a).1, (f a).2)) := rfl

theorem Traced.pure_def (a : α) : (pure a : Traced α) = ([], .ok a) := rfl

/-- Erasing the record from a sequence of computations. -/
theorem Traced.snd_bind (t : Traced α) (f : α → Traced β) :
    (t >>= f).2 = t.2 >>= fun a => (f a).2 := by
  rw [Traced.bind_def]
  cases t.2 <;> rfl

theorem Traced.bind_ok (t : Traced α) (f : α → Traced β) (a : α) (h : t.2 = .ok a) :
    (t >>= f) = (t.1 ++ (f a).1, (f a).2) := by
  rw [Traced.bind_def, h]

theorem Traced.bind_error (t : Traced α) (f : α → Traced β) (e : Fault) (h : t.2 = .error e) :
    (t >>= f) = (t.1, .error e) := by
  rw [Traced.bind_def, h]

theorem good_pure (Q : Event → Prop) (a : α) : Traced.Good Q (pure a : Traced α) := by
  intro _ e he
  simp [Traced.pure_def] at he

theorem good_bind (Q : Event → Prop) (t : Traced α) (f : α → Traced β)
    (ht : Traced.Good Q t) (hf : ∀ a, t.2 = .ok a → Traced.Good Q (f a)) :
    Traced.Good Q (t >>= f) := by
  intro hok e he
  cases h : t.2 with
  | error x =>
    rw [Traced.bind_error t f x h] at hok
    obtain ⟨c, hc⟩ := hok
    simp at hc
  | ok a =>
    rw [Traced.bind_ok t f a h] at hok he
    simp only [List.mem_append] at he
    rcases he with he | he
    · exact ht ⟨a, h⟩ e he
    · exact hf a h hok e he

theorem good_fault (Q : Event → Prop) (l : List Event) (x : Fault) :
    Traced.Good Q ((l, .error x) : Traced α) := by
  intro hok
  obtain ⟨c, hc⟩ := hok
  simp at hc

theorem good_ite (Q : Event → Prop) (c : Prop) [Decidable c] (t u : Traced α)
    (ht : c → Traced.Good Q t) (hu : ¬ c → Traced.Good Q u) :
    Traced.Good Q (if c then t else u) := by
  by_cases h : c
  · rw [if_pos h]; exact ht h
  · rw [if_neg h]; exact hu h

theorem good_atT (b : Board) (p : Position) : Traced.Good Event.wellFormed (b.atT p) := by
  intro hok e he
  obtain ⟨a, ha⟩ := hok
  simp only [Board.atT, List.mem_singleton] at he ha
  subst he
  by_cases hp : p.isValid = true
  · exact hp
  · simp [Board.at, hp] at ha

theorem good_setT (b : Board) (p : Position) (x : Piece) :
    Traced.Good Event.wellFormed (b.setT p x) := by
  intro hok e he
  obtain ⟨a, ha⟩ := hok
  simp only [Board.setT, List.mem_singleton] at he ha
  subst he
  by_cases hp : p.isValid = true
  · exact hp
  · simp [Board.set, hp] at ha

theorem good_readT (b : Board) (r c : Fin 8) : Traced.Good Event.wellFormed (b.readT r c) := by
  intro _ e he
  simp only [Board.readT, List.mem_singleton] at he
  subst he
  exact ofFin_isValid r c

theorem good_isEmptyT (b : Board) (p : Position) :
    Traced.Good Event.wellFormed (b.isEmptyT p) :=
  good_bind _ _ _ (good_atT b p) (fun _ _ => good_pure _ _)

theorem good_differentColorOrEmptyT (b : Board) (p : Position) (c : Color) :
    Traced.Good Event.wellFormed (b.differentColorOrEmptyT p c) :=
  good_bind _ _ _ (good_atT b p) (fun _ _ => good_pure _ _)

theorem good_colLoopT (b : Board) (row toCol step : Int) :
    ∀ (fuel : Nat) (c : Int),
      Traced.Good Event.wellFormed (pathClearStraight.colLoopT b row toCol step fuel c) := by
  intro fuel
  induction fuel with
  | zero => intro c; exact good_fault _ _ _
  | succ n ih =>
    intro c
    unfold pathClearStraight.colLoopT
    apply good_ite
    · intro _; exact good_pure _ _
    · intro _
      apply good_bind _ _ _ (good_isEmptyT b _)
      intro e _
      apply good_ite
      · intro _; exact good_pure _ _
      · intro _; exact ih _

theorem good_rowLoopT (b : Board) (col toRow step : Int) :
    ∀ (fuel : Nat) (r : Int),
      Traced.Good Event.wellFormed (pathClearStraight.rowLoopT b col toRow step fuel r) := by
  intro fuel
  induction fuel with
  | zero => intro r; exact good_fault _ _ _
  | succ n ih =>
    intro r
    unfold pathClearStraight.rowLoopT
    apply good_ite
    · intro _; exact good_pure _ _
    · intro _
      apply good_bind _ _ _ (good_isEmptyT b _)
      intro e _
      apply good_ite
      · intro _; exact good_pure _ _
      · intro _; exact ih _

theorem good_diagLoopT (b : Board) (dst : Position) (sr sc : Int) :
    ∀ (fuel : Nat) (r c : Int),
      Traced.Good Event.wellFormed (pathClearDiagonal.loopT b dst sr sc fuel r c) := by
  intro fuel
  induction fuel with
  | zero => intro r c; exact good_fault _ _ _
  | succ n ih =>
    intro r c
    unfold pathClearDiagonal.loopT
    apply good_ite
    · intro _
      apply good_bind _ _ _ (good_isEmptyT b _)
      intro e _
      apply good_ite
      · intro _; exact good_pure _ _
      · intro _; exact ih _ _
    · intro _; exact good_pure _ _

theorem good_pathClearStraightT (b : Board) (frm dst : Position) :
    Traced.Good Event.wellFormed (b.pathClearStraightT frm dst) := by
  unfold Board.pathClearStraightT
  apply good_ite
  · intro _; exact good_colLoopT _ _ _ _ _ _
  · intro _
    apply good_ite
    · intro _; exact good_rowLoopT _ _ _ _ _ _
    · intro _; exact good_pure _ _

theorem good_pathClearDiagonalT (b : Board) (frm dst : Position) :
    Traced.Good Event.wellFormed (b.pathClearDiagonalT frm dst) := by
  unfold Board.pathClearDiagonalT
  apply good_ite
  · intro _; exact good_pure _ _
  · intro _; exact good_diagLoopT _ _ _ _ _ _ _

set_option maxRecDepth 8000 in
theorem good_pawnT (b : Board) (p : Piece) (frm dst : Position) (dr dc : Int) :
    Traced.Good Event.wellFormed (validPieceMove.pawnT b p frm dst dr dc) := by
  unfold validPieceMove.pawnT
  dsimp only
  repeat (first
    | exact good_pure _ _
    | exact good_isEmptyT _ _
    | exact good_atT _ _
    | apply good_ite
    | apply good_bind
    | intro _)

end Tracing

section Erasure

variable {α β : Type}

theorem Traced.snd_pure (a : α) : (pure a : Traced α).2 = .ok a := rfl

theorem Traced.snd_ite (c : Prop) [Decidable c] (t u : Traced α) :
    (if c then t else u).2 = if c then t.2 else u.2 := by
  by_cases h : c <;> simp [h]

theorem atT_snd (b : Board) (p : Position) : (b.atT p).2 = b.at p := rfl

theorem setT_snd (b : Board) (p : Position) (x : Piece) : (b.setT p x).2 = b.set p x := rfl

theorem readT_snd (b : Board) (r c : Fin 8) : (b.readT r c).2 = .ok (b.cells_ r c) := rfl

theorem isEmptyT_snd (b : Board) (p : Position) : (b.isEmptyT p).2 = b.isEmpty p := by
  simp only [Board.isEmptyT, Board.isEmpty, Traced.snd_bind, atT_snd, Traced.snd_pure,
    pure_eq_ok]

theorem differentColorOrEmptyT_snd (b : Board) (p : Position) (c : Color) :
    (b.differentColorOrEmptyT p c).2 = b.differentColorOrEmpty p c := by
  simp only [Board.differentColorOrEmptyT, Board.differentColorOrEmpty, Traced.snd_bind,
    atT_snd, Traced.snd_pure, pure_eq_ok]

theorem colLoopT_snd (b : Board) (row toCol step : Int) :
    ∀ (fuel : Nat) (c : Int), (pathClearStraight.colLoopT b row toCol step fuel c).2
      = pathClearStraight.colLoop b row toCol step fuel c := by
  intro fuel
  induction fuel with
  | zero => intro c; rfl
  | succ n ih =>
    intro c
    unfold pathClearStraight.colLoopT pathClearStraight.colLoop
    simp only [Traced.snd_ite, Traced.snd_bind, Traced.snd_pure, isEmptyT_snd, ih, pure_eq_ok]

theorem rowLoopT_snd (b : Board) (col toRow step : Int) :
    ∀ (fuel : Nat) (r : Int), (pathClearStraight.rowLoopT b col toRow step fuel r).2
      = pathClearStraight.rowLoop b col toRow step fuel r := by
  intro fuel
  induction fuel with
  | zero => intro r; rfl
  | succ n ih =>
    intro r
    unfold pathClearStraight.rowLoopT pathClearStraight.rowLoop
    simp only [Traced.snd_ite, Traced.snd_bind, Traced.snd_pure, isEmptyT_snd, ih, pure_eq_ok]

theorem diagLoopT_snd (b : Board) (dst : Position) (sr sc : Int) :
    ∀ (fuel : Nat) (r c : Int), (pathClearDiagonal.loopT b dst sr sc fuel r c).2
      = pathClearDiagonal.loop b dst sr sc fuel r c := by
  intro fuel
  induction fuel with
  | zero => intro r c; rfl
  | succ n ih =>
    intro r c
    unfold pathClearDiagonal.loopT pathClearDiagonal.loop
    simp only [Traced.snd_ite, Traced.snd_bind, Traced.snd_pure, isEmptyT_snd, ih, pure_eq_ok]

theorem pathClearStraightT_snd (b : Board) (frm dst : Position) :
    (b.pathClearStraightT frm dst).2 = b.pathClearStraight frm dst := by
  unfold Board.pathClearStraightT Board.pathClearStraight
  simp only [Traced.snd_ite, Traced.snd_pure, colLoopT_snd, rowLoopT_snd, pure_eq_ok]

theorem pathClearDiagonalT_snd (b : Board) (frm dst : Position) :
    (b.pathClearDiagonalT frm dst).2 = b.pathClearDiagonal frm dst := by
  unfold Board.pathClearDiagonalT Board.pathClearDiagonal
  simp only [Traced.snd_ite, Traced.snd_pure, diagLoopT_snd, pure_eq_ok]

theorem pawnT_snd (b : Board) (p : Piece) (frm dst : Position) (dr dc : Int) :
    (validPieceMove.pawnT b p frm dst dr dc).2 = validPieceMove.pawn b p frm dst dr dc := by
  unfold validPieceMove.pawnT validPieceMove.pawn
  simp only [Traced.snd_ite, Traced.snd_bind, Traced.snd_pure, isEmptyT_snd, atT_snd,
    pure_eq_ok]

theorem log_snd (e : Event) : (Traced.log e).2 = .ok () := rfl

theorem validPieceMoveT_snd (b : Board) (frm dst : Position) :
    (b.validPieceMoveT frm dst).2 = b.validPieceMove frm dst := by
  unfold Board.validPieceMoveT Board.validPieceMove
  rw [Traced.snd_bind, atT_snd]
  cases hat : b.at frm with
  | error e => rfl
  | ok p =>
    simp only [ok_bind]
    cases p.type <;>
      simp only [Traced.snd_ite, Traced.snd_bind, Traced.snd_pure, pathClearStraightT_snd,
        pathClearDiagonalT_snd, pawnT_snd, log_snd, ok_bind, pure_eq_ok]

theorem scanT_snd (b : Board) (sq : Position) (byC : Color) :
    ∀ l : List (Fin 8 × Fin 8),
      (squareAttacked.scanT b sq byC l).2 = squareAttacked.scan b sq byC l := by
  intro l
  induction l with
  | nil => rfl
  | cons s rest ih =>
    obtain ⟨r, c⟩ := s
    unfold squareAttacked.scanT squareAttacked.scan
    simp only [Traced.snd_ite, Traced.snd_bind, Traced.snd_pure, readT_snd,
      validPieceMoveT_snd, differentColorOrEmptyT_snd, ih, ok_bind, pure_eq_ok]

theorem squareAttackedT_snd (b : Board) (sq : Position) (byC : Color) :
    (b.squareAttackedT sq byC).2 = b.squareAttacked sq byC :=
  scanT_snd b sq byC allSquares

theorem findKingT_snd (b : Board) (c : Color) :
    ∀ l : List (Fin 8 × Fin 8), (inCheck.findKingT b c l).2
      = .ok (l.find? fun s => decide ((b.cells_ s.1 s.2).type = PieceType.KING) &&
          decide ((b.cells_ s.1 s.2).color = c)) := by
  intro l
  induction l with
  | nil => rfl
  | cons s rest ih =>
    obtain ⟨r, co⟩ := s
    unfold inCheck.findKingT
    simp only [Traced.snd_bind, readT_snd, ok_bind, Traced.snd_ite, Traced.snd_pure, ih]
    by_cases h : (b.cells_ r co).type = PieceType.KING ∧ (b.cells_ r co).color = c
    · simp [List.find?, h]
    · rw [if_neg h]
      have : (decide ((b.cells_ r co).type = PieceType.KING) &&
          decide ((b.cells_ r co).color = c)) = false := by
        simpa using h
      simp only [List.find?, this]

theorem inCheckT_snd (b : Board) (c : Color) : (b.inCheckT c).2 = b.inCheck c := by
  unfold Board.inCheckT Board.inCheck inCheck.findKing
  rw [Traced.snd_bind, findKingT_snd]
  simp only [ok_bind]
  cases allSquares.find? fun s => decide ((b.cells_ s.1 s.2).type = PieceType.KING) &&
      decide ((b.cells_ s.1 s.2).color = c) with
  | none => rfl
  | some s => exact squareAttackedT_snd b _ _

theorem relocateT_snd (b : Board) (frm dst : Position) :
    (b.relocateT frm dst).2 = b.relocate frm dst := by
  unfold Board.relocateT Board.relocate
  simp only [Traced.snd_bind, atT_snd, setT_snd]

/-- Erasing the record from the instrumented `move` gives `move`. -/
theorem moveT_snd (b : Board) (frm dst : Position) (turn : Color) :
    (b.moveT frm dst turn).2 = b.move frm dst turn := by
  unfold Board.moveT Board.move
  simp only [Traced.snd_ite, Traced.snd_bind, Traced.snd_pure, isEmptyT_snd, atT_snd,
    differentColorOrEmptyT_snd, validPieceMoveT_snd, relocateT_snd, inCheckT_snd, pure_eq_ok]

end Erasure

section WellFormed

theorem good_log (Q : Event → Prop) (e : Event) (h : Q e) : Traced.Good Q (Traced.log e) := by
  intro _ e' he'
  simp only [Traced.log, List.mem_singleton] at he'
  rw [he']
  exact h

theorem at_ok_valid (b : Board) (p : Position) (x : Piece) (h : b.at p = .ok x) :
    p.isValid = true ∧ x = b.cell p := by
  by_cases hp : p.isValid = true
  · rw [at_valid b hp] at h
    simp only [Except.ok.injEq] at h
    exact ⟨hp, h.symm⟩
  · simp [Board.at, hp] at h

/-- The events of `validPieceMove` between a square and a different valid
square are well formed. -/
theorem good_validPieceMoveT (b : Board) (frm dst : Position) (hd : dst.isValid = true)
    (hne : frm ≠ dst) : Traced.Good Event.wellFormed (b.validPieceMoveT frm dst) := by
  unfold Board.validPieceMoveT
  apply good_bind _ _ _ (good_atT b frm)
  intro p hp
  have hf := (at_ok_valid b frm p hp).1
  have straight : dst.row - frm.row = 0 ∨ dst.col - frm.col = 0 →
      Event.wellFormed (Event.path b false frm dst) := by
    intro h
    refine ⟨hf, hd, hne, ?_⟩
    simp only [Bool.false_eq_true, if_false]
    omega
  have diagonal : (dst.row - frm.row).natAbs = (dst.col - frm.col).natAbs →
      Event.wellFormed (Event.path b true frm dst) := by
    intro h
    refine ⟨hf, hd, hne, ?_⟩
    simp only [if_true]
    exact h
  cases p.type
  · exact good_pure _ _
  · dsimp only
    apply good_ite
    · intro h
      exact good_bind _ _ _ (good_log _ _ (straight h))
        (fun _ _ => good_pathClearStraightT b frm dst)
    · intro _
      apply good_ite
      · intro h
        exact good_bind _ _ _ (good_log _ _ (diagonal h))
          (fun _ _ => good_pathClearDiagonalT b frm dst)
      · intro _; exact good_pure _ _
  · dsimp only
    apply good_ite
    · intro h
      exact good_bind _ _ _ (good_log _ _ (straight h))
        (fun _ _ => good_pathClearStraightT b frm dst)
    · intro _; exact good_pure _ _
  · dsimp only
    apply good_ite
    · intro h
      exact good_bind _ _ _ (good_log _ _ (diagonal h))
        (fun _ _ => good_pathClearDiagonalT b frm dst)
    · intro _; exact good_pure _ _
  · exact good_pure _ _
  · exact good_pawnT _ _ _ _ _ _
  · exact good_pure _ _

/-- The events of the scan of `squareAttacked` on a valid square that holds no
piece of colour `byC` are well formed. -/
theorem good_scanT (b : Board) (sq : Position) (byC : Color) (hv : sq.isValid = true)
    (hsq : (b.cell sq).color ≠ byC) :
    ∀ l : List (Fin 8 × Fin 8), Traced.Good Event.wellFormed (squareAttacked.scanT b sq byC l) := by
  intro l
  induction l with
  | nil => exact good_pure _ _
  | cons s rest ih =>
    obtain ⟨r, c⟩ := s
    unfold squareAttacked.scanT
    dsimp only
    apply good_bind _ _ _ (good_readT b r c)
    intro p hp
    rw [readT_snd] at hp
    simp only [Except.ok.injEq] at hp
    subst hp
    apply good_ite
    · intro _; exact ih
    · intro h1
      apply good_ite
      · intro _
        apply good_ite
        · intro _; exact good_pure _ _
        · intro _; exact ih
      · intro _
        have hco : (b.cells_ r c).color = byC := by
          by_contra hcon; exact h1 (Or.inr hcon)
        apply good_bind _ _ _ (good_validPieceMoveT b _ sq hv
          (ofFin_ne_of_color b sq byC r c hsq hco))
        intro v _
        repeat (first
          | exact good_pure _ _
          | exact ih
          | exact good_differentColorOrEmptyT _ _ _
          | apply good_ite
          | apply good_bind
          | intro _)

theorem good_findKingT (b : Board) (c : Color) :
    ∀ l : List (Fin 8 × Fin 8), Traced.Good Event.wellFormed (inCheck.findKingT b c l) := by
  intro l
  induction l with
  | nil => exact good_pure _ _
  | cons s rest ih =>
    obtain ⟨r, co⟩ := s
    unfold inCheck.findKingT
    apply good_bind _ _ _ (good_readT b r co)
    intro p _
    apply good_ite
    · intro _; exact good_pure _ _
    · intro _; exact ih

/-- The events of `inCheck` are well formed, on every board. -/
theorem good_inCheckT (b : Board) (c : Color) :
    Traced.Good Event.wellFormed (b.inCheckT c) := by
  unfold Board.inCheckT
  apply good_bind _ _ _ (good_findKingT b c allSquares)
  intro k hk
  rw [findKingT_snd] at hk
  simp only [Except.ok.injEq] at hk
  cases k with
  | none => exact good_pure _ _
  | some s =>
    obtain ⟨r, co⟩ := s
    have hking := findKing_some b c r co hk
    exact good_scanT b (Position.ofFin r co) _ (ofFin_isValid r co)
      (by rw [cell_ofFin, hking.2]; exact fun h => opp_ne c h.symm) allSquares

theorem good_relocateT (b : Board) (frm dst : Position) :
    Traced.Good Event.wellFormed (b.relocateT frm dst) := by
  unfold Board.relocateT
  apply good_bind _ _ _ (good_atT b frm)
  intro x _
  apply good_bind _ _ _ (good_setT b dst x)
  intro b1 _
  exact good_setT b1 frm _

/-- Every event recorded by the instrumented `move` is well formed. -/
theorem good_moveT (b : Board) (frm dst : Position) (turn : Color) :
    Traced.Good Event.wellFormed (b.moveT frm dst turn) := by
  unfold Board.moveT
  apply good_ite
  · intro _; exact good_pure _ _
  · intro hval
    have hf : frm.isValid = true := by
      by_contra h; apply hval; simp [h]
    have hd : dst.isValid = true := by
      by_contra h; apply hval; simp [h]
    apply good_bind _ _ _ (good_isEmptyT b frm)
    intro e he
    rw [isEmptyT_snd, isEmpty_valid b hf] at he
    simp only [Except.ok.injEq] at he
    apply good_ite
    · intro _; exact good_pure _ _
    · intro hne0
      apply good_bind _ _ _ (good_atT b frm)
      intro mover hm
      have hmover := (at_ok_valid b frm mover hm).2
      apply good_ite
      · intro _; exact good_pure _ _
      · intro hcol
        apply good_bind _ _ _ (good_differentColorOrEmptyT b dst turn)
        intro d hdiff
        rw [differentColorOrEmptyT_snd, differentColorOrEmpty_valid b turn hd] at hdiff
        simp only [Except.ok.injEq] at hdiff
        apply good_ite
        · intro _; exact good_pure _ _
        · intro hdt
          have h1 : (b.cell frm).type ≠ PieceType.NONE := by
            intro h; apply hne0; rw [← he]; simp [h]
          have h2 : (b.cell frm).color = turn := by
            rw [← hmover]; by_contra h; exact hcol h
          have h3 : (b.cell dst).type = PieceType.NONE ∨ (b.cell dst).color ≠ turn := by
            have : d = true := by
              cases d
              · exact absurd rfl hdt
              · rfl
            rw [this] at hdiff
            simpa using hdiff
          have hne : frm ≠ dst := ne_of_owned b frm dst turn h1 h2 h3
          apply good_bind _ _ _ (good_validPieceMoveT b frm dst hd hne)
          intro v _
          apply good_ite
          · intro _; exact good_pure _ _
          · intro _
            apply good_bind _ _ _ (good_relocateT b frm dst)
            intro tmp _
            apply good_bind _ _ _ (good_inCheckT tmp turn)
            intro chk _
            apply good_ite
            · intro _; exact good_pure _ _
            · intro _
              exact good_bind _ _ _ (good_relocateT b frm dst) (fun _ _ => good_pure _ _)

end WellFormed

section TraceLength

variable {α β : Type}

theorem Traced.length_bind_le (t : Traced α) (f : α → Traced β) (n m : Nat)
    (ht : t.1.length ≤ n) (hf : ∀ a, (f a).1.length ≤ m) :
    (t >>= f).1.length ≤ n + m := by
  rw [Traced.bind_def]
  cases t.2 with
  | error e => simp only; omega
  | ok a =>
    simp only [List.length_append]
    have := hf a
    omega

theorem isEmptyT_length (b : Board) (p : Position) : (b.isEmptyT p).1.length ≤ 1 := by
  unfold Board.isEmptyT
  have := Traced.length_bind_le (b.atT p)
    (fun x => (pure (decide (x.type = PieceType.NONE)) : Traced Bool)) 1 0
    (by simp [Board.atT]) (fun _ => by simp [Traced.pure_def])
  exact this

theorem ite_length_le (c : Prop) [Decidable c] (t u : Traced α) (n : Nat)
    (ht : t.1.length ≤ n) (hu : u.1.length ≤ n) : (if c then t else u).1.length ≤ n := by
  by_cases h : c
  · rw [if_pos h]; exact ht
  · rw [if_neg h]; exact hu

theorem pure_length (a : α) : (pure a : Traced α).1.length = 0 := rfl

/-- The column loop started `m` steps before its target records at most `m`
accesses, one for each iteration. -/
theorem colLoopT_length (b : Board) (row toCol step : Int) (hs : step = 1 ∨ step = -1) :
    ∀ (m fuel : Nat) (c : Int), toCol = c + step * (m : Int) →
      (pathClearStraight.colLoopT b row toCol step fuel c).1.length ≤ m := by
  intro m
  induction m with
  | zero =>
    intro fuel c ht
    have hc : c = toCol := by simp at ht; exact ht.symm
    cases fuel with
    | zero => simp [pathClearStraight.colLoopT]
    | succ f =>
      unfold pathClearStraight.colLoopT
      rw [if_pos hc]
      simp [Traced.pure_def]
  | succ m ih =>
    intro fuel c ht
    cases fuel with
    | zero => simp [pathClearStraight.colLoopT]
    | succ f =>
      unfold pathClearStraight.colLoopT
      have hne : c ≠ toCol := by
        intro h
        have := step_mul_succ step m hs
        omega
      rw [if_neg hne]
      have := Traced.length_bind_le (b.isEmptyT ⟨row, c⟩)
        (fun e => if (!e) = true then (pure false : Traced Bool)
          else pathClearStraight.colLoopT b row toCol step f (c + step)) 1 m
        (isEmptyT_length b _)
        (fun e => ite_length_le _ _ _ _ (by simp [Traced.pure_def])
          (ih f (c + step) (by rw [ht]; push_cast; ring)))
      omega

theorem rowLoopT_length (b : Board) (col toRow step : Int) (hs : step = 1 ∨ step = -1) :
    ∀ (m fuel : Nat) (r : Int), toRow = r + step * (m : Int) →
      (pathClearStraight.rowLoopT b col toRow step fuel r).1.length ≤ m := by
  intro m
  induction m with
  | zero =>
    intro fuel r ht
    have hc : r = toRow := by simp at ht; exact ht.symm
    cases fuel with
    | zero => simp [pathClearStraight.rowLoopT]
    | succ f =>
      unfold pathClearStraight.rowLoopT
      rw [if_pos hc]
      simp [Traced.pure_def]
  | succ m ih =>
    intro fuel r ht
    cases fuel with
    | zero => simp [pathClearStraight.rowLoopT]
    | succ f =>
      unfold pathClearStraight.rowLoopT
      have hne : r ≠ toRow := by
        intro h
        have := step_mul_succ step m hs
        omega
      rw [if_neg hne]
      have := Traced.length_bind_le (b.isEmptyT ⟨r, col⟩)
        (fun e => if (!e) = true then (pure false : Traced Bool)
          else pathClearStraight.rowLoopT b col toRow step f (r + step)) 1 m
        (isEmptyT_length b _)
        (fun e => ite_length_le _ _ _ _ (by simp [Traced.pure_def])
          (ih f (r + step) (by rw [ht]; push_cast; ring)))
      omega

theorem diagLoopT_length (b : Board) (dst : Position) (sr sc : Int)
    (hsr : sr = 1 ∨ sr = -1) (hsc : sc = 1 ∨ sc = -1) :
    ∀ (m fuel : Nat) (r c : Int), dst.row = r + sr * (m : Int) → dst.col = c + sc * (m : Int) →
      (pathClearDiagonal.loopT b dst sr sc fuel r c).1.length ≤ m := by
  intro m
  induction m with
  | zero =>
    intro fuel r c htr _
    have hr : r = dst.row := by simp at htr; exact htr.symm
    cases fuel with
    | zero => simp [pathClearDiagonal.loopT]
    | succ f =>
      unfold pathClearDiagonal.loopT
      rw [if_neg (by intro h; exact h.1 hr)]
      simp [Traced.pure_def]
  | succ m ih =>
    intro fuel r c htr htc
    cases fuel with
    | zero => simp [pathClearDiagonal.loopT]
    | succ f =>
      unfold pathClearDiagonal.loopT
      have hner : r ≠ dst.row := by
        intro h
        have := step_mul_succ sr m hsr
        omega
      have hnec : c ≠ dst.col := by
        intro h
        have := step_mul_succ sc m hsc
        omega
      rw [if_pos ⟨hner, hnec⟩]
      have := Traced.length_bind_le (b.isEmptyT ⟨r, c⟩)
        (fun e => if (!e) = true then (pure false : Traced Bool)
          else pathClearDiagonal.loopT b dst sr sc f (r + sr) (c + sc)) 1 m
        (isEmptyT_length b _)
        (fun e => ite_length_le _ _ _ _ (by simp [Traced.pure_def])
          (ih f (r + sr) (c + sc) (by rw [htr]; push_cast; ring) (by rw [htc]; push_cast; ring)))
      omega

/-- Between two distinct valid squares on a common row or column,
`pathClearStraight` makes at most 6 iterations. -/
theorem pathClearStraightT_length (b : Board) (frm dst : Position)
    (hf : frm.isValid = true) (hd : dst.isValid = true) (hne : frm ≠ dst)
    (hal : frm.row = dst.row ∨ frm.col = dst.col) :
    (b.pathClearStraightT frm dst).1.length ≤ 6 := by
  rw [isValid_iff] at hf hd
  obtain ⟨hf1, hf2, hf3, hf4⟩ := hf
  obtain ⟨hd1, hd2, hd3, hd4⟩ := hd
  have hne' := position_ne hne
  unfold Board.pathClearStraightT
  by_cases hrow : frm.row = dst.row
  · rw [if_pos hrow]
    dsimp only
    by_cases hlt : dst.col > frm.col
    · rw [if_pos hlt]
      have := colLoopT_length b frm.row dst.col 1 (Or.inl rfl)
        (dst.col - frm.col - 1).toNat loopFuel (frm.col + 1) (by omega)
      omega
    · rw [if_neg hlt]
      have := colLoopT_length b frm.row dst.col (-1) (Or.inr rfl)
        (frm.col - dst.col - 1).toNat loopFuel (frm.col + -1) (by omega)
      omega
  · rw [if_neg hrow]
    have hcol : frm.col = dst.col := by omega
    rw [if_pos hcol]
    dsimp only
    by_cases hlt : dst.row > frm.row
    · rw [if_pos hlt]
      have := rowLoopT_length b frm.col dst.row 1 (Or.inl rfl)
        (dst.row - frm.row - 1).toNat loopFuel (frm.row + 1) (by omega)
      omega
    · rw [if_neg hlt]
      have := rowLoopT_length b frm.col dst.row (-1) (Or.inr rfl)
        (frm.row - dst.row - 1).toNat loopFuel (frm.row + -1) (by omega)
      omega

/-- Between two distinct valid squares on an exact diagonal,
`pathClearDiagonal` makes at most 6 iterations. -/
theorem pathClearDiagonalT_length (b : Board) (frm dst : Position)
    (hf : frm.isValid = true) (hd : dst.isValid = true) (hne : frm ≠ dst)
    (hal : (dst.row - frm.row).natAbs = (dst.col - frm.col).natAbs) :
    (b.pathClearDiagonalT frm dst).1.length ≤ 6 := by
  rw [isValid_iff] at hf hd
  obtain ⟨hf1, hf2, hf3, hf4⟩ := hf
  obtain ⟨hd1, hd2, hd3, hd4⟩ := hd
  have hne' := position_ne hne
  unfold Board.pathClearDiagonalT
  dsimp only
  rw [if_neg (by intro h; exact h hal)]
  by_cases hr : dst.row - frm.row > 0 <;> by_cases hc : dst.col - frm.col > 0
  · rw [if_pos hr, if_pos hc]
    have := diagLoopT_length b dst 1 1 (Or.inl rfl) (Or.inl rfl)
      ((dst.row - frm.row).natAbs - 1) loopFuel (frm.row + 1) (frm.col + 1)
      (by omega) (by omega)
    omega
  · rw [if_pos hr, if_neg hc]
    have := diagLoopT_length b dst 1 (-1) (Or.inl rfl) (Or.inr rfl)
      ((dst.row - frm.row).natAbs - 1) loopFuel (frm.row + 1) (frm.col + -1)
      (by omega) (by omega)
    omega
  · rw [if_neg hr, if_pos hc]
    have := diagLoopT_length b dst (-1) 1 (Or.inr rfl) (Or.inl rfl)
      ((dst.row - frm.row).natAbs - 1) loopFuel (frm.row + -1) (frm.col + 1)
      (by omega) (by omega)
    omega
  · rw [if_neg hr, if_neg hc]
    have := diagLoopT_length b dst (-1) (-1) (Or.inr rfl) (Or.inr rfl)
      ((dst.row - frm.row).natAbs - 1) loopFuel (frm.row + -1) (frm.col + -1)
      (by omega) (by omega)
    omega

end TraceLength

/-- C12. Grid accesses stay in bounds.  `move` returns a verdict for arbitrary
integer coordinates, so no access of the grid falls outside it; the instrumented
`move` computes the same result, every access it records (by `move` itself,
`validPieceMove`, the path functions, the pawn's intermediate square,
`squareAttacked` and `inCheck` on the simulated copy) has row and column in
`[0,7]`, and for an invalid `frm` or `dst` it returns `false` with no access
recorded at all. -/
theorem grid_accesses_in_bounds (b : Board) (frm dst : Position) (turn : Color) :
    (∃ res, b.move frm dst turn = .ok res ∧ (b.moveT frm dst turn).2 = .ok res) ∧
    (∀ p : Position, Event.cell p ∈ (b.moveT frm dst turn).1 → p.isValid = true) ∧
    ((frm.isValid = false ∨ dst.isValid = false) →
      b.moveT frm dst turn = ([], .ok (false, b))) := by
  have htot : ∃ res, b.move frm dst turn = .ok res := by
    rcases move_cases b frm dst turn with ⟨h, _⟩ | ⟨tmp, _, h, _⟩
    · exact ⟨_, h⟩
    · exact ⟨_, h⟩
  obtain ⟨res, hres⟩ := htot
  have hT : (b.moveT frm dst turn).2 = .ok res := by rw [moveT_snd, hres]
  refine ⟨⟨res, hres, hT⟩, ?_, ?_⟩
  · intro p hp
    exact good_moveT b frm dst turn ⟨res, hT⟩ _ hp
  · intro hinv
    unfold Board.moveT
    rw [if_pos (by rcases hinv with h | h <;> simp [h])]
    rfl

/-- C12 at concrete inputs: a move from a7 to the off-board square (9, -3)
records no access. -/
theorem grid_accesses_in_bounds_witness :
    Board.setupInitial.moveT ⟨1, 0⟩ ⟨9, -3⟩ Color.WHITE = ([], .ok (false, Board.setupInitial)) :=
  (grid_accesses_in_bounds Board.setupInitial ⟨1, 0⟩ ⟨9, -3⟩ Color.WHITE).2.2 (Or.inr rfl)

/-- C13. `move` terminates on every input: it returns a verdict, the
instrumented `move` computes the same result, and every call of
`pathClearStraight` or `pathClearDiagonal` it records (from `validPieceMove`
directly or through `squareAttacked` in the self-check test) has two valid,
distinct endpoints on a common row or column, respectively on an exact
diagonal; run on its own, such a call returns a verdict after at most 6
iterations (it records one access for each iteration). -/
theorem move_terminates (b : Board) (frm dst : Position) (turn : Color) :
    (∃ res, b.move frm dst turn = .ok res ∧ (b.moveT frm dst turn).2 = .ok res) ∧
    (∀ (b' : Board) (f g : Position),
      Event.path b' false f g ∈ (b.moveT frm dst turn).1 →
      f.isValid = true ∧ g.isValid = true ∧ f ≠ g ∧ (f.row = g.row ∨ f.col = g.col) ∧
      (∃ v, b'.pathClearStraight f g = .ok v ∧ (b'.pathClearStraightT f g).2 = .ok v) ∧
      (b'.pathClearStraightT f g).1.length ≤ 6) ∧
    (∀ (b' : Board) (f g : Position),
      Event.path b' true f g ∈ (b.moveT frm dst turn).1 →
      f.isValid = true ∧ g.isValid = true ∧ f ≠ g ∧
      (g.row - f.row).natAbs = (g.col - f.col).natAbs ∧
      (∃ v, b'.pathClearDiagonal f g = .ok v ∧ (b'.pathClearDiagonalT f g).2 = .ok v) ∧
      (b'.pathClearDiagonalT f g).1.length ≤ 6) := by
  have htot : ∃ res, b.move frm dst turn = .ok res := by
    rcases move_cases b frm dst turn with ⟨h, _⟩ | ⟨tmp, _, h, _⟩
    · exact ⟨_, h⟩
    · exact ⟨_, h⟩
  obtain ⟨res, hres⟩ := htot
  have hT : (b.moveT frm dst turn).2 = .ok res := by rw [moveT_snd, hres]
  refine ⟨⟨res, hres, hT⟩, ?_, ?_⟩
  · intro b' f g he
    obtain ⟨hf, hg, hne, hal⟩ := good_moveT b frm dst turn ⟨res, hT⟩ _ he
    simp only [Bool.false_eq_true, if_false] at hal
    obtain ⟨v, hv, _⟩ := pathClearStraight_spec b' f g hf hg hne (by omega)
    exact ⟨hf, hg, hne, hal, ⟨v, hv, by rw [pathClearStraightT_snd, hv]⟩,
      pathClearStraightT_length b' f g hf hg hne hal⟩
  · intro b' f g he
    obtain ⟨hf, hg, hne, hal⟩ := good_moveT b frm dst turn ⟨res, hT⟩ _ he
    simp only [if_true] at hal
    obtain ⟨v, hv, _⟩ := pathClearDiagonal_spec b' f g hf hg hne hal
    exact ⟨hf, hg, hne, hal, ⟨v, hv, by rw [pathClearDiagonalT_snd, hv]⟩,
      pathClearDiagonalT_length b' f g hf hg hne hal⟩

/-- C13 at a concrete input: with White king e1, White rook e2 and Black rook
e8, the move e2 to a2 records the call `pathClearStraight(e2, a2)` as its fifth
event, and that call makes at most 6 iterations. -/
theorem move_terminates_witness :
    (pinnedRook.moveT ⟨6, 4⟩ ⟨6, 0⟩ Color.WHITE).1[4]?
      = some (Event.path pinnedRook false ⟨6, 4⟩ ⟨6, 0⟩) ∧
    (pinnedRook.pathClearStraightT ⟨6, 4⟩ ⟨6, 0⟩).1.length ≤ 6 :=
  have h : (pinnedRook.moveT ⟨6, 4⟩ ⟨6, 0⟩ Color.WHITE).1[4]?
      = some (Event.path pinnedRook false ⟨6, 4⟩ ⟨6, 0⟩) := rfl
  ⟨h, ((move_terminates pinnedRook ⟨6, 4⟩ ⟨6, 0⟩ Color.WHITE).2.1 pinnedRook ⟨6, 4⟩ ⟨6, 0⟩
    (List.getElem?_mem h)).2.2.2.2.2⟩

end Chess
